import Mathlib

/-!
Verification of the repodiet incremental history scanner against its
natural-language specification.

The development shallowly embeds the Rust source:
* machine integers `i64`/`u64` are modelled as `Int`/`Nat` (the claims under
  study never exercise wrap-around, and hypotheses state the ranges where it
  matters),
* byte strings (`Vec<u8>`, `BString`) are modelled as `List Char` or
  `List Nat` (bytes), as noted at each definition,
* hash sets and hash maps (`FxHashSet`, `FxHashMap`, SQLite tables) are
  modelled as lists with membership/first-match lookup; insertion order is
  kept faithful to the source,
* fallible operations are modelled with `Except`/`Option`, with the failure
  point injected as an explicit parameter where a claim is about error
  behaviour.

Each claim of the specification is settled by one theorem near the end of the
corresponding section.
-/

namespace Repodiet

/-! ## Schema initialisation (`Database::init_schema`, src/repository/database.rs)

A SQLite file is modelled as one `Option` per table that the code ever
touches: `none` means the table does not exist, `some rows` is its contents.
Row types mirror the declared columns (TEXT as `String`/`List Char`, BLOB as
`List Nat` of bytes, INTEGER as `Int`).  The two legacy tables are only ever
dropped, so their row type is irrelevant and kept abstract as `Unit` rows. -/

/-- Constant `SCHEMA_VERSION` from src/repository/mod.rs. -/
def SCHEMA_VERSION : String := "8"

/-- Rows of the `paths` table: `(path, cumulative_size, current_size, blob_count)`. -/
abbrev PathsRow := String × Int × Int × Int

/-- Rows of the `blobs` table: `(oid, size, path, first_author, first_date)`. -/
abbrev BlobsRow := List Nat × Int × String × String × Int

/-- State of the SQLite database file, one field per table. -/
structure SqliteFile where
  metadata : Option (List (String × String))
  paths : Option (List PathsRow)
  seen_blobs : Option (List (List Nat))
  scanned_commits : Option (List (List Nat))
  blobs : Option (List BlobsRow)
  path_stats : Option (List Unit)
  path_lookup : Option (List Unit)
deriving DecidableEq

/-- Lookup of a metadata row by primary key (`SELECT value FROM metadata WHERE key = ?`). -/
def metaLookup (m : List (String × String)) (k : String) : Option String :=
  (m.find? (fun kv => kv.1 = k)).map (fun kv => kv.2)

/-- Effect of `INSERT OR REPLACE INTO metadata (key, value) VALUES (?, ?)`. -/
def metaReplace (m : List (String × String)) (k v : String) : List (String × String) :=
  m.filter (fun kv => kv.1 ≠ k) ++ [(k, v)]

/-- Effect of `CREATE TABLE IF NOT EXISTS`: an absent table becomes empty,
an existing table is untouched. -/
def createIfAbsent {ρ : Type} (t : Option (List ρ)) : Option (List ρ) :=
  match t with
  | none => some []
  | some rows => some rows

/-- `Database::init_schema`.  Creates `metadata` if missing, reads
`schema_version`, on mismatch drops every domain table (including the legacy
`path_stats`/`path_lookup`) and clears `metadata`, re-creates the four domain
tables, stores the current version when a rebuild happened, and returns
whether a rebuild happened. -/
def initSchema (db : SqliteFile) : SqliteFile × Bool :=
  let db1 := { db with metadata := createIfAbsent db.metadata }
  let stored := metaLookup (db1.metadata.getD []) "schema_version"
  let needsRebuild := stored ≠ some SCHEMA_VERSION
  let db2 :=
    if needsRebuild then
      { db1 with path_stats := none, path_lookup := none, paths := none,
                 seen_blobs := none, scanned_commits := none, blobs := none,
                 metadata := some [] }
    else db1
  let db3 := { db2 with paths := createIfAbsent db2.paths,
                        seen_blobs := createIfAbsent db2.seen_blobs,
                        scanned_commits := createIfAbsent db2.scanned_commits,
                        blobs := createIfAbsent db2.blobs }
  let db4 :=
    if needsRebuild then
      { db3 with metadata := some (metaReplace (db3.metadata.getD []) "schema_version" SCHEMA_VERSION) }
    else db3
  (db4, needsRebuild)

/-- C8 — Schema gate: opening a store whose persisted `schema_version` differs
from the current constant drops every domain table (`paths`, `seen_blobs`,
`scanned_commits`, `blobs`, and the legacy `path_stats` and `path_lookup`),
clears `metadata`, re-creates the schema and returns `true`; afterwards the
four domain tables are empty.  When the version matches, `init_schema`
returns `false` and no table is dropped. -/
theorem init_schema_gate (db : SqliteFile) (m : List (String × String))
    (hmeta : db.metadata = some m) :
    (∀ v, metaLookup m "schema_version" = some v → v ≠ SCHEMA_VERSION →
      (initSchema db).2 = true ∧
      (initSchema db).1.paths = some [] ∧
      (initSchema db).1.seen_blobs = some [] ∧
      (initSchema db).1.scanned_commits = some [] ∧
      (initSchema db).1.blobs = some [] ∧
      (initSchema db).1.path_stats = none ∧
      (initSchema db).1.path_lookup = none ∧
      (initSchema db).1.metadata = some [("schema_version", SCHEMA_VERSION)]) ∧
    (metaLookup m "schema_version" = some SCHEMA_VERSION →
      (initSchema db).2 = false ∧
      (∀ rows, db.paths = some rows → (initSchema db).1.paths = some rows) ∧
      (∀ rows, db.seen_blobs = some rows → (initSchema db).1.seen_blobs = some rows) ∧
      (∀ rows, db.scanned_commits = some rows → (initSchema db).1.scanned_commits = some rows) ∧
      (∀ rows, db.blobs = some rows → (initSchema db).1.blobs = some rows) ∧
      (initSchema db).1.path_stats = db.path_stats ∧
      (initSchema db).1.path_lookup = db.path_lookup ∧
      (initSchema db).1.metadata = some m) := by
  obtain ⟨md, pa, sb, sc, bl, ps, pl⟩ := db
  simp only at hmeta
  subst hmeta
  constructor
  · intro v hv hne
    have hmm : ¬ metaLookup m "schema_version" = some SCHEMA_VERSION := by
      rw [hv]
      intro h
      exact hne (by injection h)
    simp [initSchema, hmm, createIfAbsent, metaReplace]
  · intro hv
    simp only [initSchema, createIfAbsent, Option.getD_some, hv, ne_eq, not_true_eq_false,
      if_false, Bool.false_eq_true]
    and_intros <;> first | trivial | rfl | (intro rows hr; subst hr; rfl)

/-- Witness for `init_schema_gate` at a concrete store persisted under
version `"7"`: the gate reports a rebuild and empties the domain tables. -/
theorem init_schema_gate_witness :
    (initSchema ⟨some [("schema_version", "7")], some [("a", 1, 1, 1)],
        some [[1]], some [[2]], some [([3], 4, "p", "au", 5)], some [()], none⟩).2 = true ∧
    (initSchema ⟨some [("schema_version", "7")], some [("a", 1, 1, 1)],
        some [[1]], some [[2]], some [([3], 4, "p", "au", 5)], some [()], none⟩).1.paths = some [] := by
  have h := init_schema_gate
    ⟨some [("schema_version", "7")], some [("a", 1, 1, 1)],
      some [[1]], some [[2]], some [([3], 4, "p", "au", 5)], some [()], none⟩
    [("schema_version", "7")] rfl
  have h2 := h.1 "7" (by decide) (by decide)
  exact ⟨h2.1, h2.2.1⟩

/-! ## Scanned-commit loading (`Database::load_scanned_commit_oids`,
src/repository/database.rs) and commit planning (`GitScanner::plan_commits`,
src/repository/scanner/mod.rs)

OIDs at the database boundary are 20-byte BLOBs, modelled as `List Nat` of
bytes.  The SQL query result is modelled as `Except Unit (List (List Nat))`:
`.error` is a failed `fetch_all` (the code calls `.unwrap_or_default()`),
`.ok rows` the returned BLOB column.  Rust's `Vec<u8> → [u8; 20]`
`try_into().ok()` succeeds exactly on length-20 values. -/

/-- `Database::load_scanned_commit_oids`: on query error returns the empty
set (`unwrap_or_default`), otherwise keeps exactly the rows that convert to
`[u8; 20]`. -/
def loadScannedCommitOids (res : Except Unit (List (List Nat))) : List (List Nat) :=
  match res with
  | .error _ => []
  | .ok rows => rows.filterMap (fun v => if v.length = 20 then some v else none)

/-- `GitScanner::plan_commits`: keep the collected commits that are not in
the scanned set, preserving order. -/
def planCommits (all_commits : List (List Nat)) (scanned : List (List Nat)) : List (List Nat) :=
  all_commits.filter (fun oid => !(scanned.contains oid))

/-- C10 — `load_scanned_commit_oids` returns exactly the stored oids whose
BLOB is exactly 20 bytes, silently dropping malformed entries; on query
failure it returns the empty set instead of an error, so `plan_commits`
treats every collected commit as unscanned. -/
theorem load_scanned_commits_degrades :
    (∀ rows b, b ∈ loadScannedCommitOids (.ok rows) ↔ (b ∈ rows ∧ b.length = 20)) ∧
    loadScannedCommitOids (.error ()) = [] ∧
    (∀ all_commits, planCommits all_commits (loadScannedCommitOids (.error ())) = all_commits) := by
  refine ⟨?_, rfl, ?_⟩
  · intro rows b
    simp only [loadScannedCommitOids, List.mem_filterMap]
    constructor
    · rintro ⟨a, ha, hb⟩
      by_cases h : a.length = 20
      · simp only [h, if_true] at hb
        injection hb with hb
        subst hb
        exact ⟨ha, h⟩
      · simp [h] at hb
    · rintro ⟨hb, hl⟩
      exact ⟨b, hb, by simp [hl]⟩
  · intro all_commits
    simp [planCommits, loadScannedCommitOids, List.filter_eq_self]

/-! ## Pack size computation (`load_pack_compressed_sizes` and
`load_all_compressed_sizes`, src/repository/scanner/pack.rs)

Pack-index entries are `(oid, pack_offset)` pairs; `pack_end` (the pack file
length minus the trailing checksum, obtained from the gix library) is taken
as a parameter.  `FxHashMap<ObjectId, u64>` is modelled as an association
list where `insert` replaces any previous binding, and lookup is first
match.  Offsets and sizes are `u64`, modelled as `Nat`; the source's `u64`
subtraction is modelled by truncated `Nat` subtraction, which agrees with it
whenever no underflow occurs (the theorem's hypotheses put every offset
below `pack_end`, and sorting orders consecutive offsets). -/

/-- One entry of a pack index: object id and byte offset into the pack. -/
structure IdxEntry where
  oid : Nat
  pack_offset : Nat
deriving DecidableEq

/-- `FxHashMap::insert`: replaces any previous binding of the key. -/
def mapInsert (m : List (Nat × Nat)) (k v : Nat) : List (Nat × Nat) :=
  (k, v) :: m.filter (fun e => e.1 ≠ k)

/-- `FxHashMap` lookup. -/
def mapLookup (m : List (Nat × Nat)) (k : Nat) : Option Nat :=
  (m.find? (fun e => e.1 = k)).map (fun e => e.2)

/-- Loop body of `load_pack_compressed_sizes`: for each entry of the sorted
list, `entry_end` is the next entry's offset, or `pack_end` for the last
entry, and `entry_end - pack_offset` is inserted for the entry's oid. -/
def insertSizes (m : List (Nat × Nat)) : List IdxEntry → Nat → List (Nat × Nat)
  | [], _ => m
  | [e], packEnd => mapInsert m e.oid (packEnd - e.pack_offset)
  | e :: e2 :: rest, packEnd =>
      insertSizes (mapInsert m e.oid (e2.pack_offset - e.pack_offset)) (e2 :: rest) packEnd

/-- `load_pack_compressed_sizes`: collect the index entries, sort ascending
by `pack_offset` (`sort_by_key`), then insert the consecutive-offset
differences. -/
def loadPackCompressedSizes (entries : List IdxEntry) (packEnd : Nat) : List (Nat × Nat) :=
  insertSizes [] (entries.mergeSort (fun a b => a.pack_offset ≤ b.pack_offset)) packEnd

/-- `FxHashMap::extend` as used by `load_all_compressed_sizes`: insert every
binding of the new map, overriding previous packs' bindings. -/
def extendMap (m new : List (Nat × Nat)) : List (Nat × Nat) :=
  new.foldl (fun acc e => mapInsert acc e.1 e.2) m

/-- `load_all_compressed_sizes`: fold `extend` over the readable packs, each
given as its index entries plus its `pack_end`. -/
def loadAllCompressedSizes (packs : List (List IdxEntry × Nat)) : List (Nat × Nat) :=
  packs.foldl (fun acc p => extendMap acc (loadPackCompressedSizes p.1 p.2)) []

theorem mapLookup_insert_self (m : List (Nat × Nat)) (k v : Nat) :
    mapLookup (mapInsert m k v) k = some v := by
  simp [mapLookup, mapInsert]

theorem mapLookup_insert_other (m : List (Nat × Nat)) (k v k' : Nat) (h : k' ≠ k) :
    mapLookup (mapInsert m k v) k' = mapLookup m k' := by
  simp only [mapLookup, mapInsert]
  rw [List.find?_cons_of_neg _ (by simpa using fun hh => h hh.symm)]
  induction m with
  | nil => rfl
  | cons e rest ih =>
    by_cases he : e.1 = k
    · rw [List.filter_cons_of_neg (by simpa using he)]
      rw [List.find?_cons_of_neg _ (by simp [he]; exact fun hh => h hh.symm)]
      exact ih
    · rw [List.filter_cons_of_pos (by simpa using he)]
      by_cases he' : e.1 = k'
      · rw [List.find?_cons_of_pos _ (by simpa using he'), List.find?_cons_of_pos _ (by simpa using he')]
      · rw [List.find?_cons_of_neg _ (by simpa using he'), List.find?_cons_of_neg _ (by simpa using he')]
        exact ih

theorem mapLookup_eq_none_of_not_mem (m : List (Nat × Nat)) (k : Nat)
    (h : k ∉ m.map (fun e => e.1)) : mapLookup m k = none := by
  have hf : List.find? (fun e => decide (e.1 = k)) m = none := by
    rw [List.find?_eq_none]
    intro e he
    simp only [List.mem_map] at h
    simpa using fun hk => h ⟨e, he, hk⟩
  simp [mapLookup, hf]

theorem extendMap_lookup_of_none (m new : List (Nat × Nat)) (k : Nat)
    (h : mapLookup new k = none) :
    mapLookup (extendMap m new) k = mapLookup m k := by
  induction new generalizing m with
  | nil => rfl
  | cons e rest ih =>
    have he : ¬ e.1 = k := by
      intro hk
      simp [mapLookup, List.find?_cons_of_pos, hk] at h
    rw [mapLookup] at h
    rw [List.find?_cons_of_neg _ (by simpa using he)] at h
    rw [extendMap, List.foldl_cons, ← extendMap, ih _ h]
    exact mapLookup_insert_other m e.1 e.2 k (fun hh => he hh.symm)

theorem insertSizes_lookup_of_not_mem (s : List IdxEntry) (m : List (Nat × Nat))
    (packEnd : Nat) (k : Nat) (hk : k ∉ s.map (fun e => e.oid)) :
    mapLookup (insertSizes m s packEnd) k = mapLookup m k := by
  induction s generalizing m with
  | nil => rfl
  | cons e rest ih =>
    simp only [List.map_cons, List.mem_cons, not_or] at hk
    cases rest with
    | nil =>
      simpa [insertSizes] using mapLookup_insert_other m e.oid _ k hk.1
    | cons e2 rest2 =>
      rw [insertSizes, ih _ (by simpa using hk.2)]
      exact mapLookup_insert_other m e.oid _ k hk.1

theorem insertSizes_lookup (s : List IdxEntry) (m : List (Nat × Nat)) (packEnd : Nat)
    (hnod : (s.map (fun e => e.oid)).Nodup) (i : Nat) (hi : i < s.length) :
    mapLookup (insertSizes m s packEnd) (s.get ⟨i, hi⟩).oid =
      some ((((s.get? (i + 1)).map (fun e => e.pack_offset)).getD packEnd)
        - (s.get ⟨i, hi⟩).pack_offset) := by
  induction s generalizing m i with
  | nil => cases hi
  | cons e rest ih =>
    simp only [List.map_cons, List.nodup_cons] at hnod
    cases i with
    | zero =>
      cases rest with
      | nil =>
        simpa [insertSizes] using mapLookup_insert_self m e.oid _
      | cons e2 rest2 =>
        rw [insertSizes,
          insertSizes_lookup_of_not_mem _ _ _ _ (by simpa using hnod.1)]
        simpa using mapLookup_insert_self m e.oid _
    | succ j =>
      have hj : j < rest.length := by simpa using hi
      cases rest with
      | nil => cases hj
      | cons e2 rest2 =>
        rw [insertSizes]
        exact ih _ hnod.2 j hj

/-- C6 — Pack size computation: after sorting a pack's index entries
ascending by `pack_offset`, the size recorded for entry `i` is
`entries[i+1].pack_offset - entries[i].pack_offset`, and for the last entry
`pack_end - entries[last].pack_offset`; and when several maps contain the
same oid, `extend` keeps the binding of the map processed last. -/
theorem pack_size_computation (entries : List IdxEntry) (packEnd : Nat)
    (hnod : (entries.map (fun e => e.oid)).Nodup) :
    (∀ i, (hi : i < (entries.mergeSort (fun a b => a.pack_offset ≤ b.pack_offset)).length) →
      mapLookup (loadPackCompressedSizes entries packEnd)
        (((entries.mergeSort (fun a b => a.pack_offset ≤ b.pack_offset)).get ⟨i, hi⟩).oid) =
      some (((((entries.mergeSort (fun a b => a.pack_offset ≤ b.pack_offset)).get? (i + 1)).map
          (fun e => e.pack_offset)).getD packEnd)
        - ((entries.mergeSort (fun a b => a.pack_offset ≤ b.pack_offset)).get ⟨i, hi⟩).pack_offset)) ∧
    (∀ m1 m2 k, (m2.map (fun e => e.1)).Nodup → (mapLookup m2 k).isSome →
      mapLookup (extendMap m1 m2) k = mapLookup m2 k) := by
  constructor
  · intro i hi
    have hperm := List.mergeSort_perm entries (fun a b => a.pack_offset ≤ b.pack_offset)
    have hnod' : ((entries.mergeSort (fun a b => a.pack_offset ≤ b.pack_offset)).map
        (fun e => e.oid)).Nodup := ((hperm.map (fun e => e.oid)).nodup_iff).mpr hnod
    exact insertSizes_lookup _ [] packEnd hnod' i hi
  · intro m1 m2 k
    induction m2 generalizing m1 with
    | nil => simp [mapLookup]
    | cons e rest ih =>
      intro hnd hsome
      simp only [List.map_cons, List.nodup_cons] at hnd
      by_cases hk : e.1 = k
      · subst hk
        have hrest : mapLookup rest e.1 = none :=
          mapLookup_eq_none_of_not_mem rest e.1 (by simpa using hnd.1)
        rw [extendMap, List.foldl_cons, ← extendMap,
          extendMap_lookup_of_none _ _ _ hrest, mapLookup_insert_self]
        simp only [mapLookup]
        rw [List.find?_cons_of_pos _ (by simp)]
        rfl
      · have hsome' : (mapLookup rest k).isSome := by
          rw [mapLookup] at hsome
          rwa [List.find?_cons_of_neg _ (by simpa using hk)] at hsome
        rw [extendMap, List.foldl_cons, ← extendMap, ih _ hnd.2 hsome']
        simp only [mapLookup]
        rw [List.find?_cons_of_neg _ (by simpa using hk)]

/-- Witness for `pack_size_computation` at a concrete two-entry pack. -/
theorem pack_size_computation_witness :
    ((([⟨7, 12⟩, ⟨9, 30⟩] : List IdxEntry).map (fun e => e.oid)).Nodup) ∧
    ((∀ i, (hi : i < (([⟨7, 12⟩, ⟨9, 30⟩] : List IdxEntry).mergeSort
          (fun a b => a.pack_offset ≤ b.pack_offset)).length) →
      mapLookup (loadPackCompressedSizes [⟨7, 12⟩, ⟨9, 30⟩] 50)
        (((([⟨7, 12⟩, ⟨9, 30⟩] : List IdxEntry).mergeSort
          (fun a b => a.pack_offset ≤ b.pack_offset)).get ⟨i, hi⟩).oid) =
      some (((((([⟨7, 12⟩, ⟨9, 30⟩] : List IdxEntry).mergeSort
          (fun a b => a.pack_offset ≤ b.pack_offset)).get? (i + 1)).map
          (fun e => e.pack_offset)).getD 50)
        - ((([⟨7, 12⟩, ⟨9, 30⟩] : List IdxEntry).mergeSort
          (fun a b => a.pack_offset ≤ b.pack_offset)).get ⟨i, hi⟩).pack_offset)) ∧
    (∀ m1 m2 k, (m2.map (fun e => e.1)).Nodup → (mapLookup m2 k).isSome →
      mapLookup (extendMap m1 m2) k = mapLookup m2 k)) :=
  ⟨by decide, pack_size_computation [⟨7, 12⟩, ⟨9, 30⟩] 50 (by decide)⟩

/-! ## Path interning and lossy persistence (`PathInterner`,
src/repository/scanner/interner.rs, and the `BlobRecord` conversion in
src/repository/scanner/db_store.rs)

Paths inside the scanner are byte sequences (`BString`), modelled as
`List Nat` of bytes.  `PathInterner::get_str` decodes them with
`String::from_utf8_lossy`; `utf8Lossy` below models that standard-library
function faithfully (not repository code): well-formed UTF-8 sequences
decode to their code point, every maximal subpart of an ill-formed
subsequence is replaced by one U+FFFD, using the same second-byte ranges as
Rust core's `run_utf8_validation` (`E0: A0..BF`, `ED: 80..9F`, `F0: 90..BF`,
`F4: 80..8F`).  The decoded value is a `List Nat` of code points. -/

/-- Model of `String::from_utf8_lossy` on a byte list, producing the list of
decoded code points with U+FFFD (`0xFFFD`) for each maximal invalid subpart. -/
def utf8Lossy : List Nat → List Nat
  | [] => []
  | b0 :: rest =>
    if b0 < 0x80 then b0 :: utf8Lossy rest
    else if b0 < 0xC2 then 0xFFFD :: utf8Lossy rest
    else if b0 < 0xE0 then
      match rest with
      | b1 :: rest1 =>
        if 0x80 ≤ b1 ∧ b1 < 0xC0 then
          ((b0 - 0xC0) * 0x40 + (b1 - 0x80)) :: utf8Lossy rest1
        else 0xFFFD :: utf8Lossy (b1 :: rest1)
      | [] => [0xFFFD]
    else if b0 < 0xF0 then
      match rest with
      | b1 :: rest1 =>
        if (if b0 = 0xE0 then 0xA0 ≤ b1 ∧ b1 < 0xC0
            else if b0 = 0xED then 0x80 ≤ b1 ∧ b1 < 0xA0
            else 0x80 ≤ b1 ∧ b1 < 0xC0) then
          match rest1 with
          | b2 :: rest2 =>
            if 0x80 ≤ b2 ∧ b2 < 0xC0 then
              ((b0 - 0xE0) * 0x1000 + (b1 - 0x80) * 0x40 + (b2 - 0x80)) :: utf8Lossy rest2
            else 0xFFFD :: utf8Lossy (b2 :: rest2)
          | [] => [0xFFFD]
        else 0xFFFD :: utf8Lossy (b1 :: rest1)
      | [] => [0xFFFD]
    else if b0 < 0xF5 then
      match rest with
      | b1 :: rest1 =>
        if (if b0 = 0xF0 then 0x90 ≤ b1 ∧ b1 < 0xC0
            else if b0 = 0xF4 then 0x80 ≤ b1 ∧ b1 < 0x90
            else 0x80 ≤ b1 ∧ b1 < 0xC0) then
          match rest1 with
          | b2 :: rest2 =>
            if 0x80 ≤ b2 ∧ b2 < 0xC0 then
              match rest2 with
              | b3 :: rest3 =>
                if 0x80 ≤ b3 ∧ b3 < 0xC0 then
                  ((b0 - 0xF0) * 0x40000 + (b1 - 0x80) * 0x1000 + (b2 - 0x80) * 0x40 + (b3 - 0x80))
                    :: utf8Lossy rest3
                else 0xFFFD :: utf8Lossy (b3 :: rest3)
              | [] => [0xFFFD]
            else 0xFFFD :: utf8Lossy (b2 :: rest2)
          | [] => [0xFFFD]
        else 0xFFFD :: utf8Lossy (b1 :: rest1)
      | [] => [0xFFFD]
    else 0xFFFD :: utf8Lossy rest

/-- `PathInterner`: dense table of interned byte paths; the `PathId` of an
entry is its zero-based index. -/
structure PathInterner where
  keys : List (List Nat)
deriving DecidableEq

/-- `PathInterner::intern`: return the existing id for known bytes, else
append a copy and return the fresh index. -/
def PathInterner.intern (it : PathInterner) (bytes : List Nat) : PathInterner × Nat :=
  match it.keys.findIdx? (fun b => b = bytes) with
  | some i => (it, i)
  | none => (⟨it.keys ++ [bytes]⟩, it.keys.length)

/-- `PathInterner::get_bytes`. -/
def PathInterner.getBytes (it : PathInterner) (id : Nat) : List Nat :=
  it.keys.getD id []

/-- `PathInterner::get_str`: UTF-8-lossy decoding of the interned bytes. -/
def PathInterner.getStr (it : PathInterner) (id : Nat) : List Nat :=
  utf8Lossy (it.keys.getD id [])

/-- Additive upsert of one row into `paths`
(`INSERT .. ON CONFLICT(path) DO UPDATE SET cumulative_size = cumulative_size
+ excluded.cumulative_size, current_size = current_size + excluded.current_size,
blob_count = blob_count + excluded.blob_count`, with `blob_count` bound to 1
per row, from `Database::save_blobs_in_tx`).  Generic in the key type: the
scan-level model keys rows by byte path, the persisted table by decoded
string. -/
def upsertPathsRow {κ : Type} [DecidableEq κ] (tbl : List (κ × Int × Int × Int))
    (p : κ) (cum cur : Int) : List (κ × Int × Int × Int) :=
  if (tbl.find? (fun r => r.1 = p)).isSome then
    tbl.map (fun r => if r.1 = p then (r.1, r.2.1 + cum, r.2.2.1 + cur, r.2.2.2 + 1) else r)
  else tbl ++ [(p, cum, cur, 1)]

/-- Fold of the additive upsert over a batch of `(path, cumulative_size,
current_size)` records, the per-transaction effect of `save_blobs_in_tx` on
`paths` (the 5000-row chunking does not change the resulting table). -/
def saveBlobRecords {κ : Type} [DecidableEq κ] (tbl : List (κ × Int × Int × Int))
    (rows : List (κ × Int × Int)) : List (κ × Int × Int × Int) :=
  rows.foldl (fun t r => upsertPathsRow t r.1 r.2.1 r.2.2) tbl

/-- Conversion done by `ScanStore::apply_scan for Database`: each emitted row
`(path_id, cumulative_size, current_size)` becomes a `BlobRecord` whose path
is `interner.get_str(path_id)`, then the records are upserted. -/
def applyRowsViaInterner (it : PathInterner) (rows : List (Nat × Int × Int))
    (tbl : List (List Nat × Int × Int × Int)) : List (List Nat × Int × Int × Int) :=
  saveBlobRecords tbl (rows.map (fun r => (it.getStr r.1, r.2)))

/-- C9 — Lossy path collapse at persistence: the byte paths `[0xFF]` and
`[0xFE]` are distinct, intern to distinct `PathId`s with distinct stored
bytes, yet UTF-8-lossy decode to the same string (one U+FFFD), so their two
emitted rows merge additively into a single `paths`-table row. -/
theorem lossy_path_collapse :
    (([0xFF] : List Nat) ≠ [0xFE]) ∧
    (((PathInterner.intern ⟨[]⟩ [0xFF]).1.intern [0xFE]).2 ≠ (PathInterner.intern ⟨[]⟩ [0xFF]).2) ∧
    ((((PathInterner.intern ⟨[]⟩ [0xFF]).1.intern [0xFE]).1.getBytes 0 ≠
      ((PathInterner.intern ⟨[]⟩ [0xFF]).1.intern [0xFE]).1.getBytes 1)) ∧
    ((((PathInterner.intern ⟨[]⟩ [0xFF]).1.intern [0xFE]).1.getStr 0 =
      ((PathInterner.intern ⟨[]⟩ [0xFF]).1.intern [0xFE]).1.getStr 1)) ∧
    (applyRowsViaInterner (((PathInterner.intern ⟨[]⟩ [0xFF]).1.intern [0xFE]).1)
        [(0, 5, 0), (1, 7, 0)] [] = [([0xFFFD], 12, 0, 2)]) := by
  decide

/-! ## Directory tree reconstruction (`TreeNode`, src/model/tree.rs, and
`Database::load_tree`, src/repository/database.rs)

`TreeNode`'s `HashMap<String, TreeNode>` children map is modelled as a list
of nodes with pairwise-distinct names (the `entry` API keeps at most one
child per name; iteration order is unspecified, and all roll-ups are
order-insensitive sums).  Strings are `List Char`.  `u64` sizes are `Nat`;
`load_tree`'s `as u64` casts from the `INTEGER` columns are modelled by
`u64cast`. -/

/-- Reconstructed directory tree node, fields as in the Rust struct. -/
inductive TreeNode where
  | node (name : List Char) (cumulative_size current_size blob_count : Nat)
      (children : List TreeNode) (has_deleted_descendants : Bool) (deleted_size : Nat)

def TreeNode.name : TreeNode → List Char
  | .node n _ _ _ _ _ _ => n

def TreeNode.cumulative_size : TreeNode → Nat
  | .node _ c _ _ _ _ _ => c

def TreeNode.current_size : TreeNode → Nat
  | .node _ _ c _ _ _ _ => c

def TreeNode.blob_count : TreeNode → Nat
  | .node _ _ _ c _ _ _ => c

def TreeNode.children : TreeNode → List TreeNode
  | .node _ _ _ _ ch _ _ => ch

def TreeNode.has_deleted_descendants : TreeNode → Bool
  | .node _ _ _ _ _ h _ => h

def TreeNode.deleted_size : TreeNode → Nat
  | .node _ _ _ _ _ _ d => d

@[simp] theorem TreeNode.name_node {n c1 c2 c3 ch hd ds} :
    (TreeNode.node n c1 c2 c3 ch hd ds).name = n := rfl

@[simp] theorem TreeNode.cumulative_node {n c1 c2 c3 ch hd ds} :
    (TreeNode.node n c1 c2 c3 ch hd ds).cumulative_size = c1 := rfl

@[simp] theorem TreeNode.current_node {n c1 c2 c3 ch hd ds} :
    (TreeNode.node n c1 c2 c3 ch hd ds).current_size = c2 := rfl

@[simp] theorem TreeNode.count_node {n c1 c2 c3 ch hd ds} :
    (TreeNode.node n c1 c2 c3 ch hd ds).blob_count = c3 := rfl

@[simp] theorem TreeNode.children_node {n c1 c2 c3 ch hd ds} :
    (TreeNode.node n c1 c2 c3 ch hd ds).children = ch := rfl

@[simp] theorem TreeNode.hasdel_node {n c1 c2 c3 ch hd ds} :
    (TreeNode.node n c1 c2 c3 ch hd ds).has_deleted_descendants = hd := rfl

@[simp] theorem TreeNode.delsize_node {n c1 c2 c3 ch hd ds} :
    (TreeNode.node n c1 c2 c3 ch hd ds).deleted_size = ds := rfl

/-- `TreeNode::new`. -/
def TreeNode.new (n : List Char) : TreeNode := .node n 0 0 0 [] false 0

/-- Leaf update at the final path segment: add the row's sizes to the node. -/
def bumpNode (t : TreeNode) (cum cur cnt : Nat) : TreeNode :=
  match t with
  | .node n c1 c2 c3 ch hd ds => .node n (c1 + cum) (c2 + cur) (c3 + cnt) ch hd ds

/-- `TreeNode::add_path_with_sizes`: descend/create children along the path
segments; add the sizes at the final segment.  The `entry(..).or_insert_with`
pattern is modelled as update-in-place when a child of that name exists,
append otherwise. -/
def addPathWithSizes (t : TreeNode) (parts : List (List Char)) (cum cur cnt : Nat) : TreeNode :=
  match t, parts with
  | t, [] => t
  | .node n c1 c2 c3 ch hd ds, p :: rest =>
    .node n c1 c2 c3
      (if ch.any (fun c => c.name = p) then
        ch.map (fun c =>
          if c.name = p then
            (if rest.isEmpty then bumpNode c cum cur cnt
             else addPathWithSizes c rest cum cur cnt)
          else c)
       else
        ch ++ [(if rest.isEmpty then bumpNode (TreeNode.new p) cum cur cnt
                else addPathWithSizes (TreeNode.new p) rest cum cur cnt)])
      hd ds

/-- Sum of a field over a children list (the roll-up loop accumulates over
`children.values_mut()`; the sum is iteration-order independent). -/
def sumCum (ch : List TreeNode) : Nat := (ch.map TreeNode.cumulative_size).sum

def sumCur (ch : List TreeNode) : Nat := (ch.map TreeNode.current_size).sum

def sumCnt (ch : List TreeNode) : Nat := (ch.map TreeNode.blob_count).sum

def sumDel (ch : List TreeNode) : Nat := (ch.map TreeNode.deleted_size).sum

def anyDel (ch : List TreeNode) : Bool := ch.any TreeNode.has_deleted_descendants

mutual
/-- `TreeNode::compute_totals`: at a leaf, derive the deleted metrics; at a
directory, roll children up into the node's own (possibly nonzero) fields. -/
def computeTotals : TreeNode → TreeNode
  | .node n cum cur cnt children hd ds =>
    match children with
    | [] =>
      let isDel : Bool := cur == 0 && decide (0 < cum)
      .node n cum cur cnt [] isDel (if isDel then cum else 0)
    | c :: cs =>
      let ch := computeTotalsList (c :: cs)
      .node n (cum + sumCum ch) (cur + sumCur ch) (cnt + sumCnt ch) ch
        (hd || anyDel ch) (ds + sumDel ch)
def computeTotalsList : List TreeNode → List TreeNode
  | [] => []
  | c :: cs => computeTotals c :: computeTotalsList cs
end

mutual
/-- All nodes of a tree (the node itself and every descendant). -/
def allNodes : TreeNode → List TreeNode
  | .node n c1 c2 c3 ch hd ds => .node n c1 c2 c3 ch hd ds :: allNodesList ch
def allNodesList : List TreeNode → List TreeNode
  | [] => []
  | c :: cs => allNodes c ++ allNodesList cs
end

mutual
/-- Size measure used for induction over the nested tree type. -/
def tsize : TreeNode → Nat
  | .node _ _ _ _ ch _ _ => 1 + tsizeList ch
def tsizeList : List TreeNode → Nat
  | [] => 0
  | c :: cs => tsize c + tsizeList cs
end

mutual
/-- Leaf rows of a node, as `(relative segment path, cumulative, current,
count)`; the node's own name heads each path.  Children are listed in the
reversed order in which `visit_leaves`'s explicit stack pops them. -/
def leafRows : TreeNode → List (List (List Char) × Nat × Nat × Nat)
  | .node n c1 c2 c3 [] _ _ => [([n], c1, c2, c3)]
  | .node n _ _ _ (c :: cs) _ _ =>
      (leafRowsList (c :: cs)).map (fun r => (n :: r.1, r.2))
def leafRowsList : List TreeNode → List (List (List Char) × Nat × Nat × Nat)
  | [] => []
  | c :: cs => leafRowsList cs ++ leafRows c
end

/-- Rust `str::split('/')`: the (possibly empty) pieces between separators. -/
def splitSlash (l : List Char) : List (List Char) :=
  l.foldr
    (fun c acc =>
      if c = '/' then [] :: acc
      else
        match acc with
        | s :: rest => (c :: s) :: rest
        | [] => [[c]])
    [[]]

/-- Slash join, the inverse of `splitSlash`. -/
def joinSlash : List (List Char) → List Char
  | [] => []
  | [s] => s
  | s :: s2 :: rest => s ++ '/' :: joinSlash (s2 :: rest)

/-- Rust `as u64` on an `i64` value. -/
def u64cast (i : Int) : Nat := (i % (2 ^ 64)).toNat

/-- Name of the synthetic root produced by `load_tree`. -/
def rootName : List Char := ['(', 'r', 'o', 'o', 't', ')']

/-- Row-absorption loop of `Database::load_tree`: split each stored path on
`'/'` and add its sizes at the final segment. -/
def buildTree (rows : List (List Char × Int × Int × Int)) : TreeNode :=
  rows.foldl
    (fun t r => addPathWithSizes t (splitSlash r.1) (u64cast r.2.1) (u64cast r.2.2.1) (u64cast r.2.2.2))
    (TreeNode.new rootName)

/-- `Database::load_tree`: absorb all rows, then `compute_totals`. -/
def loadTree (rows : List (List Char × Int × Int × Int)) : TreeNode :=
  computeTotals (buildTree rows)

/-- Segment-list ordering: `segPreB a b` iff `a` is a leading-segment run of
`b` (equality included). -/
def segPreB : List (List Char) → List (List Char) → Bool
  | [], _ => true
  | _ :: _, [] => false
  | x :: xs, y :: ys => x = y && segPreB xs ys

theorem tsize_le_of_mem : ∀ {ch : List TreeNode} {c : TreeNode}, c ∈ ch →
    tsize c ≤ tsizeList ch := by
  intro ch
  induction ch with
  | nil => intro c h; cases h
  | cons d ds ih =>
    intro c h
    rcases List.mem_cons.mp h with h | h
    · subst h; rw [tsizeList]; omega
    · have := ih h; rw [tsizeList]; omega

/-- Induction over the nested tree type via the size measure. -/
theorem TreeNode.ind (P : TreeNode → Prop)
    (h : ∀ n c1 c2 c3 ch hd ds, (∀ c ∈ ch, P c) → P (.node n c1 c2 c3 ch hd ds)) :
    ∀ t, P t := by
  have key : ∀ k t, tsize t ≤ k → P t := by
    intro k
    induction k with
    | zero =>
      intro t ht
      cases t with
      | node n c1 c2 c3 ch hd ds => rw [tsize] at ht; omega
    | succ k ih =>
      intro t ht
      cases t with
      | node n c1 c2 c3 ch hd ds =>
        apply h
        intro c hc
        apply ih
        have := tsize_le_of_mem hc
        rw [tsize] at ht
        omega
  exact fun t => key (tsize t) t le_rfl

theorem computeTotalsList_eq (ch : List TreeNode) :
    computeTotalsList ch = ch.map computeTotals := by
  induction ch with
  | nil => rfl
  | cons c cs ih => rw [computeTotalsList, ih, List.map_cons]

theorem mem_allNodesList {s : TreeNode} {ch : List TreeNode} :
    s ∈ allNodesList ch ↔ ∃ c ∈ ch, s ∈ allNodes c := by
  induction ch with
  | nil => simp [allNodesList]
  | cons c cs ih =>
    rw [allNodesList, List.mem_append, ih]
    simp

theorem self_mem_allNodes (t : TreeNode) : t ∈ allNodes t := by
  cases t with
  | node n c1 c2 c3 ch hd ds => rw [allNodes]; exact List.mem_cons_self _ _

theorem mem_allNodes_iff {s : TreeNode} {n c1 c2 c3 ch hd ds} :
    s ∈ allNodes (.node n c1 c2 c3 ch hd ds) ↔
      s = .node n c1 c2 c3 ch hd ds ∨ ∃ c ∈ ch, s ∈ allNodes c := by
  rw [allNodes, List.mem_cons, mem_allNodesList]

theorem leafRowsList_append (l1 l2 : List TreeNode) :
    leafRowsList (l1 ++ l2) = leafRowsList l2 ++ leafRowsList l1 := by
  induction l1 with
  | nil => simp [leafRowsList]
  | cons c cs ih => rw [List.cons_append, leafRowsList, ih, leafRowsList, List.append_assoc]

/-- Own summable fields and deletion marks all zero/false. -/
def zeroOwn (s : TreeNode) : Prop :=
  s.cumulative_size = 0 ∧ s.current_size = 0 ∧ s.blob_count = 0 ∧
  s.has_deleted_descendants = false ∧ s.deleted_size = 0

/-- Every node with children carries no own values: rows were only ever added
at final path segments that are leaves. -/
def BuiltInv (t : TreeNode) : Prop :=
  ∀ s ∈ allNodes t, s.children ≠ [] → zeroOwn s

/-- `BuiltInv` plus the root-shaped extra: a childless tree is all-zero. -/
def BuiltOk (t : TreeNode) : Prop :=
  BuiltInv t ∧ (t.children = [] → zeroOwn t)

/-- Hereditary child-name uniqueness (the `HashMap` keying). -/
def NamesNodup (t : TreeNode) : Prop :=
  ∀ s ∈ allNodes t, (s.children.map TreeNode.name).Nodup

theorem builtInv_of_child {t : TreeNode} {c : TreeNode} (h : BuiltInv t)
    (hc : c ∈ t.children) : BuiltInv c := by
  intro s hs
  apply h
  cases t with
  | node n c1 c2 c3 ch hd ds =>
    rw [mem_allNodes_iff]
    exact Or.inr ⟨c, hc, hs⟩

theorem namesNodup_of_child {t : TreeNode} {c : TreeNode} (h : NamesNodup t)
    (hc : c ∈ t.children) : NamesNodup c := by
  intro s hs
  apply h
  cases t with
  | node n c1 c2 c3 ch hd ds =>
    rw [mem_allNodes_iff]
    exact Or.inr ⟨c, hc, hs⟩

theorem leafRows_internal {t : TreeNode} (h : t.children ≠ []) :
    leafRows t = (leafRowsList t.children).map (fun r => (t.name :: r.1, r.2)) := by
  cases t with
  | node n c1 c2 c3 ch hd ds =>
    cases ch with
    | nil => exact absurd rfl h
    | cons c cs => rw [leafRows]; rfl

theorem leafRows_ne_nil : ∀ t : TreeNode, leafRows t ≠ [] := by
  intro t
  induction t using TreeNode.ind with
  | h n c1 c2 c3 ch hd ds ih =>
    cases ch with
    | nil => rw [leafRows]; simp
    | cons c cs =>
      rw [leafRows]
      have h1 : leafRows c ≠ [] := ih c (List.mem_cons_self _ _)
      intro h
      rw [List.map_eq_nil_iff] at h
      rw [leafRowsList] at h
      exact h1 (List.append_eq_nil.mp h).2

theorem leafRows_mem_list {c : TreeNode} {r} : ∀ {ch : List TreeNode}, c ∈ ch →
    r ∈ leafRows c → r ∈ leafRowsList ch := by
  intro ch
  induction ch with
  | nil => intro h; cases h
  | cons d ds ih =>
    intro hmem hr
    rw [leafRowsList, List.mem_append]
    rcases List.mem_cons.mp hmem with h | h
    · subst h; exact Or.inr hr
    · exact Or.inl (ih h hr)

theorem map_update_id {p : List Char} {f : TreeNode → TreeNode} :
    ∀ {l : List TreeNode}, (∀ d ∈ l, ¬ d.name = p) →
    l.map (fun c => if c.name = p then f c else c) = l := by
  intro l
  induction l with
  | nil => intro _; rfl
  | cons d ds ih =>
    intro h
    rw [List.map_cons, if_neg (h d (List.mem_cons_self _ _)), ih]
    intro e he
    exact h e (List.mem_cons_of_mem _ he)

theorem exists_first_name {p : List Char} : ∀ {ch : List TreeNode},
    ch.any (fun c => c.name = p) = true →
    ∃ l1 c l2, ch = l1 ++ c :: l2 ∧ c.name = p ∧ (∀ d ∈ l1, ¬ d.name = p) := by
  intro ch
  induction ch with
  | nil => intro h; simp at h
  | cons d ds ih =>
    intro h
    by_cases hd : d.name = p
    · exact ⟨[], d, ds, rfl, hd, by simp⟩
    · have h' : ds.any (fun c => c.name = p) = true := by
        rw [List.any_cons] at h
        simpa [hd] using h
      obtain ⟨l1, c, l2, heq, hc, hl1⟩ := ih h'
      refine ⟨d :: l1, c, l2, by rw [heq, List.cons_append], hc, ?_⟩
      intro e he
      rcases List.mem_cons.mp he with h | h
      · subst h; exact hd
      · exact hl1 e h

/-- Fresh subtree created by `add_path_with_sizes` below a missing child:
either the bumped new leaf (final segment) or a recursive insertion into a
new node. -/
def freshAdd (p : List Char) (parts : List (List Char)) (cum cur cnt : Nat) : TreeNode :=
  if parts.isEmpty then bumpNode (TreeNode.new p) cum cur cnt
  else addPathWithSizes (TreeNode.new p) parts cum cur cnt

theorem freshAdd_spec : ∀ (parts : List (List Char)) (p : List Char) (cum cur cnt : Nat),
    leafRows (freshAdd p parts cum cur cnt) = [(p :: parts, cum, cur, cnt)] ∧
    (freshAdd p parts cum cur cnt).name = p ∧
    NamesNodup (freshAdd p parts cum cur cnt) ∧
    BuiltInv (freshAdd p parts cum cur cnt) := by
  intro parts
  induction parts with
  | nil =>
    intro p cum cur cnt
    refine ⟨by rw [freshAdd]; simp [bumpNode, TreeNode.new, leafRows], rfl, ?_, ?_⟩
    · intro s hs
      rw [freshAdd] at hs
      simp only [List.isEmpty_nil, if_true, bumpNode, TreeNode.new, mem_allNodes_iff] at hs
      rcases hs with hs | hs
      · subst hs; simp [TreeNode.children]
      · obtain ⟨c, hc, _⟩ := hs; cases hc
    · intro s hs
      rw [freshAdd] at hs
      simp only [List.isEmpty_nil, if_true, bumpNode, TreeNode.new, mem_allNodes_iff] at hs
      rcases hs with hs | hs
      · subst hs; intro h; exact absurd rfl h
      · obtain ⟨c, hc, _⟩ := hs; cases hc
  | cons q rest ih =>
    intro p cum cur cnt
    obtain ⟨ih1, ih2, ih3, ih4⟩ := ih q cum cur cnt
    have hx : freshAdd p (q :: rest) cum cur cnt =
        .node p 0 0 0 [freshAdd q rest cum cur cnt] false 0 := by
      rw [freshAdd, freshAdd]
      simp only [List.isEmpty_cons, Bool.false_eq_true, if_false]
      rw [show TreeNode.new p = .node p 0 0 0 [] false 0 from rfl]
      simp [addPathWithSizes]
    rw [hx]
    refine ⟨?_, rfl, ?_, ?_⟩
    · rw [leafRows_internal (by simp)]
      simp only [TreeNode.children, TreeNode.name]
      rw [leafRowsList, leafRowsList, ih1]
      rfl
    · intro s hs
      rw [mem_allNodes_iff] at hs
      rcases hs with hs | hs
      · subst hs
        simp [TreeNode.children, ih2, TreeNode.name]
      · obtain ⟨c, hc, hsc⟩ := hs
        rcases List.mem_cons.mp hc with h | h
        · subst h; exact ih3 s hsc
        · cases h
    · intro s hs
      rw [mem_allNodes_iff] at hs
      rcases hs with hs | hs
      · subst hs
        intro _
        exact ⟨rfl, rfl, rfl, rfl, rfl⟩
      · obtain ⟨c, hc, hsc⟩ := hs
        rcases List.mem_cons.mp hc with h | h
        · subst h; exact ih4 s hsc
        · cases h

/-- Core characterisation of `add_path_with_sizes` under the reconstruction
invariants: when the inserted segment path is prefix-unrelated to every
existing leaf path, the insertion adds exactly one fresh leaf row, preserves
the node's own fields and names, and keeps every interior node free of own
values. -/
theorem add_spec : ∀ (parts : List (List Char)) (t : TreeNode) (cum cur cnt : Nat),
    parts ≠ [] →
    NamesNodup t →
    (∀ ρ ∈ (leafRowsList t.children).map (fun r => r.1),
        segPreB ρ parts = false ∧ segPreB parts ρ = false) →
    (addPathWithSizes t parts cum cur cnt).name = t.name ∧
    (addPathWithSizes t parts cum cur cnt).cumulative_size = t.cumulative_size ∧
    (addPathWithSizes t parts cum cur cnt).current_size = t.current_size ∧
    (addPathWithSizes t parts cum cur cnt).blob_count = t.blob_count ∧
    (addPathWithSizes t parts cum cur cnt).has_deleted_descendants = t.has_deleted_descendants ∧
    (addPathWithSizes t parts cum cur cnt).deleted_size = t.deleted_size ∧
    (addPathWithSizes t parts cum cur cnt).children ≠ [] ∧
    (leafRowsList (addPathWithSizes t parts cum cur cnt).children).Perm
      ((parts, cum, cur, cnt) :: leafRowsList t.children) ∧
    NamesNodup (addPathWithSizes t parts cum cur cnt) ∧
    (BuiltOk t → BuiltOk (addPathWithSizes t parts cum cur cnt)) := by
  intro parts
  induction parts with
  | nil =>
    intro t cum cur cnt hne _ _
    exact absurd rfl hne
  | cons p rest ih =>
    intro t cum cur cnt _ hnd hcond
    cases t with
    | node n c1 c2 c3 ch hd ds =>
      simp only [TreeNode.children_node] at hcond
      have heq : addPathWithSizes (.node n c1 c2 c3 ch hd ds) (p :: rest) cum cur cnt =
          .node n c1 c2 c3
            (if ch.any (fun c => c.name = p) then
              ch.map (fun c => if c.name = p then
                  (if rest.isEmpty then bumpNode c cum cur cnt
                   else addPathWithSizes c rest cum cur cnt) else c)
             else ch ++ [freshAdd p rest cum cur cnt]) hd ds := by
        rw [addPathWithSizes, freshAdd]
      by_cases hany : ch.any (fun c => c.name = p) = true
      · -- a child named p exists; it must be an interior node and rest ≠ []
        obtain ⟨l1, c, l2, hdec, hcp, hl1⟩ := exists_first_name hany
        have hcmem : c ∈ ch := by rw [hdec]; exact List.mem_append_right _ (List.mem_cons_self _ _)
        have hself : ((TreeNode.node n c1 c2 c3 ch hd ds).children.map TreeNode.name).Nodup :=
          hnd _ (self_mem_allNodes _)
        simp only [TreeNode.children_node] at hself
        have hl2 : ∀ d ∈ l2, ¬ d.name = p := by
          intro d hdmem hdp
          rw [hdec, List.map_append, List.map_cons] at hself
          have := (List.nodup_append.mp hself).2
          rw [List.nodup_cons] at this
          exact this.1.1 (by
            rw [← hdp] at hcp
            rw [hcp]
            exact List.mem_map_of_mem _ hdmem)
        have hcc : c.children ≠ [] := by
          intro hccnil
          have hcrows : leafRows c =
              [([c.name], c.cumulative_size, c.current_size, c.blob_count)] := by
            cases c with
            | node cn cc1 cc2 cc3 cch chd cds =>
              simp only [TreeNode.children_node] at hccnil
              subst hccnil
              rw [leafRows]
              simp
          have hmem : [p] ∈ (leafRowsList ch).map (fun r => r.1) := by
            refine List.mem_map.mpr
              ⟨([c.name], c.cumulative_size, c.current_size, c.blob_count), ?_, by simp [hcp]⟩
            exact leafRows_mem_list hcmem (by rw [hcrows]; exact List.mem_singleton.mpr rfl)
          have hρ := (hcond [p] hmem).1
          simp [segPreB] at hρ
        have hρhead : ∀ σ ∈ (leafRowsList c.children).map (fun r => r.1),
            (p :: σ) ∈ (leafRowsList ch).map (fun r => r.1) := by
          intro σ hσ
          obtain ⟨r, hr, hr1⟩ := List.mem_map.mp hσ
          refine List.mem_map.mpr ⟨(p :: σ, r.2), ?_, rfl⟩
          apply leafRows_mem_list hcmem
          rw [leafRows_internal hcc, hcp]
          exact List.mem_map.mpr ⟨r, hr, by rw [hr1]⟩
        have hrestne : rest ≠ [] := by
          intro hrnil
          subst hrnil
          obtain ⟨r0, hr0⟩ := List.exists_mem_of_ne_nil _ (leafRows_ne_nil c)
          rw [leafRows_internal hcc, hcp] at hr0
          obtain ⟨r1, hr1, hr1e⟩ := List.mem_map.mp hr0
          have hmem := hρhead r1.1 (List.mem_map_of_mem _ hr1)
          have := (hcond _ hmem).2
          simp [segPreB] at this
        have hcondc : ∀ σ ∈ (leafRowsList c.children).map (fun r => r.1),
            segPreB σ rest = false ∧ segPreB rest σ = false := by
          intro σ hσ
          have h2 := hcond _ (hρhead σ hσ)
          constructor
          · have := h2.1
            rw [segPreB] at this
            simpa [segPreB] using this
          · have := h2.2
            rw [segPreB] at this
            simpa [segPreB] using this
        obtain ⟨ihn, ihc1, ihc2, ihc3, ihhd, ihds, ihne, ihperm, ihnd, ihok⟩ :=
          ih c cum cur cnt hrestne (namesNodup_of_child hnd (by simpa using hcmem)) hcondc
        have hrempty : rest.isEmpty = false := by
          cases rest with
          | nil => exact absurd rfl hrestne
          | cons a b => rfl
        have hmap : ch.map (fun c' => if c'.name = p then
              (if rest.isEmpty then bumpNode c' cum cur cnt
               else addPathWithSizes c' rest cum cur cnt) else c') =
            l1 ++ (addPathWithSizes c rest cum cur cnt) :: l2 := by
          rw [hdec, List.map_append, List.map_cons, map_update_id hl1, map_update_id hl2,
            if_pos hcp, hrempty]
          simp
        rw [heq, if_pos hany, hmap]
        have hurows : (leafRows (addPathWithSizes c rest cum cur cnt)).Perm
            ((p :: rest, cum, cur, cnt) :: leafRows c) := by
          rw [leafRows_internal ihne, ihn, hcp, leafRows_internal hcc, hcp]
          have h1 := ihperm.map (fun r => (p :: r.1, r.2))
          rw [List.map_cons] at h1
          exact h1
        have hchrows : leafRowsList ch =
            (leafRowsList l2 ++ leafRows c) ++ leafRowsList l1 := by
          rw [hdec, leafRowsList_append, leafRowsList]
        refine ⟨rfl, rfl, rfl, rfl, rfl, rfl, by simp, ?_, ?_, ?_⟩
        · -- leaf-row permutation
          simp only [TreeNode.children_node]
          rw [leafRowsList_append, leafRowsList, hchrows]
          have s1 : ((leafRowsList l2 ++ leafRows (addPathWithSizes c rest cum cur cnt)) ++ leafRowsList l1).Perm
              ((leafRowsList l2 ++ ((p :: rest, cum, cur, cnt) :: leafRows c)) ++ leafRowsList l1) :=
            (hurows.append_left _).append_right _
          have s2 : ((leafRowsList l2 ++ ((p :: rest, cum, cur, cnt) :: leafRows c)) ++ leafRowsList l1).Perm
              (((p :: rest, cum, cur, cnt) :: (leafRowsList l2 ++ leafRows c)) ++ leafRowsList l1) :=
            List.perm_middle.append_right _
          refine (s1.trans s2).trans ?_
          rw [List.cons_append]
        · -- names stay unique
          intro s hs
          rw [mem_allNodes_iff] at hs
          rcases hs with hs | ⟨c', hc', hsc'⟩
          · subst hs
            simp only [TreeNode.children_node, List.map_append, List.map_cons, ihn, hcp]
            have : (l1 ++ c :: l2).map TreeNode.name =
                l1.map TreeNode.name ++ c.name :: l2.map TreeNode.name := by
              rw [List.map_append, List.map_cons]
            rw [← hcp, ← this, ← hdec]
            exact hself
          · rcases List.mem_append.mp hc' with h1 | h1
            · exact namesNodup_of_child hnd (by rw [hdec]; simp [TreeNode.children_node]; exact Or.inl h1) s hsc'
            · rcases List.mem_cons.mp h1 with h2 | h2
              · subst h2; exact ihnd s hsc'
              · exact namesNodup_of_child hnd
                  (by rw [hdec]; simp [TreeNode.children_node]; exact Or.inr (Or.inr h2)) s hsc'
        · -- BuiltOk preserved
          rintro ⟨hbi, hbz⟩
          have hokc : BuiltOk c :=
            ⟨builtInv_of_child hbi (by simpa using hcmem), fun h => absurd h hcc⟩
          obtain ⟨hbiu, _⟩ := ihok hokc
          constructor
          · intro s hs hsne
            rw [mem_allNodes_iff] at hs
            rcases hs with hs | ⟨c', hc', hsc'⟩
            · subst hs
              have hchne : (TreeNode.node n c1 c2 c3 ch hd ds).children ≠ [] := by
                simp only [TreeNode.children_node]
                rw [hdec]
                simp
              have h0 := hbi _ (self_mem_allNodes (.node n c1 c2 c3 ch hd ds)) hchne
              simpa [zeroOwn] using h0
            · rcases List.mem_append.mp hc' with h1 | h1
              · exact builtInv_of_child hbi
                  (by rw [hdec]; simp [TreeNode.children_node]; exact Or.inl h1) s hsc' hsne
              · rcases List.mem_cons.mp h1 with h2 | h2
                · subst h2; exact hbiu s hsc' hsne
                · exact builtInv_of_child hbi
                    (by rw [hdec]; simp [TreeNode.children_node]; exact Or.inr (Or.inr h2)) s hsc' hsne
          · intro h
            simp only [TreeNode.children_node] at h
            exact absurd h (by simp)
      · -- no child named p: a fresh chain is appended
        obtain ⟨hf1, hf2, hf3, hf4⟩ := freshAdd_spec rest p cum cur cnt
        have hnotp : ∀ c ∈ ch, ¬ c.name = p := by
          intro c hc hcp
          exact hany (List.any_eq_true.mpr ⟨c, hc, by simp [hcp]⟩)
        rw [heq, if_neg hany]
        refine ⟨rfl, rfl, rfl, rfl, rfl, rfl, by simp, ?_, ?_, ?_⟩
        · simp only [TreeNode.children_node]
          rw [leafRowsList_append, leafRowsList, leafRowsList, hf1]
          simp
        · intro s hs
          rw [mem_allNodes_iff] at hs
          rcases hs with hs | ⟨c', hc', hsc'⟩
          · subst hs
            simp only [TreeNode.children_node, List.map_append, List.map_cons, hf2, List.map_nil]
            rw [List.nodup_append]
            refine ⟨hnd _ (self_mem_allNodes _), List.nodup_singleton _, ?_⟩
            intro a ha
            simp only [List.mem_singleton]
            intro haeq
            obtain ⟨d, hdm, hdn⟩ := List.mem_map.mp ha
            subst haeq
            exact hnotp d hdm hdn
          · rcases List.mem_append.mp hc' with h1 | h1
            · exact namesNodup_of_child hnd (by simpa using h1) s hsc'
            · rcases List.mem_cons.mp h1 with h2 | h2
              · subst h2; exact hf3 s hsc'
              · cases h2
        · rintro ⟨hbi, hbz⟩
          constructor
          · intro s hs hsne
            rw [mem_allNodes_iff] at hs
            rcases hs with hs | ⟨c', hc', hsc'⟩
            · subst hs
              simp only [TreeNode.children_node] at hsne ⊢
              cases hch : ch with
              | nil =>
                have := hbz (by simpa using hch)
                simpa [zeroOwn] using this
              | cons a b =>
                have : (TreeNode.node n c1 c2 c3 ch hd ds).children ≠ [] := by
                  simp [hch]
                have h0 := hbi _ (self_mem_allNodes _) this
                simpa [zeroOwn] using h0
            · rcases List.mem_append.mp hc' with h1 | h1
              · exact builtInv_of_child hbi (by simpa using h1) s hsc' hsne
              · rcases List.mem_cons.mp h1 with h2 | h2
                · subst h2; exact hf4 s hsc' hsne
                · cases h2
          · intro h
            simp only [TreeNode.children_node] at h
            exact absurd h (by simp)

theorem splitSlash_ne_nil (l : List Char) : splitSlash l ≠ [] := by
  induction l with
  | nil => simp [splitSlash]
  | cons c cs ih =>
    rw [splitSlash, List.foldr_cons]
    by_cases hc : c = '/'
    · simp [hc]
    · rw [if_neg hc]
      rw [splitSlash] at ih
      cases h : cs.foldr (fun c acc =>
          if c = '/' then [] :: acc
          else match acc with
            | s :: rest => (c :: s) :: rest
            | [] => [[c]]) [[]] with
      | nil => exact absurd h ih
      | cons a b => simp

/-- Row tuple stored for one `paths` row, segment-path keyed, with the
`as u64` casts of `load_tree`. -/
def rowTuple (r : List Char × Int × Int × Int) : List (List Char) × Nat × Nat × Nat :=
  (splitSlash r.1, u64cast r.2.1, u64cast r.2.2.1, u64cast r.2.2.2)

/-- Prefix-freedom of two stored rows, segment-wise. -/
def rowsUnrelated (r r' : List Char × Int × Int × Int) : Prop :=
  segPreB (splitSlash r.1) (splitSlash r'.1) = false ∧
  segPreB (splitSlash r'.1) (splitSlash r.1) = false

instance (r r' : List Char × Int × Int × Int) : Decidable (rowsUnrelated r r') := by
  rw [rowsUnrelated]; infer_instance

theorem build_fold_spec : ∀ (rows : List (List Char × Int × Int × Int)) (t : TreeNode),
    NamesNodup t → BuiltOk t →
    List.Pairwise rowsUnrelated rows →
    (∀ r ∈ rows, ∀ ρ ∈ (leafRowsList t.children).map (fun x => x.1),
      segPreB ρ (splitSlash r.1) = false ∧ segPreB (splitSlash r.1) ρ = false) →
    (leafRowsList (rows.foldl (fun t r =>
        addPathWithSizes t (splitSlash r.1) (u64cast r.2.1) (u64cast r.2.2.1) (u64cast r.2.2.2)) t).children).Perm
      (rows.map rowTuple ++ leafRowsList t.children) ∧
    NamesNodup (rows.foldl (fun t r =>
        addPathWithSizes t (splitSlash r.1) (u64cast r.2.1) (u64cast r.2.2.1) (u64cast r.2.2.2)) t) ∧
    BuiltOk (rows.foldl (fun t r =>
        addPathWithSizes t (splitSlash r.1) (u64cast r.2.1) (u64cast r.2.2.1) (u64cast r.2.2.2)) t) := by
  intro rows
  induction rows with
  | nil =>
    intro t hnd hok _ _
    exact ⟨by simp, hnd, hok⟩
  | cons r rest ih =>
    intro t hnd hok hpw hcross
    rw [List.foldl_cons]
    obtain ⟨_, _, _, _, _, _, _, hperm, hnd', hokp⟩ :=
      add_spec (splitSlash r.1) t (u64cast r.2.1) (u64cast r.2.2.1) (u64cast r.2.2.2)
        (splitSlash_ne_nil _) hnd (hcross r (List.mem_cons_self _ _))
    have hok' := hokp hok
    have hcross' : ∀ r' ∈ rest,
        ∀ ρ ∈ (leafRowsList (addPathWithSizes t (splitSlash r.1) (u64cast r.2.1)
            (u64cast r.2.2.1) (u64cast r.2.2.2)).children).map (fun x => x.1),
        segPreB ρ (splitSlash r'.1) = false ∧ segPreB (splitSlash r'.1) ρ = false := by
      intro r' hr' ρ hρ
      obtain ⟨x, hx, hx1⟩ := List.mem_map.mp hρ
      have hx' := hperm.mem_iff.mp hx
      rcases List.mem_cons.mp hx' with h1 | h1
      · subst h1
        have hur := (List.pairwise_cons.mp hpw).1 r' hr'
        rw [← hx1]
        exact ⟨hur.1, hur.2⟩
      · exact hcross r' (List.mem_cons_of_mem _ hr') ρ
          (by rw [← hx1]; exact List.mem_map_of_mem _ h1)
    obtain ⟨p1, p2, p3⟩ := ih _ hnd' hok' (List.pairwise_cons.mp hpw).2 hcross'
    refine ⟨?_, p2, p3⟩
    refine p1.trans ?_
    refine (hperm.append_left (rest.map rowTuple)).trans ?_
    rw [List.map_cons, List.cons_append]
    exact List.perm_middle

theorem computeTotals_rollup : ∀ t : TreeNode, BuiltInv t →
    ∀ s ∈ allNodes (computeTotals t), s.children ≠ [] →
      s.cumulative_size = sumCum s.children ∧ s.current_size = sumCur s.children ∧
      s.blob_count = sumCnt s.children ∧ s.deleted_size = sumDel s.children ∧
      s.has_deleted_descendants = anyDel s.children := by
  intro t
  induction t using TreeNode.ind with
  | h n c1 c2 c3 ch hd ds ihc =>
    intro hinv s hs hsne
    cases ch with
    | nil =>
      rw [computeTotals] at hs
      rw [mem_allNodes_iff] at hs
      rcases hs with hs | ⟨c, hc, _⟩
      · subst hs
        simp only [TreeNode.children_node] at hsne
        exact absurd rfl hsne
      · cases hc
    | cons c cs =>
      have h0 := hinv _ (self_mem_allNodes (.node n c1 c2 c3 (c :: cs) hd ds)) (by simp)
      obtain ⟨hz1, hz2, hz3, hz4, hz5⟩ := h0
      simp only [TreeNode.cumulative_node, TreeNode.current_node, TreeNode.count_node,
        TreeNode.hasdel_node, TreeNode.delsize_node] at hz1 hz2 hz3 hz4 hz5
      rw [computeTotals] at hs
      rw [mem_allNodes_iff] at hs
      rcases hs with hs | ⟨c', hc', hsc'⟩
      · subst hs
        simp only [TreeNode.children_node, TreeNode.cumulative_node, TreeNode.current_node,
          TreeNode.count_node, TreeNode.hasdel_node, TreeNode.delsize_node]
        rw [hz1, hz2, hz3, hz4, hz5]
        simp
      · rw [computeTotalsList_eq] at hc'
        obtain ⟨c0, hc0, hc0e⟩ := List.mem_map.mp hc'
        subst hc0e
        exact ihc c0 hc0 (builtInv_of_child hinv (by simpa using hc0)) s hsc' hsne

theorem buildTree_spec (rows : List (List Char × Int × Int × Int))
    (hpw : List.Pairwise rowsUnrelated rows) :
    (leafRowsList (buildTree rows).children).Perm (rows.map rowTuple) ∧
    NamesNodup (buildTree rows) ∧ BuiltOk (buildTree rows) := by
  have hnd0 : NamesNodup (TreeNode.new rootName) := by
    intro s hs
    rw [TreeNode.new, mem_allNodes_iff] at hs
    rcases hs with hs | ⟨c, hc, _⟩
    · subst hs; simp
    · cases hc
  have hok0 : BuiltOk (TreeNode.new rootName) := by
    constructor
    · intro s hs hne
      rw [TreeNode.new, mem_allNodes_iff] at hs
      rcases hs with hs | ⟨c, hc, _⟩
      · subst hs; simp only [TreeNode.children_node] at hne; exact absurd rfl hne
      · cases hc
    · intro _
      exact ⟨rfl, rfl, rfl, rfl, rfl⟩
  obtain ⟨h1, h2, h3⟩ := build_fold_spec rows (TreeNode.new rootName) hnd0 hok0 hpw
    (by
      intro r hr ρ hρ
      rw [TreeNode.new] at hρ
      simp [leafRowsList] at hρ)
  rw [buildTree]
  refine ⟨?_, h2, h3⟩
  rw [TreeNode.new] at h1
  simpa [leafRowsList] using h1

/-- C3 (amended) — Roll-up correctness for prefix-free stored rows: after
`compute_totals` on the tree reconstructed from rows whose segment paths are
pairwise prefix-unrelated (no stored path is also a directory of another),
every internal node's `cumulative_size`, `current_size`, `blob_count` and
`deleted_size` equal the sums over its children, and
`has_deleted_descendants` is the OR over its children.  (Without the
prefix-freedom condition the claim fails: see the counterexample, where a
row's value is absorbed into an interior node and is added on top of the
children's roll-up.) -/
theorem rollup_correctness (rows : List (List Char × Int × Int × Int))
    (hpw : List.Pairwise rowsUnrelated rows) :
    ∀ s ∈ allNodes (loadTree rows), s.children ≠ [] →
      s.cumulative_size = sumCum s.children ∧ s.current_size = sumCur s.children ∧
      s.blob_count = sumCnt s.children ∧ s.deleted_size = sumDel s.children ∧
      s.has_deleted_descendants = anyDel s.children := by
  obtain ⟨_, _, hok⟩ := buildTree_spec rows hpw
  rw [loadTree]
  exact computeTotals_rollup _ hok.1

/-- Witness for `rollup_correctness` at two concrete prefix-free rows. -/
theorem rollup_correctness_witness :
    List.Pairwise rowsUnrelated [(['a', '/', 'b'], 2, 2, 1), (['c'], 5, 0, 3)] ∧
    (∀ s ∈ allNodes (loadTree [(['a', '/', 'b'], 2, 2, 1), (['c'], 5, 0, 3)]),
      s.children ≠ [] →
      s.cumulative_size = sumCum s.children ∧ s.current_size = sumCur s.children ∧
      s.blob_count = sumCnt s.children ∧ s.deleted_size = sumDel s.children ∧
      s.has_deleted_descendants = anyDel s.children) :=
  ⟨by decide, rollup_correctness _ (by decide)⟩

/-- C3 counterexample — the claim as stated is false: reconstructing from the
stored rows `("a", 1, 1, 1)` and `("a/b", 2, 2, 1)` (a path that was a file
at one commit and a directory later), the internal node `a` ends with
`cumulative_size = 3` while its children sum to `2`. -/
theorem rollup_counterexample :
    ∃ s ∈ allNodes (loadTree [(['a'], 1, 1, 1), (['a', '/', 'b'], 2, 2, 1)]),
      s.children.isEmpty = false ∧ s.cumulative_size ≠ sumCum s.children := by
  decide

theorem tsizeList_eq_sum (ch : List TreeNode) : tsizeList ch = (ch.map tsize).sum := by
  induction ch with
  | nil => rfl
  | cons c cs ih => rw [tsizeList, ih, List.map_cons, List.sum_cons]

/-- Total weight of the explicit traversal stack. -/
def stackWeight (st : List (TreeNode × Nat)) : Nat := (st.map (fun x => tsize x.1)).sum

theorem stackWeight_entries (ch : List TreeNode) (L : Nat) (rest : List (TreeNode × Nat)) :
    stackWeight ((ch.reverse.map (fun c => (c, L))) ++ rest) = tsizeList ch + stackWeight rest := by
  unfold stackWeight
  rw [List.map_append, List.sum_append, List.map_map]
  have hcomp : ((fun (x : TreeNode × Nat) => tsize x.1) ∘ fun c => (c, L)) = tsize := rfl
  rw [hcomp, List.map_reverse, List.sum_reverse, tsizeList_eq_sum]

/-- Path-buffer extension step shared by `visit_leaves` (`if !path.is_empty()
push '/'; push_str(name)`) and the recursive specification. -/
def childFull (pfx n : List Char) : List Char :=
  (if pfx.isEmpty then pfx else pfx ++ ['/']) ++ n

/-- Loop of `TreeNode::visit_leaves`: an explicit stack of `(node, base_len)`
pairs and a reusable path buffer, truncated back to `base_len` before each
node.  Children are pushed in order and popped last-in-first-out.  The list
of `(full path, node)` pairs passed to the callback is returned. -/
def visitLoop : List (TreeNode × Nat) → List Char → List (List Char × TreeNode) →
    List (List Char × TreeNode)
  | [], _, acc => acc
  | (t, b) :: rest, path, acc =>
    let path2 := childFull (path.take b) t.name
    if t.children.isEmpty then
      visitLoop rest path2 (acc ++ [(path2, t)])
    else
      visitLoop ((t.children.reverse.map (fun c => (c, path2.length))) ++ rest) path2 acc
termination_by st _ _ => stackWeight st
decreasing_by
  · have h1 : 1 ≤ tsize t := by
      cases t with
      | node n c1 c2 c3 ch hd ds => rw [tsize]; omega
    simp only [stackWeight, List.map_cons, List.sum_cons]
    omega
  · have h1 : tsizeList t.children < tsize t := by
      cases t with
      | node n c1 c2 c3 ch hd ds =>
        rw [tsize]
        simp only [TreeNode.children_node]
        omega
    have h2 : ∀ L, (List.map (fun (x : TreeNode × Nat) => tsize x.1)
        (List.map (fun c => (c, L)) t.children.reverse ++ rest)).sum =
        tsizeList t.children + (List.map (fun (x : TreeNode × Nat) => tsize x.1) rest).sum := by
      intro L
      have := stackWeight_entries t.children L rest
      simpa [stackWeight] using this
    simp only [stackWeight, List.map_cons, List.sum_cons]
    rw [h2]
    omega

/-- `TreeNode::visit_leaves`: seed the stack with the root's children at base
length 0, then run the loop on an empty path buffer. -/
def visitLeaves (t : TreeNode) : List (List Char × TreeNode) :=
  visitLoop (t.children.reverse.map (fun c => (c, 0))) [] []

mutual
/-- Recursive specification of the traversal: the `(path, node)` pairs a
subtree contributes below a given string prefix, children in stack-pop
order. -/
def lvT (pfx : List Char) : TreeNode → List (List Char × TreeNode)
  | .node n c1 c2 c3 ch hd ds =>
    match ch with
    | [] => [(childFull pfx n, .node n c1 c2 c3 [] hd ds)]
    | c :: cs => lvL (childFull pfx n) (c :: cs)
def lvL (pfx : List Char) : List TreeNode → List (List Char × TreeNode)
  | [] => []
  | c :: cs => lvL pfx cs ++ lvT pfx c
end

theorem lvL_eq_flatten (pfx : List Char) (l : List TreeNode) :
    lvL pfx l = ((l.reverse.map (lvT pfx)).flatten) := by
  induction l with
  | nil => rfl
  | cons c cs ih =>
    rw [lvL, ih, List.reverse_cons, List.map_append, List.flatten_append]
    simp

theorem take_length_of_le {b : Nat} {path : List Char} (h : b ≤ path.length) :
    (path.take b).length = b := by
  rw [List.length_take]
  omega

theorem childFull_take {b b' : Nat} {path n : List Char} (hb : b ≤ path.length)
    (hb' : b' ≤ b) : (childFull (path.take b) n).take b' = path.take b' := by
  rw [childFull]
  by_cases he : (path.take b).isEmpty = true
  · have hb0 : b = 0 := by
      rw [List.isEmpty_iff] at he
      have := take_length_of_le hb
      rw [he] at this
      simpa using this.symm
    subst hb0
    have : b' = 0 := Nat.le_zero.mp hb'
    subst this
    simp [he]
  · rw [if_neg he, List.append_assoc,
      List.take_append_of_le_length (by rw [take_length_of_le hb]; exact hb'),
      List.take_take]
    congr 1
    omega

theorem childFull_le_length {b : Nat} {path n : List Char} (hb : b ≤ path.length) :
    b ≤ (childFull (path.take b) n).length := by
  rw [childFull]
  by_cases he : (path.take b).isEmpty = true
  · have hb0 : b = 0 := by
      rw [List.isEmpty_iff] at he
      have := take_length_of_le hb
      rw [he] at this
      simpa using this.symm
    omega
  · rw [if_neg he, List.length_append, List.length_append, take_length_of_le hb]
    omega

theorem pairwise_const_base (l : List TreeNode) (L : Nat) :
    List.Pairwise (fun x y : TreeNode × Nat => y.2 ≤ x.2) (l.map (fun c => (c, L))) := by
  induction l with
  | nil => exact List.Pairwise.nil
  | cons c cs ih =>
    rw [List.map_cons, List.pairwise_cons]
    refine ⟨?_, ih⟩
    intro pr hpr
    obtain ⟨c', _, he⟩ := List.mem_map.mp hpr
    rw [← he]

theorem visitLoop_spec : ∀ (W : Nat) (stack : List (TreeNode × Nat)) (path : List Char)
    (acc : List (List Char × TreeNode)),
    stackWeight stack ≤ W →
    (∀ pr ∈ stack, pr.2 ≤ path.length) →
    List.Pairwise (fun x y : TreeNode × Nat => y.2 ≤ x.2) stack →
    visitLoop stack path acc =
      acc ++ (stack.map (fun pr => lvT (path.take pr.2) pr.1)).flatten := by
  intro W
  induction W using Nat.strong_induction_on with
  | _ W ih =>
    intro stack path acc hW hb hmono
    match stack with
    | [] => simp [visitLoop]
    | (t, b) :: rest =>
      have hble : b ≤ path.length := hb (t, b) (List.mem_cons_self _ _)
      have hmono' := List.pairwise_cons.mp hmono
      have hrb : ∀ pr ∈ rest, pr.2 ≤ (childFull (path.take b) t.name).length := by
        intro pr hpr
        exact le_trans (hmono'.1 pr hpr) (childFull_le_length hble)
      have hrtake : ∀ pr ∈ rest,
          (childFull (path.take b) t.name).take pr.2 = path.take pr.2 := by
        intro pr hpr
        exact childFull_take hble (hmono'.1 pr hpr)
      have hwcons : stackWeight ((t, b) :: rest) = tsize t + stackWeight rest := by
        rw [stackWeight, List.map_cons, List.sum_cons, stackWeight]
      have htpos : 1 ≤ tsize t := by
        cases t with
        | node n c1 c2 c3 ch hd ds => rw [tsize]; omega
      by_cases hleaf : t.children.isEmpty = true
      · -- leaf: report (path2, t) and continue
        have hstep : visitLoop ((t, b) :: rest) path acc =
            visitLoop rest (childFull (path.take b) t.name)
              (acc ++ [(childFull (path.take b) t.name, t)]) := by
          rw [visitLoop, if_pos hleaf]
        rw [hstep]
        rw [ih (stackWeight rest) (by omega) rest _ _ le_rfl hrb hmono'.2]
        have hlv : lvT (path.take b) t = [(childFull (path.take b) t.name, t)] := by
          cases t with
          | node n c1 c2 c3 ch hd ds =>
            cases ch with
            | nil => rw [lvT]; rfl
            | cons c cs => simp at hleaf
        rw [List.map_cons, List.flatten_cons, hlv]
        rw [List.map_congr_left (fun pr hpr => by rw [hrtake pr hpr])]
        simp
      · -- interior: push the children and continue
        have hchne : t.children ≠ [] := by
          intro h
          rw [h] at hleaf
          simp at hleaf
        have hstep : visitLoop ((t, b) :: rest) path acc =
            visitLoop ((t.children.reverse.map
                (fun c => (c, (childFull (path.take b) t.name).length))) ++ rest)
              (childFull (path.take b) t.name) acc := by
          rw [visitLoop, if_neg hleaf]
        rw [hstep]
        have hw' : stackWeight ((t.children.reverse.map
            (fun c => (c, (childFull (path.take b) t.name).length))) ++ rest) < W := by
          rw [stackWeight_entries]
          have : tsizeList t.children < tsize t := by
            cases t with
            | node n c1 c2 c3 ch hd ds =>
              rw [tsize]
              simp only [TreeNode.children_node]
              omega
          omega
        have hb' : ∀ pr ∈ (t.children.reverse.map
            (fun c => (c, (childFull (path.take b) t.name).length))) ++ rest,
            pr.2 ≤ (childFull (path.take b) t.name).length := by
          intro pr hpr
          rcases List.mem_append.mp hpr with h1 | h1
          · obtain ⟨c', _, he⟩ := List.mem_map.mp h1
            rw [← he]
          · exact hrb pr h1
        have hmono2 : List.Pairwise (fun x y : TreeNode × Nat => y.2 ≤ x.2)
            ((t.children.reverse.map
              (fun c => (c, (childFull (path.take b) t.name).length))) ++ rest) := by
          rw [List.pairwise_append]
          refine ⟨pairwise_const_base _ _, hmono'.2, ?_⟩
          intro x hx y hy
          obtain ⟨c', _, he⟩ := List.mem_map.mp hx
          rw [← he]
          exact le_trans (hmono'.1 y hy) (childFull_le_length hble)
        rw [ih _ hw' _ _ _ le_rfl hb' hmono2]
        rw [List.map_append, List.flatten_append]
        have hfront : ((t.children.reverse.map
            (fun c => (c, (childFull (path.take b) t.name).length))).map
              (fun pr => lvT ((childFull (path.take b) t.name).take pr.2) pr.1)).flatten =
            lvT (path.take b) t := by
          rw [List.map_map]
          have hcomp : ((fun pr : TreeNode × Nat => lvT ((childFull (path.take b) t.name).take pr.2) pr.1)
              ∘ (fun c => (c, (childFull (path.take b) t.name).length))) =
              (fun c => lvT (childFull (path.take b) t.name) c) := by
            funext c
            simp [Function.comp, List.take_length]
          rw [hcomp, ← lvL_eq_flatten]
          cases t with
          | node n c1 c2 c3 ch hd ds =>
            cases ch with
            | nil => simp at hchne
            | cons c cs => rw [lvT]; rfl
        rw [hfront]
        rw [List.map_congr_left (fun pr hpr => by rw [hrtake pr hpr])]
        rw [List.map_cons, List.flatten_cons]

theorem visitLeaves_eq (t : TreeNode) : visitLeaves t = lvL [] t.children := by
  rw [visitLeaves,
    visitLoop_spec (stackWeight (t.children.reverse.map (fun c => (c, 0)))) _ _ _ le_rfl
      (by
        intro pr hpr
        obtain ⟨c', _, he⟩ := List.mem_map.mp hpr
        rw [← he]
        exact Nat.zero_le _)
      (pairwise_const_base _ _)]
  rw [List.nil_append, List.map_map]
  have hcomp : ((fun pr : TreeNode × Nat => lvT (List.take pr.2 []) pr.1) ∘ fun c => (c, 0)) =
      lvT [] := rfl
  rw [hcomp, ← lvL_eq_flatten]

/-- Data projection applied to each `(path, node)` pair reported by
`visit_leaves` when collecting the claim's row tuples. -/
def rowOf (pr : List Char × TreeNode) : List Char × Nat × Nat × Nat :=
  (pr.1, pr.2.cumulative_size, pr.2.current_size, pr.2.blob_count)

/-- String path of a leaf reached through prefix `pfx` and then the given
segments, mirroring the path-buffer pushes. -/
def joinPfx (pfx : List Char) (segs : List (List Char)) : List Char :=
  segs.foldl (fun acc n => childFull acc n) pfx

theorem lvT_rows : ∀ t : TreeNode, ∀ pfx,
    (lvT pfx t).map rowOf = (leafRows t).map (fun r => (joinPfx pfx r.1, r.2)) := by
  intro t
  induction t using TreeNode.ind with
  | h n c1 c2 c3 ch hd ds ihc =>
    intro pfx
    cases ch with
    | nil =>
      rw [lvT, leafRows]
      simp [rowOf, joinPfx, childFull]
    | cons c cs =>
      rw [lvT, leafRows_internal (by simp)]
      simp only [TreeNode.children_node, TreeNode.name_node]
      have hlist : ∀ l : List TreeNode, (∀ c' ∈ l, ∀ pfx',
          (lvT pfx' c').map rowOf = (leafRows c').map (fun r => (joinPfx pfx' r.1, r.2))) →
          ∀ pfx', (lvL pfx' l).map rowOf =
            (leafRowsList l).map (fun r => (joinPfx pfx' r.1, r.2)) := by
        intro l
        induction l with
        | nil => intro _ _; rfl
        | cons d dsx ihl =>
          intro hall pfx'
          rw [lvL, leafRowsList, List.map_append, List.map_append]
          rw [ihl (fun c' hc' => hall c' (List.mem_cons_of_mem _ hc'))]
          rw [hall d (List.mem_cons_self _ _)]
      rw [hlist (c :: cs) ihc (childFull pfx n), List.map_map]
      congr 1

theorem computeTotalsList_leafRows : ∀ l : List TreeNode,
    (∀ c ∈ l, leafRows (computeTotals c) = leafRows c) →
    leafRowsList (computeTotalsList l) = leafRowsList l := by
  intro l
  induction l with
  | nil => intro _; rfl
  | cons c cs ih =>
    intro hall
    rw [computeTotalsList, leafRowsList, leafRowsList,
      ih (fun c' hc' => hall c' (List.mem_cons_of_mem _ hc')),
      hall c (List.mem_cons_self _ _)]

theorem computeTotals_leafRows : ∀ t : TreeNode, leafRows (computeTotals t) = leafRows t := by
  intro t
  induction t using TreeNode.ind with
  | h n c1 c2 c3 ch hd ds ihc =>
    cases ch with
    | nil => rw [computeTotals, leafRows, leafRows]
    | cons c cs =>
      have hchildren : (computeTotals (TreeNode.node n c1 c2 c3 (c :: cs) hd ds)).children =
          computeTotalsList (c :: cs) := by
        rw [computeTotals]
        simp
      have hne : (computeTotals (TreeNode.node n c1 c2 c3 (c :: cs) hd ds)).children ≠ [] := by
        rw [hchildren, computeTotalsList]
        simp
      have hname : (computeTotals (TreeNode.node n c1 c2 c3 (c :: cs) hd ds)).name = n := by
        rw [computeTotals]
        simp
      rw [leafRows_internal hne, hchildren, hname,
        computeTotalsList_leafRows (c :: cs) ihc,
        @leafRows_internal (TreeNode.node n c1 c2 c3 (c :: cs) hd ds) (by simp)]
      simp

theorem computeTotals_children_rows (t : TreeNode) :
    leafRowsList (computeTotals t).children = leafRowsList t.children := by
  cases t with
  | node n c1 c2 c3 ch hd ds =>
    cases ch with
    | nil => rw [computeTotals]; simp
    | cons c cs =>
      rw [computeTotals]
      simp only [TreeNode.children_node]
      exact computeTotalsList_leafRows (c :: cs) (fun c' _ => computeTotals_leafRows c')

/-- Slash-prefixed concatenation of segments. -/
def slashFlat : List (List Char) → List Char
  | [] => []
  | s :: r => '/' :: s ++ slashFlat r

theorem joinSlash_eq_flat : ∀ (σ : List (List Char)) (s : List Char),
    joinSlash (s :: σ) = s ++ slashFlat σ := by
  intro σ
  induction σ with
  | nil => intro s; rw [joinSlash, slashFlat]; simp
  | cons a r ih =>
    intro s
    rw [joinSlash, ih a, slashFlat]
    simp

theorem childFull_of_ne {pfx : List Char} (n : List Char) (h : pfx ≠ []) :
    childFull pfx n = pfx ++ '/' :: n := by
  rw [childFull, if_neg (by simpa using h), List.append_assoc]
  rfl

theorem childFull_ne_nil {pfx : List Char} (n : List Char) (h : pfx ≠ []) :
    childFull pfx n ≠ [] := by
  rw [childFull_of_ne n h]
  simp

theorem joinPfx_flat : ∀ (σ : List (List Char)) (pfx : List Char), pfx ≠ [] →
    joinPfx pfx σ = pfx ++ slashFlat σ := by
  intro σ
  induction σ with
  | nil => intro pfx _; rw [joinPfx, List.foldl_nil, slashFlat]; simp
  | cons n r ih =>
    intro pfx hne
    rw [joinPfx, List.foldl_cons, ← joinPfx, ih _ (childFull_ne_nil n hne),
      childFull_of_ne n hne, slashFlat]
    simp

theorem joinPfx_nil_eq_joinSlash (σ : List (List Char))
    (hhead : ∀ s, σ.head? = some s → s ≠ []) : joinPfx [] σ = joinSlash σ := by
  cases σ with
  | nil => rfl
  | cons s r =>
    have hs : s ≠ [] := hhead s rfl
    rw [joinPfx, List.foldl_cons, ← joinPfx]
    have hcf : childFull [] s = s := by
      rw [childFull]
      simp
    rw [hcf, joinPfx_flat r s hs, joinSlash_eq_flat]

theorem joinSplit : ∀ l : List Char, joinSlash (splitSlash l) = l := by
  intro l
  induction l with
  | nil => rfl
  | cons c cs ih =>
    have hstep : splitSlash (c :: cs) =
        (if c = '/' then [] :: splitSlash cs
         else match splitSlash cs with
           | s :: rest => (c :: s) :: rest
           | [] => [[c]]) := rfl
    rw [hstep]
    by_cases hc : c = '/'
    · rw [if_pos hc]
      cases hsp : splitSlash cs with
      | nil => exact absurd hsp (splitSlash_ne_nil cs)
      | cons s rest =>
        rw [joinSlash]
        rw [hsp] at ih
        rw [ih, hc]
        simp
    · rw [if_neg hc]
      cases hsp : splitSlash cs with
      | nil => exact absurd hsp (splitSlash_ne_nil cs)
      | cons s rest =>
        rw [hsp] at ih
        cases rest with
        | nil =>
          rw [joinSlash]
          rw [joinSlash] at ih
          rw [ih]
        | cons s2 rest2 =>
          rw [joinSlash]
          rw [joinSlash] at ih
          rw [← ih]
          simp

/-- Row tuples collected by walking `visit_leaves` over a reconstructed tree. -/
def collectedRows (t : TreeNode) : List (List Char × Nat × Nat × Nat) :=
  (visitLeaves t).map rowOf

theorem lvL_rows (l : List TreeNode) (pfx : List Char) :
    (lvL pfx l).map rowOf = (leafRowsList l).map (fun r => (joinPfx pfx r.1, r.2)) := by
  induction l with
  | nil => rfl
  | cons d dsx ih =>
    rw [lvL, leafRowsList, List.map_append, List.map_append, ih, lvT_rows]

/-- C4 (amended) — Path-to-tree round trip for well-formed stored rows: if
the stored paths are pairwise '/'-segment-prefix-unrelated and none starts
with a '/' (the scanner only stores paths with no leading slash, spec §3),
then `load_tree` followed by the `visit_leaves` walk collecting
`(path, cumulative_size, current_size, blob_count)` returns exactly the
stored rows, as an order-independent (permutation) comparison, with the
`as u64` casts applied to the non-negative stored values.  (Without these
conditions the round trip loses rows: see the counterexample.) -/
theorem path_tree_round_trip (rows : List (List Char × Int × Int × Int))
    (hpw : List.Pairwise rowsUnrelated rows)
    (hhead : ∀ r ∈ rows, (splitSlash r.1).head? ≠ some ([] : List Char))
    (hnonneg : ∀ r ∈ rows, 0 ≤ r.2.1 ∧ 0 ≤ r.2.2.1 ∧ 0 ≤ r.2.2.2) :
    (collectedRows (loadTree rows)).Perm
      (rows.map (fun r => (r.1, u64cast r.2.1, u64cast r.2.2.1, u64cast r.2.2.2))) := by
  rw [collectedRows, visitLeaves_eq, lvL_rows, loadTree, computeTotals_children_rows]
  have hperm := ((buildTree_spec rows hpw).1).map (fun r => (joinPfx [] r.1, r.2))
  refine hperm.trans ?_
  rw [List.map_map]
  rw [List.map_congr_left (fun r hr => ?_)]
  simp only [Function.comp, rowTuple]
  rw [joinPfx_nil_eq_joinSlash _ (fun s hs hsnil => hhead r hr (by rw [hs, hsnil])),
    joinSplit]

/-- Witness for `path_tree_round_trip` at two concrete well-formed rows. -/
theorem path_tree_round_trip_witness :
    (List.Pairwise rowsUnrelated
      ([(['a', '/', 'b'], 2, 2, 1), (['c'], 5, 0, 3)] : List (List Char × Int × Int × Int)) ∧
     (∀ r ∈ ([(['a', '/', 'b'], 2, 2, 1), (['c'], 5, 0, 3)] : List (List Char × Int × Int × Int)),
        (splitSlash r.1).head? ≠ some ([] : List Char)) ∧
     (∀ r ∈ ([(['a', '/', 'b'], 2, 2, 1), (['c'], 5, 0, 3)] : List (List Char × Int × Int × Int)),
        0 ≤ r.2.1 ∧ 0 ≤ r.2.2.1 ∧ 0 ≤ r.2.2.2)) ∧
    (collectedRows (loadTree [(['a', '/', 'b'], 2, 2, 1), (['c'], 5, 0, 3)])).Perm
      (([(['a', '/', 'b'], 2, 2, 1), (['c'], 5, 0, 3)] : List (List Char × Int × Int × Int)).map
        (fun r => (r.1, u64cast r.2.1, u64cast r.2.2.1, u64cast r.2.2.2))) :=
  ⟨⟨by decide, by decide, by decide⟩,
    path_tree_round_trip _ (by decide) (by decide) (by decide)⟩

/-- C4 counterexample — the claim as stated is false: with stored rows
`("a", 1, 1, 1)` and `("a/b", 2, 2, 1)`, the row at `a` lands on an interior
node and `visit_leaves` never reports it; and with the single stored row
`("/a", 1, 1, 1)`, splitting on '/' yields an empty first segment and the
walk reports path `"a"`, not `"/a"`.  In both cases the collected set lacks
a stored row. -/
theorem round_trip_counterexample :
    ((['a'], (1 : Nat), (1 : Nat), (1 : Nat)) ∈
      ([(['a'], 1, 1, 1), (['a', '/', 'b'], 2, 2, 1)] : List (List Char × Int × Int × Int)).map
        (fun r => (r.1, u64cast r.2.1, u64cast r.2.2.1, u64cast r.2.2.2)) ∧
     (['a'], (1 : Nat), (1 : Nat), (1 : Nat)) ∉
      collectedRows (loadTree [(['a'], 1, 1, 1), (['a', '/', 'b'], 2, 2, 1)])) ∧
    ((['/', 'a'], (1 : Nat), (1 : Nat), (1 : Nat)) ∈
      ([(['/', 'a'], 1, 1, 1)] : List (List Char × Int × Int × Int)).map
        (fun r => (r.1, u64cast r.2.1, u64cast r.2.2.1, u64cast r.2.2.2)) ∧
     (['/', 'a'], (1 : Nat), (1 : Nat), (1 : Nat)) ∉
      collectedRows (loadTree [(['/', 'a'], 1, 1, 1)])) := by
  refine ⟨⟨by decide, ?_⟩, ⟨by decide, ?_⟩⟩
  · rw [collectedRows, visitLeaves_eq]
    decide
  · rw [collectedRows, visitLeaves_eq]
    decide

/-! ## History scan (`TreeScanCtx`, src/repository/scanner/tree.rs, and
`GitScanner`, src/repository/scanner/mod.rs)

Object ids are abstracted as `Nat` (the 20-byte hashes are opaque
identifiers).  A tree object is modelled as its unfolded entry list: the
object database lookup `odb.find_tree(oid)` is replaced by carrying each
subtree's entries inline next to its oid — finite because a content-addressed
store is acyclic.  Entries keep the source's interleaved order; an entry
whose mode is neither blob nor tree is `otherE`.  Tree-decode failures and
commit-decode failures are outside this model (the claims under study are
about successfully decoded objects).  Paths are byte strings (`List Char`),
built exactly like the scanner's path buffer (`childFull`); the
`PathInterner` is injective on byte paths, so dedup sets keyed by `PathId`
are modelled as keyed by the path itself.  `i64` sizes are `Int`.  The pack
index is abstracted as the total function `pack : Oid → Int`
(`PackSizeIndex::size_of`, which returns 0 for unresolvable oids). -/

abbrev Oid := Nat

abbrev BPath := List Char

inductive GEntry where
  | blobE (name : List Char) (oid : Oid)
  | treeE (name : List Char) (oid : Oid) (sub : List GEntry)
  | otherE (name : List Char)

/-- `CommitInfo` plus the commit's unfolded root tree. -/
structure CommitInfo where
  oid : Oid
  treeOid : Oid
  tree : List GEntry
  author : List Char
  timestamp : Int

/-- `BlobRow`. -/
structure BlobRow where
  oid : Oid
  path : BPath
  cumulative_size : Int
  current_size : Int
deriving DecidableEq

/-- `BlobMetaRow`. -/
structure BlobMetaRow where
  oid : Oid
  size : Int
  path : BPath
  author : List Char
  timestamp : Int
deriving DecidableEq

/-- `HeadSnapshot.blobs_by_path`: path → (blob oid, compressed size). -/
structure HeadSnapshot where
  blobs_by_path : List (BPath × Oid × Int)
deriving DecidableEq

/-- Mutable state of `TreeScanCtx`: the three dedup sets and the
`DeltaBuilder` output. -/
structure ScanState where
  seenTrees : List (Oid × BPath)
  seenBlobs : List Oid
  seenPathBlobs : List (BPath × Oid)
  blobs : List BlobRow
  metadata : List BlobMetaRow
deriving DecidableEq

/-- `head.blobs_by_path.get(&path_id)`. -/
def headLookup (head : HeadSnapshot) (p : BPath) : Option (Oid × Int) :=
  (head.blobs_by_path.find? (fun e => e.1 = p)).map (fun e => e.2)

/-- The `current_size` computation of `handle_blob`:
`get(&path_id).filter(|(head_oid, _)| *head_oid == oid).map(|(_, s)| *s).unwrap_or(0)`. -/
def currentSizeAt (head : HeadSnapshot) (p : BPath) (oid : Oid) : Int :=
  match headLookup head p with
  | some (ho, s) => if ho = oid then s else 0
  | none => 0

/-- `DeltaBuilder::record_blob`. -/
def recordBlob (σ : ScanState) (oid : Oid) (path : BPath) (cumulative_size current_size : Int)
    (commit : CommitInfo) (is_new_blob : Bool) : ScanState :=
  if is_new_blob then
    { σ with blobs := σ.blobs ++ [⟨oid, path, cumulative_size, current_size⟩],
             metadata := σ.metadata ++
               [⟨oid, cumulative_size, path, commit.author, commit.timestamp⟩] }
  else if current_size > 0 then
    { σ with blobs := σ.blobs ++ [⟨oid, path, 0, current_size⟩] }
  else σ

/-- `TreeScanCtx::handle_blob`.  `seen_blobs.insert(oid)` is modelled by the
membership test giving `is_new_blob` plus a conditional cons. -/
def handleBlob (pack : Oid → Int) (head : HeadSnapshot) (commit : CommitInfo)
    (oid : Oid) (path : BPath) (σ : ScanState) : ScanState :=
  if (path, oid) ∈ σ.seenPathBlobs then σ
  else
    let σ1 := { σ with seenPathBlobs := (path, oid) :: σ.seenPathBlobs }
    if oid ∈ σ1.seenBlobs then
      recordBlob σ1 oid path (pack oid) (currentSizeAt head path oid) commit false
    else
      recordBlob { σ1 with seenBlobs := oid :: σ1.seenBlobs } oid path (pack oid)
        (currentSizeAt head path oid) commit true

mutual
/-- Per-entry dispatch of `TreeScanCtx::scan_tree`'s loop: extend the path
buffer with the entry name, then handle blobs and recurse into sub-trees
(with the `seen_trees` check-and-insert of the recursive `scan_tree` call
inlined at the `treeE` case). -/
def scanEntry (pack : Oid → Int) (head : HeadSnapshot) (commit : CommitInfo) :
    GEntry → BPath → ScanState → ScanState
  | .blobE n b, p, σ => handleBlob pack head commit b (childFull p n) σ
  | .treeE n toid sub, p, σ =>
      if (toid, childFull p n) ∈ σ.seenTrees then σ
      else scanEntries pack head commit sub (childFull p n)
        { σ with seenTrees := (toid, childFull p n) :: σ.seenTrees }
  | .otherE _, _, σ => σ
def scanEntries (pack : Oid → Int) (head : HeadSnapshot) (commit : CommitInfo) :
    List GEntry → BPath → ScanState → ScanState
  | [], _, σ => σ
  | e :: rest, p, σ =>
      scanEntries pack head commit rest p (scanEntry pack head commit e p σ)
end

/-- `TreeScanCtx::scan_tree` on a tree object given by oid and entries. -/
def scanTree (pack : Oid → Int) (head : HeadSnapshot) (commit : CommitInfo)
    (toid : Oid) (entries : List GEntry) (p : BPath) (σ : ScanState) : ScanState :=
  if (toid, p) ∈ σ.seenTrees then σ
  else scanEntries pack head commit entries p
    { σ with seenTrees := (toid, p) :: σ.seenTrees }

/-- `TreeScanCtx::scan_commit`: scan the commit's root tree with an empty
path buffer. -/
def scanCommit (pack : Oid → Int) (head : HeadSnapshot) (σ : ScanState)
    (commit : CommitInfo) : ScanState :=
  scanTree pack head commit commit.treeOid commit.tree [] σ

/-- The commit loop of `GitScanner::scan_commits` (decoded commits given as
`CommitInfo`). -/
def scanCommits (pack : Oid → Int) (head : HeadSnapshot) (commits : List CommitInfo)
    (σ : ScanState) : ScanState :=
  commits.foldl (scanCommit pack head) σ

/-- `GitScanner::collect_commits`: the revwalk result reversed to
oldest-first. -/
def collectCommits (walk : List CommitInfo) : List CommitInfo :=
  walk.reverse

/-! The persisted store, at the scan model's level of abstraction (oids as
`Nat`, paths as byte strings).  Tables are lists in insertion order;
`INSERT OR IGNORE` appends only when the key is absent. -/

/-- Store contents touched by `apply_scan`. -/
structure ScanDb where
  paths : List (BPath × Int × Int × Int)
  seen_blobs : List Oid
  scanned_commits : List Oid
  blobs : List (Oid × Int × BPath × List Char × Int)
deriving DecidableEq

def emptyDb : ScanDb := ⟨[], [], [], []⟩

/-- `INSERT OR IGNORE` of one oid. -/
def insertIgnoreOid (tbl : List Oid) (o : Oid) : List Oid :=
  if o ∈ tbl then tbl else tbl ++ [o]

/-- `INSERT OR IGNORE INTO seen_blobs` over the emitted rows
(`save_blobs_in_tx`). -/
def saveSeenBlobs (tbl : List Oid) (rows : List BlobRow) : List Oid :=
  rows.foldl (fun t r => insertIgnoreOid t r.oid) tbl

/-- The `paths` upsert over the emitted rows (`save_blobs_in_tx`). -/
def savePathsRows (tbl : List (BPath × Int × Int × Int)) (rows : List BlobRow) :
    List (BPath × Int × Int × Int) :=
  rows.foldl (fun t r => upsertPathsRow t r.path r.cumulative_size r.current_size) tbl

/-- `INSERT OR IGNORE INTO blobs` over the metadata rows
(`save_blob_metadata_in_tx`). -/
def saveMetaRows (tbl : List (Oid × Int × BPath × List Char × Int))
    (rows : List BlobMetaRow) : List (Oid × Int × BPath × List Char × Int) :=
  rows.foldl
    (fun t m =>
      if (t.find? (fun e => e.1 = m.oid)).isSome then t
      else t ++ [(m.oid, m.size, m.path, m.author, m.timestamp)])
    tbl

/-- `INSERT OR IGNORE INTO scanned_commits` (`mark_commits_scanned_in_tx`). -/
def saveScanned (tbl : List Oid) (commits : List CommitInfo) : List Oid :=
  commits.foldl (fun t c => insertIgnoreOid t c.oid) tbl

/-- Net state change of one `apply_scan` call. -/
def applyScanDb (db : ScanDb) (rows : List BlobRow) (ms : List BlobMetaRow)
    (commits : List CommitInfo) : ScanDb :=
  { paths := savePathsRows db.paths rows,
    seen_blobs := saveSeenBlobs db.seen_blobs rows,
    scanned_commits := saveScanned db.scanned_commits commits,
    blobs := saveMetaRows db.blobs ms }

/-- Phases 6–10 of `GitScanner::scan` for one collected commit list against
one store: plan the unscanned commits, seed `seen_blobs` from the store,
scan, and apply the delta (the short-circuit when nothing needs scanning
included). -/
def runScan (pack : Oid → Int) (head : HeadSnapshot) (db : ScanDb)
    (allCommits : List CommitInfo) : ScanDb :=
  let commits_to_scan := allCommits.filter (fun c => !(db.scanned_commits.contains c.oid))
  if commits_to_scan.isEmpty then db
  else
    let σ := scanCommits pack head commits_to_scan ⟨[], db.seen_blobs, [], [], []⟩
    applyScanDb db σ.blobs σ.metadata commits_to_scan

/-! Structural helpers on `GEntry` forests: sizes (for induction), the blob
oids reachable in a forest, the subtrees of a forest, `Bool`-valued
wellformedness of entry names, and the object-store consistency hypothesis
(one entry list per tree oid) under which `seen_trees` pruning is sound. -/

mutual
def esizeE : GEntry → Nat
  | .blobE _ _ => 1
  | .otherE _ => 1
  | .treeE _ _ sub => 1 + esizeL sub
def esizeL : List GEntry → Nat
  | [] => 0
  | e :: rest => esizeE e + esizeL rest
end

theorem esizeE_pos (e : GEntry) : 1 ≤ esizeE e := by
  cases e <;> simp [esizeE]

theorem esizeE_mem_le (e : GEntry) : ∀ l : List GEntry, e ∈ l → esizeE e ≤ esizeL l := by
  intro l hl
  induction l with
  | nil => cases hl
  | cons hd tl ih =>
      rcases List.mem_cons.mp hl with h | h
      · subst h; simp [esizeL]
      · have := ih h; simp [esizeL]; omega

/-- Induction principle for `GEntry` giving the hypothesis elementwise on a
tree's entry list. -/
theorem gentryInd (P : GEntry → Prop)
    (hb : ∀ n b, P (.blobE n b))
    (ho : ∀ n, P (.otherE n))
    (ht : ∀ n toid sub, (∀ e ∈ sub, P e) → P (.treeE n toid sub)) :
    ∀ e, P e := by
  have key : ∀ k e, esizeE e ≤ k → P e := by
    intro k
    induction k with
    | zero => intro e he; have := esizeE_pos e; omega
    | succ k ih =>
        intro e he
        cases e with
        | blobE n b => exact hb n b
        | otherE n => exact ho n
        | treeE n toid sub =>
            refine ht n toid sub (fun x hx => ih x ?_)
            have h1 := esizeE_mem_le x sub hx
            simp [esizeE] at he
            omega
  exact fun e => key (esizeE e) e (le_refl _)

mutual
def eblobsE : GEntry → List Oid
  | .blobE _ b => [b]
  | .treeE _ _ sub => eblobsL sub
  | .otherE _ => []
def eblobsL : List GEntry → List Oid
  | [] => []
  | e :: rest => eblobsE e ++ eblobsL rest
end

mutual
def subTreesE : GEntry → List (Oid × List GEntry)
  | .blobE _ _ => []
  | .treeE _ toid sub => (toid, sub) :: subTreesL sub
  | .otherE _ => []
def subTreesL : List GEntry → List (Oid × List GEntry)
  | [] => []
  | e :: rest => subTreesE e ++ subTreesL rest
end

/-- All (tree oid, entry list) pairs reachable from a commit list: the
universe of tree objects the scan can see. -/
def commitTrees (L : List CommitInfo) : List (Oid × List GEntry) :=
  L.foldr (fun c acc => (c.treeOid, c.tree) :: (subTreesL c.tree ++ acc)) []

/-- A content-addressed store is functional: two reachable tree objects with
the same oid have the same entries. -/
def Consistent (U : List (Oid × List GEntry)) : Prop :=
  ∀ p ∈ U, ∀ q ∈ U, p.1 = q.1 → p.2 = q.2

theorem consistent_of_nodup_keys {U : List (Oid × List GEntry)}
    (h : (U.map (fun pr => pr.1)).Nodup) : Consistent U := by
  intro p hp q hq hpq
  by_cases hx : p = q
  · rw [hx]
  · exact absurd (List.inj_on_of_nodup_map h hp hq hpq) hx

mutual
def namesOkE : GEntry → Bool
  | .treeE n _ sub => !(n.isEmpty) && namesOkL sub
  | _ => true
def namesOkL : List GEntry → Bool
  | [] => true
  | e :: rest => namesOkE e && namesOkL rest
end

/-! ### Reference scanner

`refScanE`/`refScanL` is a proof-side specification device, not a source
translation: it walks a forest with no `seen_trees`/`seen_path_blobs`
pruning, threading only the seen-blob list, and returns the `BlobMetaRow`s a
pruning-free scan would emit together with the final seen-blob list.  The
theorems below show the real scanner's metadata output and its per-path
cumulative sums coincide with it. -/

mutual
def refScanE (pack : Oid → Int) (commit : CommitInfo) :
    GEntry → BPath → List Oid → List BlobMetaRow × List Oid
  | .blobE n b, p, S =>
      if b ∈ S then ([], S)
      else ([⟨b, pack b, childFull p n, commit.author, commit.timestamp⟩], b :: S)
  | .treeE n _ sub, p, S => refScanL pack commit sub (childFull p n) S
  | .otherE _, _, S => ([], S)
def refScanL (pack : Oid → Int) (commit : CommitInfo) :
    List GEntry → BPath → List Oid → List BlobMetaRow × List Oid
  | [], _, S => ([], S)
  | e :: rest, p, S =>
      let pr := refScanE pack commit e p S
      let pr2 := refScanL pack commit rest p pr.2
      (pr.1 ++ pr2.1, pr2.2)
end

def refScanCommit (pack : Oid → Int) (c : CommitInfo) (S : List Oid) :
    List BlobMetaRow × List Oid :=
  refScanL pack c c.tree [] S

def refScanCommits (pack : Oid → Int) : List CommitInfo → List Oid →
    List BlobMetaRow × List Oid
  | [], S => ([], S)
  | c :: rest, S =>
      let pr := refScanCommit pack c S
      let pr2 := refScanCommits pack rest pr.2
      (pr.1 ++ pr2.1, pr2.2)

/-! Pure facts about the reference scanner: the final seen list is the seed
plus the reachable blobs, the emitted metadata oids are exactly the reachable
blobs outside the seed, and every row carries the commit's author/timestamp
and its oid's pack size. -/

theorem refScanL_spec_aux (pack : Oid → Int) (commit : CommitInfo) :
    ∀ l : List GEntry,
      (∀ e ∈ l, ∀ (p : BPath) (S : List Oid),
        (∀ x, x ∈ (refScanE pack commit e p S).2 ↔ (x ∈ S ∨ x ∈ eblobsE e)) ∧
        (∀ x, x ∈ (refScanE pack commit e p S).1.map (fun m => m.oid) ↔
          (x ∈ eblobsE e ∧ x ∉ S)) ∧
        (∀ m ∈ (refScanE pack commit e p S).1,
          m.author = commit.author ∧ m.timestamp = commit.timestamp ∧
          m.size = pack m.oid)) →
      ∀ (p : BPath) (S : List Oid),
        (∀ x, x ∈ (refScanL pack commit l p S).2 ↔ (x ∈ S ∨ x ∈ eblobsL l)) ∧
        (∀ x, x ∈ (refScanL pack commit l p S).1.map (fun m => m.oid) ↔
          (x ∈ eblobsL l ∧ x ∉ S)) ∧
        (∀ m ∈ (refScanL pack commit l p S).1,
          m.author = commit.author ∧ m.timestamp = commit.timestamp ∧
          m.size = pack m.oid) := by
  intro l
  induction l with
  | nil =>
      intro _ p S
      refine ⟨?_, ?_, ?_⟩ <;> simp [refScanL, eblobsL]
  | cons e rest ih =>
      intro hall p S
      have hE := hall e (by simp) p S
      have hL := ih (fun x hx => hall x (by simp [hx])) p (refScanE pack commit e p S).2
      have h2 : (refScanL pack commit (e :: rest) p S).2 =
          (refScanL pack commit rest p (refScanE pack commit e p S).2).2 := rfl
      have h1 : (refScanL pack commit (e :: rest) p S).1 =
          (refScanE pack commit e p S).1 ++
          (refScanL pack commit rest p (refScanE pack commit e p S).2).1 := rfl
      refine ⟨?_, ?_, ?_⟩
      · intro x
        have e1 := hE.1 x
        have l1 := hL.1 x
        rw [h2]
        simp only [eblobsL, List.mem_append]
        tauto
      · intro x
        have e1 := hE.1 x
        have e2 := hE.2.1 x
        have l2 := hL.2.1 x
        rw [h1]
        simp only [eblobsL, List.map_append, List.mem_append] at *
        tauto
      · intro m hm
        rw [h1] at hm
        rcases List.mem_append.mp hm with h | h
        · exact hE.2.2 m h
        · exact hL.2.2 m h

theorem refScanE_spec (pack : Oid → Int) (commit : CommitInfo) :
    ∀ e : GEntry, ∀ (p : BPath) (S : List Oid),
      (∀ x, x ∈ (refScanE pack commit e p S).2 ↔ (x ∈ S ∨ x ∈ eblobsE e)) ∧
      (∀ x, x ∈ (refScanE pack commit e p S).1.map (fun m => m.oid) ↔
        (x ∈ eblobsE e ∧ x ∉ S)) ∧
      (∀ m ∈ (refScanE pack commit e p S).1,
        m.author = commit.author ∧ m.timestamp = commit.timestamp ∧
        m.size = pack m.oid) := by
  intro e
  induction e using gentryInd with
  | hb n b =>
      intro p S
      by_cases hbS : b ∈ S
      · refine ⟨?_, ?_, ?_⟩
        · intro x
          simp only [refScanE, if_pos hbS, eblobsE, List.mem_singleton]
          constructor
          · exact fun h => Or.inl h
          · rintro (h | rfl)
            · exact h
            · exact hbS
        · intro x
          simp only [refScanE, if_pos hbS, eblobsE, List.map_nil,
            List.not_mem_nil, false_iff, List.mem_singleton]
          rintro ⟨rfl, h⟩
          exact h hbS
        · intro m hm
          simp [refScanE, if_pos hbS] at hm
      · refine ⟨?_, ?_, ?_⟩
        · intro x
          simp only [refScanE, if_neg hbS, eblobsE, List.mem_cons,
            List.mem_singleton, List.not_mem_nil, or_false]
          tauto
        · intro x
          simp only [refScanE, if_neg hbS, eblobsE, List.map_cons, List.map_nil,
            List.mem_singleton, List.not_mem_nil, or_false]
          constructor
          · rintro rfl
            exact ⟨rfl, hbS⟩
          · rintro ⟨rfl, _⟩
            rfl
        · intro m hm
          simp only [refScanE, if_neg hbS, List.mem_singleton] at hm
          subst hm
          exact ⟨rfl, rfl, rfl⟩
  | ho n =>
      intro p S
      refine ⟨?_, ?_, ?_⟩ <;> simp [refScanE, eblobsE]
  | ht n toid sub ihsub =>
      intro p S
      have h := refScanL_spec_aux pack commit sub
        (fun x hx p' S' => ihsub x hx p' S') (childFull p n) S
      exact h

theorem refScanL_spec (pack : Oid → Int) (commit : CommitInfo) (l : List GEntry)
    (p : BPath) (S : List Oid) :
    (∀ x, x ∈ (refScanL pack commit l p S).2 ↔ (x ∈ S ∨ x ∈ eblobsL l)) ∧
    (∀ x, x ∈ (refScanL pack commit l p S).1.map (fun m => m.oid) ↔
      (x ∈ eblobsL l ∧ x ∉ S)) ∧
    (∀ m ∈ (refScanL pack commit l p S).1,
      m.author = commit.author ∧ m.timestamp = commit.timestamp ∧
      m.size = pack m.oid) :=
  refScanL_spec_aux pack commit l (fun e _ => refScanE_spec pack commit e) p S

theorem refScan_stableL_aux (pack : Oid → Int) (commit : CommitInfo) :
    ∀ l : List GEntry,
      (∀ e ∈ l, ∀ (p : BPath) (S : List Oid), (∀ b ∈ eblobsE e, b ∈ S) →
        refScanE pack commit e p S = ([], S)) →
      ∀ (p : BPath) (S : List Oid), (∀ b ∈ eblobsL l, b ∈ S) →
        refScanL pack commit l p S = ([], S) := by
  intro l
  induction l with
  | nil => intro _ p S _; rfl
  | cons e rest ih =>
      intro hall p S hsub
      have hE : refScanE pack commit e p S = ([], S) :=
        hall e (by simp) p S
          (fun b hb => hsub b (by simp [eblobsL, List.mem_append, hb]))
      have key : refScanL pack commit (e :: rest) p S =
          ((refScanE pack commit e p S).1 ++
            (refScanL pack commit rest p (refScanE pack commit e p S).2).1,
           (refScanL pack commit rest p (refScanE pack commit e p S).2).2) := rfl
      rw [key, hE]
      have hR : refScanL pack commit rest p S = ([], S) :=
        ih (fun x hx => hall x (by simp [hx]))
          p S (fun b hb => hsub b (by simp [eblobsL, List.mem_append, hb]))
      simp [hR]

theorem refScanE_stable (pack : Oid → Int) (commit : CommitInfo) :
    ∀ e : GEntry, ∀ (p : BPath) (S : List Oid), (∀ b ∈ eblobsE e, b ∈ S) →
      refScanE pack commit e p S = ([], S) := by
  intro e
  induction e using gentryInd with
  | hb n b =>
      intro p S hsub
      have : b ∈ S := hsub b (by simp [eblobsE])
      simp [refScanE, this]
  | ho n => intro p S _; rfl
  | ht n toid sub ihsub =>
      intro p S hsub
      exact refScan_stableL_aux pack commit sub
        (fun x hx p' S' h' => ihsub x hx p' S' h') (childFull p n) S hsub

theorem refScanL_stable (pack : Oid → Int) (commit : CommitInfo) (l : List GEntry)
    (p : BPath) (S : List Oid) (hsub : ∀ b ∈ eblobsL l, b ∈ S) :
    refScanL pack commit l p S = ([], S) :=
  refScan_stableL_aux pack commit l (fun e _ => refScanE_stable pack commit e) p S hsub

theorem refScan_congrL_aux (pack : Oid → Int) (commit : CommitInfo) :
    ∀ l : List GEntry,
      (∀ e ∈ l, ∀ (p : BPath) (S T : List Oid), (∀ x, x ∈ S ↔ x ∈ T) →
        (refScanE pack commit e p S).1 = (refScanE pack commit e p T).1 ∧
        (∀ x, x ∈ (refScanE pack commit e p S).2 ↔ x ∈ (refScanE pack commit e p T).2)) →
      ∀ (p : BPath) (S T : List Oid), (∀ x, x ∈ S ↔ x ∈ T) →
        (refScanL pack commit l p S).1 = (refScanL pack commit l p T).1 ∧
        (∀ x, x ∈ (refScanL pack commit l p S).2 ↔ x ∈ (refScanL pack commit l p T).2) := by
  intro l
  induction l with
  | nil => intro _ p S T hST; exact ⟨rfl, hST⟩
  | cons e rest ih =>
      intro hall p S T hST
      have hE := hall e (by simp) p S T hST
      have hR := ih (fun x hx => hall x (by simp [hx])) p
        (refScanE pack commit e p S).2 (refScanE pack commit e p T).2 hE.2
      have keyS : refScanL pack commit (e :: rest) p S =
          ((refScanE pack commit e p S).1 ++
            (refScanL pack commit rest p (refScanE pack commit e p S).2).1,
           (refScanL pack commit rest p (refScanE pack commit e p S).2).2) := rfl
      have keyT : refScanL pack commit (e :: rest) p T =
          ((refScanE pack commit e p T).1 ++
            (refScanL pack commit rest p (refScanE pack commit e p T).2).1,
           (refScanL pack commit rest p (refScanE pack commit e p T).2).2) := rfl
      rw [keyS, keyT]
      exact ⟨by rw [hE.1, hR.1], hR.2⟩

theorem refScanE_congr (pack : Oid → Int) (commit : CommitInfo) :
    ∀ e : GEntry, ∀ (p : BPath) (S T : List Oid), (∀ x, x ∈ S ↔ x ∈ T) →
      (refScanE pack commit e p S).1 = (refScanE pack commit e p T).1 ∧
      (∀ x, x ∈ (refScanE pack commit e p S).2 ↔ x ∈ (refScanE pack commit e p T).2) := by
  intro e
  induction e using gentryInd with
  | hb n b =>
      intro p S T hST
      by_cases hbS : b ∈ S
      · have hbT : b ∈ T := (hST b).mp hbS
        simp only [refScanE, if_pos hbS, if_pos hbT]
        exact ⟨trivial, hST⟩
      · have hbT : b ∉ T := fun h => hbS ((hST b).mpr h)
        simp only [refScanE, if_neg hbS, if_neg hbT]
        refine ⟨trivial, fun x => ?_⟩
        simp only [List.mem_cons]
        rw [hST x]
  | ho n => intro p S T hST; exact ⟨rfl, hST⟩
  | ht n toid sub ihsub =>
      intro p S T hST
      exact refScan_congrL_aux pack commit sub
        (fun x hx p' S' T' h' => ihsub x hx p' S' T' h') (childFull p n) S T hST

theorem refScanL_congr (pack : Oid → Int) (commit : CommitInfo) (l : List GEntry)
    (p : BPath) (S T : List Oid) (hST : ∀ x, x ∈ S ↔ x ∈ T) :
    (refScanL pack commit l p S).1 = (refScanL pack commit l p T).1 ∧
    (∀ x, x ∈ (refScanL pack commit l p S).2 ↔ x ∈ (refScanL pack commit l p T).2) :=
  refScan_congrL_aux pack commit l (fun e _ => refScanE_congr pack commit e) p S T hST

theorem refScan_nodupL_aux (pack : Oid → Int) (commit : CommitInfo) :
    ∀ l : List GEntry,
      (∀ e ∈ l, ∀ (p : BPath) (S : List Oid),
        ((refScanE pack commit e p S).1.map (fun m => m.oid)).Nodup) →
      ∀ (p : BPath) (S : List Oid),
        ((refScanL pack commit l p S).1.map (fun m => m.oid)).Nodup := by
  intro l
  induction l with
  | nil => intro _ p S; simp [refScanL]
  | cons e rest ih =>
      intro hall p S
      have key : (refScanL pack commit (e :: rest) p S).1 =
          (refScanE pack commit e p S).1 ++
          (refScanL pack commit rest p (refScanE pack commit e p S).2).1 := rfl
      rw [key, List.map_append]
      refine List.Nodup.append (hall e (by simp) p S)
        (ih (fun x hx => hall x (by simp [hx])) p _) ?_
      intro x hx1 hx2
      have h1 := (refScanE_spec pack commit e p S).2.1 x |>.mp hx1
      have hmem : x ∈ (refScanE pack commit e p S).2 :=
        ((refScanE_spec pack commit e p S).1 x).mpr (Or.inr h1.1)
      have h2 := (refScanL_spec pack commit rest p
        (refScanE pack commit e p S).2).2.1 x |>.mp hx2
      exact h2.2 hmem

theorem refScanE_nodup (pack : Oid → Int) (commit : CommitInfo) :
    ∀ e : GEntry, ∀ (p : BPath) (S : List Oid),
      ((refScanE pack commit e p S).1.map (fun m => m.oid)).Nodup := by
  intro e
  induction e using gentryInd with
  | hb n b =>
      intro p S
      by_cases hbS : b ∈ S
      · simp [refScanE, hbS]
      · simp [refScanE, hbS]
  | ho n => intro p S; simp [refScanE]
  | ht n toid sub ihsub =>
      intro p S
      exact refScan_nodupL_aux pack commit sub
        (fun x hx p' S' => ihsub x hx p' S') (childFull p n) S

theorem refScanL_nodup (pack : Oid → Int) (commit : CommitInfo) (l : List GEntry)
    (p : BPath) (S : List Oid) :
    ((refScanL pack commit l p S).1.map (fun m => m.oid)).Nodup :=
  refScan_nodupL_aux pack commit l (fun e _ => refScanE_nodup pack commit e) p S

/-! ### Scanner / reference-scanner correspondence

Invariants: `GoodOid U S o` says every blob reachable from a tree object
with oid `o` (under any entry list the universe `U` assigns to `o`) is in
the seen list `S`; `GoodLong U σ k` restricts this to `seen_trees` markers
whose path has length at least `k` (markers at the current recursion depth
are inserted before their subtree is processed, so they only become "good"
once the subtree walk finishes); `PBInv` says `seen_path_blobs` only holds
pairs whose blob is already seen. -/

def GoodOid (U : List (Oid × List GEntry)) (S : List Oid) (o : Oid) : Prop :=
  ∀ es, (o, es) ∈ U → ∀ b ∈ eblobsL es, b ∈ S

def GoodLong (U : List (Oid × List GEntry)) (σ : ScanState) (k : Nat) : Prop :=
  ∀ pr ∈ σ.seenTrees, k ≤ pr.2.length → GoodOid U σ.seenBlobs pr.1

def PBInv (σ : ScanState) : Prop :=
  ∀ q b, (q, b) ∈ σ.seenPathBlobs → b ∈ σ.seenBlobs

/-- Sum of `cumulative_size` over the blob rows at one path. -/
def cumSum (rows : List BlobRow) (q : BPath) : Int :=
  ((rows.filter (fun r => r.path = q)).map (fun r => r.cumulative_size)).sum

/-- Sum of `size` over the metadata rows at one path. -/
def sizeSum (ms : List BlobMetaRow) (q : BPath) : Int :=
  ((ms.filter (fun m => m.path = q)).map (fun m => m.size)).sum

theorem cumSum_append (a b : List BlobRow) (q : BPath) :
    cumSum (a ++ b) q = cumSum a q + cumSum b q := by
  simp [cumSum, List.filter_append]

theorem sizeSum_append (a b : List BlobMetaRow) (q : BPath) :
    sizeSum (a ++ b) q = sizeSum a q + sizeSum b q := by
  simp [sizeSum, List.filter_append]

theorem goodOid_mono {U : List (Oid × List GEntry)} {S S' : List Oid} {o : Oid}
    (hss : ∀ x ∈ S, x ∈ S') (h : GoodOid U S o) : GoodOid U S' o :=
  fun es hes b hb => hss b (h es hes b hb)

theorem childFull_len (p n : List Char) (hn : n ≠ []) :
    p.length + 1 ≤ (childFull p n).length := by
  cases p with
  | nil =>
      cases n with
      | nil => exact absurd rfl hn
      | cons c cs => simp [childFull]
  | cons c cs =>
      simp [childFull]

theorem childFull_len_ge (p n : List Char) : p.length ≤ (childFull p n).length := by
  cases p with
  | nil => simp [childFull]
  | cons c cs => simp [childFull]

/-- Conclusions of the correspondence, for a step from state `σ` to state
`τ` at base path `p`, with reference result `R`. -/
def ScanConcl (U : List (Oid × List GEntry)) (τ σ : ScanState)
    (R : List BlobMetaRow × List Oid) (p : BPath) : Prop :=
  τ.metadata = σ.metadata ++ R.1 ∧
  τ.seenBlobs = R.2 ∧
  (∀ pr ∈ σ.seenTrees, pr ∈ τ.seenTrees) ∧
  (∀ pr ∈ τ.seenTrees, pr ∈ σ.seenTrees ∨
    (p.length + 1 ≤ pr.2.length ∧ GoodOid U τ.seenBlobs pr.1)) ∧
  PBInv τ ∧
  ∃ Δb, τ.blobs = σ.blobs ++ Δb ∧
    (∀ q, cumSum Δb q = sizeSum R.1 q) ∧
    (∀ r ∈ Δb, r.oid ∈ τ.seenBlobs) ∧
    (∀ m ∈ R.1, ∃ r ∈ Δb, r.oid = m.oid)

/-- The per-entry correspondence statement. -/
def EScanSpec (pack : Oid → Int) (head : HeadSnapshot) (commit : CommitInfo)
    (U : List (Oid × List GEntry)) (e : GEntry) : Prop :=
  ∀ (p : BPath) (σ : ScanState),
    Consistent U →
    (∀ x ∈ subTreesE e, x ∈ U) →
    namesOkE e = true →
    GoodLong U σ (p.length + 1) →
    PBInv σ →
    ScanConcl U (scanEntry pack head commit e p σ) σ
      (refScanE pack commit e p σ.seenBlobs) p

/-! Equation lemmas for `handleBlob`, one per emission case. -/

theorem handleBlob_dup (pack : Oid → Int) (head : HeadSnapshot) (commit : CommitInfo)
    (oid : Oid) (path : BPath) (σ : ScanState)
    (hp : (path, oid) ∈ σ.seenPathBlobs) :
    handleBlob pack head commit oid path σ = σ := by
  simp [handleBlob, hp]

theorem handleBlob_new (pack : Oid → Int) (head : HeadSnapshot) (commit : CommitInfo)
    (oid : Oid) (path : BPath) (σ : ScanState)
    (hnp : (path, oid) ∉ σ.seenPathBlobs) (hb : oid ∉ σ.seenBlobs) :
    handleBlob pack head commit oid path σ =
      { σ with seenPathBlobs := (path, oid) :: σ.seenPathBlobs,
               seenBlobs := oid :: σ.seenBlobs,
               blobs := σ.blobs ++ [⟨oid, path, pack oid, currentSizeAt head path oid⟩],
               metadata := σ.metadata ++
                 [⟨oid, pack oid, path, commit.author, commit.timestamp⟩] } := by
  simp [handleBlob, recordBlob, hnp, hb]

theorem handleBlob_old_pos (pack : Oid → Int) (head : HeadSnapshot) (commit : CommitInfo)
    (oid : Oid) (path : BPath) (σ : ScanState)
    (hnp : (path, oid) ∉ σ.seenPathBlobs) (hb : oid ∈ σ.seenBlobs)
    (hcs : currentSizeAt head path oid > 0) :
    handleBlob pack head commit oid path σ =
      { σ with seenPathBlobs := (path, oid) :: σ.seenPathBlobs,
               blobs := σ.blobs ++ [⟨oid, path, 0, currentSizeAt head path oid⟩] } := by
  simp [handleBlob, recordBlob, hnp, hb, hcs]

theorem handleBlob_old_zero (pack : Oid → Int) (head : HeadSnapshot) (commit : CommitInfo)
    (oid : Oid) (path : BPath) (σ : ScanState)
    (hnp : (path, oid) ∉ σ.seenPathBlobs) (hb : oid ∈ σ.seenBlobs)
    (hcs : ¬ currentSizeAt head path oid > 0) :
    handleBlob pack head commit oid path σ =
      { σ with seenPathBlobs := (path, oid) :: σ.seenPathBlobs } := by
  simp [handleBlob, recordBlob, hnp, hb, hcs]

/-- C2: per-blob emission contract of `handle_blob`/`record_blob`.  For a
blob entry at path `p` with oid `b` not yet in `seen_path_blobs`:
`current_size` is the HEAD snapshot's size at `p` exactly when HEAD's entry
at `p` carries oid `b`, else 0; a never-seen blob emits exactly one
`BlobRow (b, p, size, current_size)` and one `BlobMetaRow`; a
previously-seen blob with positive `current_size` emits exactly one
`BlobRow (b, p, 0, current_size)` and no metadata row; a previously-seen
blob with `current_size = 0` emits nothing. -/
theorem per_blob_emission (pack : Oid → Int) (head : HeadSnapshot) (commit : CommitInfo)
    (b : Oid) (p : BPath) (σ : ScanState)
    (hnp : (p, b) ∉ σ.seenPathBlobs) :
    (∀ ho s, headLookup head p = some (ho, s) →
        currentSizeAt head p b = if ho = b then s else 0) ∧
    (headLookup head p = none → currentSizeAt head p b = 0) ∧
    (b ∉ σ.seenBlobs →
      (handleBlob pack head commit b p σ).blobs =
        σ.blobs ++ [⟨b, p, pack b, currentSizeAt head p b⟩] ∧
      (handleBlob pack head commit b p σ).metadata =
        σ.metadata ++ [⟨b, pack b, p, commit.author, commit.timestamp⟩]) ∧
    (b ∈ σ.seenBlobs → currentSizeAt head p b > 0 →
      (handleBlob pack head commit b p σ).blobs =
        σ.blobs ++ [⟨b, p, 0, currentSizeAt head p b⟩] ∧
      (handleBlob pack head commit b p σ).metadata = σ.metadata) ∧
    (b ∈ σ.seenBlobs → ¬ currentSizeAt head p b > 0 →
      (handleBlob pack head commit b p σ).blobs = σ.blobs ∧
      (handleBlob pack head commit b p σ).metadata = σ.metadata) := by
  refine ⟨?_, ?_, ?_, ?_, ?_⟩
  · intro ho s hsome
    simp [currentSizeAt, hsome]
  · intro hnone
    simp [currentSizeAt, hnone]
  · intro hb
    rw [handleBlob_new pack head commit b p σ hnp hb]
    exact ⟨rfl, rfl⟩
  · intro hb hcs
    rw [handleBlob_old_pos pack head commit b p σ hnp hb hcs]
    exact ⟨rfl, rfl⟩
  · intro hb hcs
    rw [handleBlob_old_zero pack head commit b p σ hnp hb hcs]
    exact ⟨rfl, rfl⟩

theorem cumSum_single (b : Oid) (q q' : BPath) (c s : Int) :
    cumSum [⟨b, q, c, s⟩] q' = if q = q' then c else 0 := by
  by_cases hq : q = q' <;> simp [cumSum, hq]

theorem sizeSum_single (b : Oid) (q q' : BPath) (s : Int) (a : List Char) (t : Int) :
    sizeSum [⟨b, s, q, a, t⟩] q' = if q = q' then s else 0 := by
  by_cases hq : q = q' <;> simp [sizeSum, hq]

theorem cumSum_nil (q : BPath) : cumSum [] q = 0 := rfl

theorem sizeSum_nil (q : BPath) : sizeSum [] q = 0 := rfl

/-- The correspondence conclusions hold for one `handle_blob` step against
the reference scanner's blob case. -/
theorem handleBlob_concl (pack : Oid → Int) (head : HeadSnapshot) (commit : CommitInfo)
    (U : List (Oid × List GEntry)) (b : Oid) (q p : BPath) (σ : ScanState)
    (hPB : PBInv σ) :
    ScanConcl U (handleBlob pack head commit b q σ) σ
      (if b ∈ σ.seenBlobs then ([], σ.seenBlobs)
       else ([⟨b, pack b, q, commit.author, commit.timestamp⟩], b :: σ.seenBlobs)) p := by
  by_cases hpb : (q, b) ∈ σ.seenPathBlobs
  · have hb : b ∈ σ.seenBlobs := hPB q b hpb
    rw [handleBlob_dup pack head commit b q σ hpb, if_pos hb]
    refine ⟨by simp, rfl, fun pr hpr => hpr, fun pr hpr => Or.inl hpr, hPB,
      [], by simp, fun q' => by simp [cumSum_nil, sizeSum_nil],
      fun r hr => absurd hr (List.not_mem_nil r), fun m hm => absurd hm (List.not_mem_nil m)⟩
  · by_cases hb : b ∈ σ.seenBlobs
    · rw [if_pos hb]
      by_cases hcs : currentSizeAt head q b > 0
      · rw [handleBlob_old_pos pack head commit b q σ hpb hb hcs]
        refine ⟨by simp, rfl, fun pr hpr => hpr, fun pr hpr => Or.inl hpr, ?_,
          [⟨b, q, 0, currentSizeAt head q b⟩], by simp,
          fun q' => by simp [cumSum_single, sizeSum_nil],
          fun r hr => ?_, fun m hm => absurd hm (List.not_mem_nil m)⟩
        · intro q' b' hmem
          rcases List.mem_cons.mp hmem with h | h
          · cases h
            exact hb
          · exact hPB q' b' h
        · rcases List.mem_singleton.mp hr with rfl
          exact hb
      · rw [handleBlob_old_zero pack head commit b q σ hpb hb hcs]
        refine ⟨by simp, rfl, fun pr hpr => hpr, fun pr hpr => Or.inl hpr, ?_,
          [], by simp, fun q' => by simp [cumSum_nil, sizeSum_nil],
          fun r hr => absurd hr (List.not_mem_nil r),
          fun m hm => absurd hm (List.not_mem_nil m)⟩
        intro q' b' hmem
        rcases List.mem_cons.mp hmem with h | h
        · cases h
          exact hb
        · exact hPB q' b' h
    · rw [if_neg hb, handleBlob_new pack head commit b q σ hpb hb]
      refine ⟨by simp, rfl, fun pr hpr => hpr, fun pr hpr => Or.inl hpr, ?_,
        [⟨b, q, pack b, currentSizeAt head q b⟩], by simp,
        fun q' => by rw [cumSum_single, sizeSum_single],
        fun r hr => ?_, fun m hm => ?_⟩
      · intro q' b' hmem
        rcases List.mem_cons.mp hmem with h | h
        · cases h
          exact List.mem_cons_self b σ.seenBlobs
        · exact List.mem_cons_of_mem b (hPB q' b' h)
      · rcases List.mem_singleton.mp hr with rfl
        exact List.mem_cons_self b σ.seenBlobs
      · rcases List.mem_singleton.mp hm with rfl
        exact ⟨⟨b, q, pack b, currentSizeAt head q b⟩, List.mem_singleton_self _, rfl⟩

/-- `ScanConcl` for a step that changes nothing and emits nothing. -/
theorem scanConcl_id (U : List (Oid × List GEntry)) (σ : ScanState) (p : BPath)
    (hPB : PBInv σ) : ScanConcl U σ σ ([], σ.seenBlobs) p :=
  ⟨by simp, rfl, fun pr hpr => hpr, fun pr hpr => Or.inl hpr, hPB,
   [], by simp, fun q => by simp [cumSum_nil, sizeSum_nil],
   fun r hr => absurd hr (List.not_mem_nil r),
   fun m hm => absurd hm (List.not_mem_nil m)⟩

/-- `ScanConcl` composes along two consecutive steps. -/
theorem scanConcl_comp (U : List (Oid × List GEntry)) (σ τ1 τ2 : ScanState)
    (R1 R2 : List BlobMetaRow × List Oid) (p : BPath)
    (h1 : ScanConcl U τ1 σ R1 p) (h2 : ScanConcl U τ2 τ1 R2 p)
    (hmono : ∀ x ∈ τ1.seenBlobs, x ∈ τ2.seenBlobs) :
    ScanConcl U τ2 σ (R1.1 ++ R2.1, R2.2) p := by
  obtain ⟨hm1, hs1, hg1, hc1, hp1, Δ1, hb1, hsum1, ho1, hx1⟩ := h1
  obtain ⟨hm2, hs2, hg2, hc2, hp2, Δ2, hb2, hsum2, ho2, hx2⟩ := h2
  refine ⟨?_, hs2, fun pr hpr => hg2 pr (hg1 pr hpr), ?_, hp2, Δ1 ++ Δ2, ?_, ?_, ?_, ?_⟩
  · show τ2.metadata = σ.metadata ++ (R1.1 ++ R2.1)
    rw [hm2, hm1, List.append_assoc]
  · intro pr hpr
    rcases hc2 pr hpr with h | h
    · rcases hc1 pr h with h' | h'
      · exact Or.inl h'
      · exact Or.inr ⟨h'.1, goodOid_mono hmono h'.2⟩
    · exact Or.inr h
  · rw [hb2, hb1, List.append_assoc]
  · intro q
    show cumSum (Δ1 ++ Δ2) q = sizeSum (R1.1 ++ R2.1) q
    rw [cumSum_append, sizeSum_append, hsum1, hsum2]
  · intro r hr
    rcases List.mem_append.mp hr with h | h
    · exact hmono r.oid (ho1 r h)
    · exact ho2 r h
  · intro m hm
    have hm' : m ∈ R1.1 ++ R2.1 := hm
    rcases List.mem_append.mp hm' with h | h
    · obtain ⟨r, hr, hre⟩ := hx1 m h
      exact ⟨r, List.mem_append.mpr (Or.inl hr), hre⟩
    · obtain ⟨r, hr, hre⟩ := hx2 m h
      exact ⟨r, List.mem_append.mpr (Or.inr hr), hre⟩

/-- List-level correspondence, assuming it entrywise. -/
theorem scanL_spec_aux (pack : Oid → Int) (head : HeadSnapshot) (commit : CommitInfo)
    (U : List (Oid × List GEntry)) :
    ∀ l : List GEntry, (∀ e ∈ l, EScanSpec pack head commit U e) →
      ∀ (p : BPath) (σ : ScanState),
        Consistent U →
        (∀ x ∈ subTreesL l, x ∈ U) →
        namesOkL l = true →
        GoodLong U σ (p.length + 1) →
        PBInv σ →
        ScanConcl U (scanEntries pack head commit l p σ) σ
          (refScanL pack commit l p σ.seenBlobs) p := by
  intro l
  induction l with
  | nil =>
      intro _ p σ _ _ _ _ hPB
      exact scanConcl_id U σ p hPB
  | cons e rest ih =>
      intro hall p σ hcons hsub hnames hGL hPB
      have hn := hnames
      simp only [namesOkL, Bool.and_eq_true] at hn
      have hE := hall e (by simp) p σ hcons
        (fun x hx => hsub x (List.mem_append.mpr (Or.inl hx))) hn.1 hGL hPB
      have hmono1 : ∀ x ∈ σ.seenBlobs, x ∈ (scanEntry pack head commit e p σ).seenBlobs := by
        intro x hx
        rw [hE.2.1]
        exact ((refScanE_spec pack commit e p σ.seenBlobs).1 x).mpr (Or.inl hx)
      have hGL1 : GoodLong U (scanEntry pack head commit e p σ) (p.length + 1) := by
        intro pr hpr hlen
        rcases hE.2.2.2.1 pr hpr with h | h
        · exact goodOid_mono hmono1 (hGL pr h hlen)
        · exact h.2
      have hPB1 : PBInv (scanEntry pack head commit e p σ) := hE.2.2.2.2.1
      have hL := ih (fun x hx => hall x (by simp [hx])) p (scanEntry pack head commit e p σ)
        hcons (fun x hx => hsub x (List.mem_append.mpr (Or.inr hx))) hn.2 hGL1 hPB1
      have hmono2 : ∀ x ∈ (scanEntry pack head commit e p σ).seenBlobs,
          x ∈ (scanEntries pack head commit rest p (scanEntry pack head commit e p σ)).seenBlobs := by
        intro x hx
        rw [hL.2.1]
        exact ((refScanL_spec pack commit rest p
          (scanEntry pack head commit e p σ).seenBlobs).1 x).mpr (Or.inl hx)
      have hgoal : refScanL pack commit (e :: rest) p σ.seenBlobs =
          ((refScanE pack commit e p σ.seenBlobs).1 ++
            (refScanL pack commit rest p (scanEntry pack head commit e p σ).seenBlobs).1,
           (refScanL pack commit rest p (scanEntry pack head commit e p σ).seenBlobs).2) := by
        rw [hE.2.1]
        exact rfl
      rw [hgoal]
      exact scanConcl_comp U σ (scanEntry pack head commit e p σ)
        (scanEntries pack head commit rest p (scanEntry pack head commit e p σ))
        (refScanE pack commit e p σ.seenBlobs)
        (refScanL pack commit rest p (scanEntry pack head commit e p σ).seenBlobs)
        p hE hL hmono2

/-- Per-entry correspondence between the real scanner and the reference
scanner. -/
theorem scanE_spec (pack : Oid → Int) (head : HeadSnapshot) (commit : CommitInfo)
    (U : List (Oid × List GEntry)) : ∀ e : GEntry, EScanSpec pack head commit U e := by
  intro e
  induction e using gentryInd with
  | hb n b =>
      intro p σ _ _ _ _ hPB
      exact handleBlob_concl pack head commit U b (childFull p n) p σ hPB
  | ho n =>
      intro p σ _ _ _ _ hPB
      exact scanConcl_id U σ p hPB
  | ht n toid sub ihsub =>
      intro p σ hcons hsub hnames hGL hPB
      have hn := hnames
      simp only [namesOkE, Bool.and_eq_true, Bool.not_eq_true'] at hn
      have hnE : n ≠ [] := by
        intro h
        rw [h] at hn
        simp [List.isEmpty] at hn
      have hlenp : p.length + 1 ≤ (childFull p n).length := childFull_len p n hnE
      have hsubU : (toid, sub) ∈ U := hsub (toid, sub) (by simp [subTreesE])
      by_cases hseen : (toid, childFull p n) ∈ σ.seenTrees
      · have hτ : scanEntry pack head commit (.treeE n toid sub) p σ = σ := by
          simp [scanEntry, hseen]
        have hgood : GoodOid U σ.seenBlobs toid := hGL _ hseen hlenp
        have hblobs : ∀ b ∈ eblobsL sub, b ∈ σ.seenBlobs := hgood sub hsubU
        have hR : refScanE pack commit (.treeE n toid sub) p σ.seenBlobs =
            ([], σ.seenBlobs) :=
          refScanL_stable pack commit sub (childFull p n) σ.seenBlobs hblobs
        rw [hτ, hR]
        exact scanConcl_id U σ p hPB
      · have hτ : scanEntry pack head commit (.treeE n toid sub) p σ =
            scanEntries pack head commit sub (childFull p n)
              { σ with seenTrees := (toid, childFull p n) :: σ.seenTrees } := by
          simp [scanEntry, hseen]
        have hGL' : GoodLong U
            { σ with seenTrees := (toid, childFull p n) :: σ.seenTrees }
            ((childFull p n).length + 1) := by
          intro pr hpr hlen
          rcases List.mem_cons.mp hpr with h | h
          · exfalso
            rw [h] at hlen
            have hred : ((toid, childFull p n).2).length = (childFull p n).length := rfl
            rw [hred] at hlen
            omega
          · exact hGL pr h (by omega)
        have hPB' : PBInv { σ with seenTrees := (toid, childFull p n) :: σ.seenTrees } := hPB
        have hL := scanL_spec_aux pack head commit U sub
          (fun x hx => ihsub x hx) (childFull p n)
          { σ with seenTrees := (toid, childFull p n) :: σ.seenTrees }
          hcons
          (fun x hx => hsub x (List.mem_cons_of_mem _ hx))
          hn.2 hGL' hPB'
        obtain ⟨hm, hs, hg, hc, hp2, Δ, hb, hsum, ho, hx⟩ := hL
        rw [hτ]
        refine ⟨hm, hs, ?_, ?_, hp2, Δ, hb, hsum, ho, hx⟩
        · intro pr hpr
          exact hg pr (List.mem_cons_of_mem _ hpr)
        · intro pr hpr
          rcases hc pr hpr with h | h
          · rcases List.mem_cons.mp h with h' | h'
            · subst h'
              refine Or.inr ⟨hlenp, ?_⟩
              intro es hes bb hbb
              have hes2 : es = sub :=
                hcons ((toid, childFull p n).1, es) hes (toid, sub) hsubU rfl
              rw [hes2] at hbb
              rw [hs]
              exact ((refScanL_spec pack commit sub (childFull p n)
                σ.seenBlobs).1 bb).mpr (Or.inr hbb)
            · exact Or.inl h'
          · exact Or.inr ⟨by omega, h.2⟩

/-- List-level correspondence. -/
theorem scanEntries_spec (pack : Oid → Int) (head : HeadSnapshot) (commit : CommitInfo)
    (U : List (Oid × List GEntry)) (l : List GEntry) (p : BPath) (σ : ScanState)
    (hcons : Consistent U) (hsub : ∀ x ∈ subTreesL l, x ∈ U)
    (hnames : namesOkL l = true) (hGL : GoodLong U σ (p.length + 1)) (hPB : PBInv σ) :
    ScanConcl U (scanEntries pack head commit l p σ) σ
      (refScanL pack commit l p σ.seenBlobs) p :=
  scanL_spec_aux pack head commit U l (fun e _ => scanE_spec pack head commit U e)
    p σ hcons hsub hnames hGL hPB

/-- Final seen list of the commit-level reference scan: seed plus all blobs
reachable from the commit list. -/
theorem refScanCommits_mem (pack : Oid → Int) :
    ∀ (L : List CommitInfo) (S : List Oid) (x : Oid),
      x ∈ (refScanCommits pack L S).2 ↔ (x ∈ S ∨ ∃ c ∈ L, x ∈ eblobsL c.tree) := by
  intro L
  induction L with
  | nil => intro S x; simp [refScanCommits]
  | cons c rest ih =>
      intro S x
      have key : (refScanCommits pack (c :: rest) S).2 =
          (refScanCommits pack rest (refScanCommit pack c S).2).2 := rfl
      rw [key, ih]
      have hc := (refScanL_spec pack c c.tree [] S).1 x
      constructor
      · rintro (hx | hx)
        · rcases hc.mp hx with h | h
          · exact Or.inl h
          · exact Or.inr ⟨c, by simp, h⟩
        · obtain ⟨d, hd, hxd⟩ := hx
          exact Or.inr ⟨d, by simp [hd], hxd⟩
      · rintro (hx | hx)
        · exact Or.inl (hc.mpr (Or.inl hx))
        · obtain ⟨d, hd, hxd⟩ := hx
          rcases List.mem_cons.mp hd with h | h
          · subst h
            exact Or.inl (hc.mpr (Or.inr hxd))
          · exact Or.inr ⟨d, h, hxd⟩

/-- Emitted metadata oids of the commit-level reference scan: the reachable
blobs outside the seed. -/
theorem refScanCommits_meta_mem (pack : Oid → Int) :
    ∀ (L : List CommitInfo) (S : List Oid) (x : Oid),
      x ∈ (refScanCommits pack L S).1.map (fun m => m.oid) ↔
        ((∃ c ∈ L, x ∈ eblobsL c.tree) ∧ x ∉ S) := by
  intro L
  induction L with
  | nil => intro S x; simp [refScanCommits]
  | cons c rest ih =>
      intro S x
      have key : (refScanCommits pack (c :: rest) S).1 =
          (refScanCommit pack c S).1 ++
          (refScanCommits pack rest (refScanCommit pack c S).2).1 := rfl
      rw [key, List.map_append]
      have hc := (refScanL_spec pack c c.tree [] S).2.1 x
      have hs := (refScanL_spec pack c c.tree [] S).1 x
      have hr := ih (refScanCommit pack c S).2 x
      simp only [List.mem_append] at *
      constructor
      · rintro (hx | hx)
        · have := hc.mp hx
          exact ⟨⟨c, by simp, this.1⟩, this.2⟩
        · have := hr.mp hx
          obtain ⟨⟨d, hd, hxd⟩, hnot⟩ := this
          refine ⟨⟨d, by simp [hd], hxd⟩, fun hxs => hnot (hs.mpr (Or.inl hxs))⟩
      · rintro ⟨⟨d, hd, hxd⟩, hnot⟩
        rcases List.mem_cons.mp hd with h | h
        · subst h
          exact Or.inl (hc.mpr ⟨hxd, hnot⟩)
        · by_cases hxc : x ∈ eblobsL c.tree
          · exact Or.inl (hc.mpr ⟨hxc, hnot⟩)
          · refine Or.inr (hr.mpr ⟨⟨d, h, hxd⟩, fun hx1 => ?_⟩)
            rcases hs.mp hx1 with h' | h'
            · exact hnot h'
            · exact hxc h'

/-- Commit-level congruence in the seed, up to set equality. -/
theorem refScanCommits_congr (pack : Oid → Int) :
    ∀ (L : List CommitInfo) (S T : List Oid), (∀ x, x ∈ S ↔ x ∈ T) →
      (refScanCommits pack L S).1 = (refScanCommits pack L T).1 ∧
      (∀ x, x ∈ (refScanCommits pack L S).2 ↔ x ∈ (refScanCommits pack L T).2) := by
  intro L
  induction L with
  | nil => intro S T hST; exact ⟨rfl, hST⟩
  | cons c rest ih =>
      intro S T hST
      have hc := refScanL_congr pack c c.tree [] S T hST
      have hr := ih (refScanCommit pack c S).2 (refScanCommit pack c T).2 hc.2
      have keyS : refScanCommits pack (c :: rest) S =
          ((refScanCommit pack c S).1 ++
            (refScanCommits pack rest (refScanCommit pack c S).2).1,
           (refScanCommits pack rest (refScanCommit pack c S).2).2) := rfl
      have keyT : refScanCommits pack (c :: rest) T =
          ((refScanCommit pack c T).1 ++
            (refScanCommits pack rest (refScanCommit pack c T).2).1,
           (refScanCommits pack rest (refScanCommit pack c T).2).2) := rfl
      rw [keyS, keyT]
      have hc1 : (refScanCommit pack c S).1 = (refScanCommit pack c T).1 := hc.1
      refine ⟨?_, hr.2⟩
      show (refScanCommit pack c S).1 ++
          (refScanCommits pack rest (refScanCommit pack c S).2).1 =
        (refScanCommit pack c T).1 ++
          (refScanCommits pack rest (refScanCommit pack c T).2).1
      rw [hr.1, hc1]

/-- The commit-level reference scan splits over list append. -/
theorem refScanCommits_append (pack : Oid → Int) :
    ∀ (L1 L2 : List CommitInfo) (S : List Oid),
      refScanCommits pack (L1 ++ L2) S =
        ((refScanCommits pack L1 S).1 ++
          (refScanCommits pack L2 (refScanCommits pack L1 S).2).1,
         (refScanCommits pack L2 (refScanCommits pack L1 S).2).2) := by
  intro L1
  induction L1 with
  | nil => intro L2 S; simp [refScanCommits]
  | cons c rest ih =>
      intro L2 S
      have key : refScanCommits pack ((c :: rest) ++ L2) S =
          ((refScanCommit pack c S).1 ++
            (refScanCommits pack (rest ++ L2) (refScanCommit pack c S).2).1,
           (refScanCommits pack (rest ++ L2) (refScanCommit pack c S).2).2) := rfl
      rw [key, ih L2 (refScanCommit pack c S).2]
      have key2 : refScanCommits pack (c :: rest) S =
          ((refScanCommit pack c S).1 ++
            (refScanCommits pack rest (refScanCommit pack c S).2).1,
           (refScanCommits pack rest (refScanCommit pack c S).2).2) := rfl
      rw [key2]
      simp [List.append_assoc]

/-- All `seen_trees` markers are fully processed. -/
def AllGood (U : List (Oid × List GEntry)) (σ : ScanState) : Prop :=
  ∀ pr ∈ σ.seenTrees, GoodOid U σ.seenBlobs pr.1

/-- Universe hypotheses for a commit list. -/
def commitHypsOk (U : List (Oid × List GEntry)) (L : List CommitInfo) : Prop :=
  ∀ c ∈ L, (c.treeOid, c.tree) ∈ U ∧ (∀ x ∈ subTreesL c.tree, x ∈ U) ∧
    namesOkL c.tree = true

/-- Commit-level correspondence. -/
theorem scanCommit_spec (pack : Oid → Int) (head : HeadSnapshot)
    (U : List (Oid × List GEntry)) (c : CommitInfo) (σ : ScanState)
    (hcons : Consistent U) (hcU : (c.treeOid, c.tree) ∈ U)
    (hsub : ∀ x ∈ subTreesL c.tree, x ∈ U) (hnames : namesOkL c.tree = true)
    (hAG : AllGood U σ) (hPB : PBInv σ) :
    (scanCommit pack head σ c).metadata =
      σ.metadata ++ (refScanCommit pack c σ.seenBlobs).1 ∧
    (scanCommit pack head σ c).seenBlobs = (refScanCommit pack c σ.seenBlobs).2 ∧
    AllGood U (scanCommit pack head σ c) ∧
    PBInv (scanCommit pack head σ c) ∧
    ∃ Δb, (scanCommit pack head σ c).blobs = σ.blobs ++ Δb ∧
      (∀ q, cumSum Δb q = sizeSum (refScanCommit pack c σ.seenBlobs).1 q) ∧
      (∀ r ∈ Δb, r.oid ∈ (scanCommit pack head σ c).seenBlobs) ∧
      (∀ m ∈ (refScanCommit pack c σ.seenBlobs).1, ∃ r ∈ Δb, r.oid = m.oid) := by
  by_cases hseen : (c.treeOid, ([] : BPath)) ∈ σ.seenTrees
  · have hτ : scanCommit pack head σ c = σ := by
      simp [scanCommit, scanTree, hseen]
    have hblobs : ∀ b ∈ eblobsL c.tree, b ∈ σ.seenBlobs :=
      hAG (c.treeOid, ([] : BPath)) hseen c.tree hcU
    have hR : refScanCommit pack c σ.seenBlobs = ([], σ.seenBlobs) :=
      refScanL_stable pack c c.tree [] σ.seenBlobs hblobs
    rw [hτ, hR]
    exact ⟨by simp, rfl, hAG, hPB, [], by simp,
      fun q => by simp [cumSum_nil, sizeSum_nil],
      fun r hr => absurd hr (List.not_mem_nil r),
      fun m hm => absurd hm (List.not_mem_nil m)⟩
  · have hτ : scanCommit pack head σ c =
        scanEntries pack head c c.tree []
          { σ with seenTrees := (c.treeOid, ([] : BPath)) :: σ.seenTrees } := by
      simp [scanCommit, scanTree, hseen]
    have hGL' : GoodLong U
        { σ with seenTrees := (c.treeOid, ([] : BPath)) :: σ.seenTrees }
        (([] : BPath).length + 1) := by
      intro pr hpr hlen
      rcases List.mem_cons.mp hpr with h | h
      · exfalso
        rw [h] at hlen
        have hred : (((c.treeOid, ([] : BPath))).2).length = 0 := rfl
        rw [hred] at hlen
        omega
      · exact hAG pr h
    have hPB' : PBInv { σ with seenTrees := (c.treeOid, ([] : BPath)) :: σ.seenTrees } := hPB
    have hL := scanEntries_spec pack head c U c.tree []
      { σ with seenTrees := (c.treeOid, ([] : BPath)) :: σ.seenTrees }
      hcons hsub hnames hGL' hPB'
    obtain ⟨hm, hs, hg, hc2, hp2, Δ, hb, hsum, ho, hx⟩ := hL
    rw [hτ]
    refine ⟨hm, hs, ?_, hp2, Δ, hb, hsum, ho, hx⟩
    intro pr hpr
    rcases hc2 pr hpr with h | h
    · rcases List.mem_cons.mp h with h' | h'
      · subst h'
        intro es hes bb hbb
        have hes2 : es = c.tree :=
          hcons ((c.treeOid, ([] : BPath)).1, es) hes (c.treeOid, c.tree) hcU rfl
        rw [hes2] at hbb
        rw [hs]
        exact ((refScanL_spec pack c c.tree [] σ.seenBlobs).1 bb).mpr (Or.inr hbb)
      · refine goodOid_mono ?_ (hAG pr h')
        intro x hx2
        rw [hs]
        exact ((refScanL_spec pack c c.tree [] σ.seenBlobs).1 x).mpr (Or.inl hx2)
    · exact h.2

/-- Commit-list-level correspondence. -/
theorem scanCommits_spec (pack : Oid → Int) (head : HeadSnapshot)
    (U : List (Oid × List GEntry)) :
    ∀ (L : List CommitInfo) (σ : ScanState),
      Consistent U → commitHypsOk U L → AllGood U σ → PBInv σ →
      (scanCommits pack head L σ).metadata =
        σ.metadata ++ (refScanCommits pack L σ.seenBlobs).1 ∧
      (scanCommits pack head L σ).seenBlobs = (refScanCommits pack L σ.seenBlobs).2 ∧
      AllGood U (scanCommits pack head L σ) ∧
      PBInv (scanCommits pack head L σ) ∧
      ∃ Δb, (scanCommits pack head L σ).blobs = σ.blobs ++ Δb ∧
        (∀ q, cumSum Δb q = sizeSum (refScanCommits pack L σ.seenBlobs).1 q) ∧
        (∀ r ∈ Δb, r.oid ∈ (scanCommits pack head L σ).seenBlobs) ∧
        (∀ m ∈ (refScanCommits pack L σ.seenBlobs).1, ∃ r ∈ Δb, r.oid = m.oid) := by
  intro L
  induction L with
  | nil =>
      intro σ _ _ hAG hPB
      exact ⟨by simp [scanCommits, refScanCommits], rfl, hAG, hPB, [], by simp [scanCommits],
        fun q => by simp [refScanCommits, cumSum_nil, sizeSum_nil],
        fun r hr => absurd hr (List.not_mem_nil r),
        fun m hm => absurd hm (List.not_mem_nil m)⟩
  | cons c rest ih =>
      intro σ hcons hhyps hAG hPB
      have hc := hhyps c (by simp)
      have h1 := scanCommit_spec pack head U c σ hcons hc.1 hc.2.1 hc.2.2 hAG hPB
      obtain ⟨hm1, hs1, hAG1, hPB1, Δ1, hb1, hsum1, ho1, hx1⟩ := h1
      have h2 := ih (scanCommit pack head σ c) hcons
        (fun x hx => hhyps x (by simp [hx])) hAG1 hPB1
      obtain ⟨hm2, hs2, hAG2, hPB2, Δ2, hb2, hsum2, ho2, hx2⟩ := h2
      have hτ : scanCommits pack head (c :: rest) σ =
          scanCommits pack head rest (scanCommit pack head σ c) := rfl
      have hR : refScanCommits pack (c :: rest) σ.seenBlobs =
          ((refScanCommit pack c σ.seenBlobs).1 ++
            (refScanCommits pack rest (scanCommit pack head σ c).seenBlobs).1,
           (refScanCommits pack rest (scanCommit pack head σ c).seenBlobs).2) := by
        rw [hs1]
        exact rfl
      have hmono2 : ∀ x ∈ (scanCommit pack head σ c).seenBlobs,
          x ∈ (scanCommits pack head rest (scanCommit pack head σ c)).seenBlobs := by
        intro x hx
        rw [hs2]
        exact (refScanCommits_mem pack rest (scanCommit pack head σ c).seenBlobs x).mpr
          (Or.inl hx)
      rw [hτ, hR]
      refine ⟨?_, hs2, hAG2, hPB2, Δ1 ++ Δ2, ?_, ?_, ?_, ?_⟩
      · show (scanCommits pack head rest (scanCommit pack head σ c)).metadata =
          σ.metadata ++ ((refScanCommit pack c σ.seenBlobs).1 ++
            (refScanCommits pack rest (scanCommit pack head σ c).seenBlobs).1)
        rw [hm2, hm1, List.append_assoc]
      · show (scanCommits pack head rest (scanCommit pack head σ c)).blobs =
          σ.blobs ++ (Δ1 ++ Δ2)
        rw [hb2, hb1, List.append_assoc]
      · intro q
        show cumSum (Δ1 ++ Δ2) q =
          sizeSum ((refScanCommit pack c σ.seenBlobs).1 ++
            (refScanCommits pack rest (scanCommit pack head σ c).seenBlobs).1) q
        rw [cumSum_append, sizeSum_append, hsum1, hsum2]
      · intro r hr
        rcases List.mem_append.mp hr with h | h
        · exact hmono2 r.oid (ho1 r h)
        · exact ho2 r h
      · intro m hm
        have hm' : m ∈ (refScanCommit pack c σ.seenBlobs).1 ++
            (refScanCommits pack rest (scanCommit pack head σ c).seenBlobs).1 := hm
        rcases List.mem_append.mp hm' with h | h
        · obtain ⟨r, hr, hre⟩ := hx1 m h
          exact ⟨r, List.mem_append.mpr (Or.inl hr), hre⟩
        · obtain ⟨r, hr, hre⟩ := hx2 m h
          exact ⟨r, List.mem_append.mpr (Or.inr hr), hre⟩

/-! ### Store lemmas: cumulative totals in the `paths` table, membership in
the id tables, first-wins lookup in the `blobs` table. -/

/-- Total `cumulative_size` stored at one path. -/
def cumOf (tbl : List (BPath × Int × Int × Int)) (q : BPath) : Int :=
  ((tbl.filter (fun r => r.1 = q)).map (fun r => r.2.1)).sum

theorem cumOf_nil (q : BPath) : cumOf [] q = 0 := rfl

theorem cumOf_cons (r : BPath × Int × Int × Int) (t : List (BPath × Int × Int × Int))
    (q : BPath) :
    cumOf (r :: t) q = (if r.1 = q then r.2.1 else 0) + cumOf t q := by
  by_cases h : r.1 = q <;> simp [cumOf, h]

theorem cumOf_append (a b : List (BPath × Int × Int × Int)) (q : BPath) :
    cumOf (a ++ b) q = cumOf a q + cumOf b q := by
  simp [cumOf, List.filter_append]

theorem cumSum_cons (r : BlobRow) (rows : List BlobRow) (q : BPath) :
    cumSum (r :: rows) q = (if r.path = q then r.cumulative_size else 0) + cumSum rows q := by
  by_cases h : r.path = q <;> simp [cumSum, h]

theorem cumOf_mapUpd (p q : BPath) (c s : Int) :
    ∀ tbl : List (BPath × Int × Int × Int), (tbl.map (fun r => r.1)).Nodup →
      cumOf (tbl.map (fun r =>
        if r.1 = p then (r.1, r.2.1 + c, r.2.2.1 + s, r.2.2.2 + 1) else r)) q =
      cumOf tbl q +
        (if p = q ∧ p ∈ tbl.map (fun r => r.1) then c else 0) := by
  intro tbl
  induction tbl with
  | nil => intro _; simp [cumOf]
  | cons r t ih =>
      intro hnd
      have hnd' : (t.map (fun r => r.1)).Nodup := (List.nodup_cons.mp hnd).2
      have hout : r.1 ∉ t.map (fun r => r.1) := (List.nodup_cons.mp hnd).1
      rw [List.map_cons, cumOf_cons, cumOf_cons, ih hnd']
      by_cases hr : r.1 = p
      · have hnotin : p ∉ t.map (fun x => x.1) := by
          rw [← hr]
          exact hout
        have h1 : (if r.1 = p then (r.1, r.2.1 + c, r.2.2.1 + s, r.2.2.2 + 1) else r) =
            (r.1, r.2.1 + c, r.2.2.1 + s, r.2.2.2 + 1) := if_pos hr
        rw [h1]
        by_cases hpq : p = q
        · subst hpq
          simp only [hr, hnotin, List.map_cons, List.mem_cons, false_or, true_and,
            if_true, and_false, if_false]
          simp [hr]
          ring
        · simp only [hr, hpq, false_and, if_false]
          simp [hr, hpq]
      · have h1 : (if r.1 = p then (r.1, r.2.1 + c, r.2.2.1 + s, r.2.2.2 + 1) else r) = r :=
          if_neg hr
        rw [h1]
        have hpr : ¬ p = r.1 := fun h => hr h.symm
        have hiff : (p = q ∧ p ∈ (r :: t).map (fun x => x.1)) ↔
            (p = q ∧ p ∈ t.map (fun x => x.1)) := by
          simp [List.map_cons, hpr]
        rw [if_congr hiff rfl rfl]
        ring

theorem find_isSome_iff_mem (p : BPath) (tbl : List (BPath × Int × Int × Int)) :
    (tbl.find? (fun r => r.1 = p)).isSome = true ↔ p ∈ tbl.map (fun r => r.1) := by
  rw [List.find?_isSome]
  constructor
  · rintro ⟨r, hr, hre⟩
    have : r.1 = p := by simpa using hre
    rw [← this]
    exact List.mem_map_of_mem _ hr
  · intro hmem
    obtain ⟨r, hr, hre⟩ := List.mem_map.mp hmem
    exact ⟨r, hr, by simpa using hre⟩

theorem cumOf_upsert (p : BPath) (c s : Int) (q : BPath)
    (tbl : List (BPath × Int × Int × Int)) (hnd : (tbl.map (fun r => r.1)).Nodup) :
    cumOf (upsertPathsRow tbl p c s) q = cumOf tbl q + (if p = q then c else 0) := by
  by_cases hf : (tbl.find? (fun r => r.1 = p)).isSome
  · have hmem : p ∈ tbl.map (fun r => r.1) := (find_isSome_iff_mem p tbl).mp hf
    rw [upsertPathsRow, if_pos hf, cumOf_mapUpd p q c s tbl hnd]
    by_cases hpq : p = q
    · rw [if_pos ⟨hpq, hmem⟩, if_pos hpq]
    · rw [if_neg (fun hand => hpq hand.1), if_neg hpq]
  · rw [upsertPathsRow, if_neg hf, cumOf_append]
    rw [cumOf_cons, cumOf_nil]
    ring

theorem upsert_keys_nodup (p : BPath) (c s : Int)
    (tbl : List (BPath × Int × Int × Int)) (hnd : (tbl.map (fun r => r.1)).Nodup) :
    ((upsertPathsRow tbl p c s).map (fun r => r.1)).Nodup := by
  by_cases hf : (tbl.find? (fun r => r.1 = p)).isSome
  · rw [upsertPathsRow, if_pos hf, List.map_map]
    have hmapeq : (tbl.map ((fun r => r.1) ∘ fun r =>
        if r.1 = p then (r.1, r.2.1 + c, r.2.2.1 + s, r.2.2.2 + 1) else r)) =
        tbl.map (fun r => r.1) := by
      apply List.map_congr_left
      intro r _
      by_cases h : r.1 = p <;> simp [h]
    rw [hmapeq]
    exact hnd
  · rw [upsertPathsRow, if_neg hf, List.map_append]
    rw [List.nodup_append]
    refine ⟨hnd, by simp, ?_⟩
    intro x hx hx2
    have hxp : x = p := by simpa using hx2
    subst hxp
    have hmem : (tbl.find? (fun r => r.1 = x)).isSome = true :=
      (find_isSome_iff_mem x tbl).mpr hx
    exact hf hmem

theorem savePaths_keys_nodup :
    ∀ (rows : List BlobRow) (tbl : List (BPath × Int × Int × Int)),
      (tbl.map (fun r => r.1)).Nodup →
      ((savePathsRows tbl rows).map (fun r => r.1)).Nodup := by
  intro rows
  induction rows with
  | nil => intro tbl h; exact h
  | cons r rs ih =>
      intro tbl h
      exact ih _ (upsert_keys_nodup r.path r.cumulative_size r.current_size tbl h)

/-- The paths upsert adds each batch's per-path cumulative total on top of
the stored one. -/
theorem cumOf_savePaths :
    ∀ (rows : List BlobRow) (tbl : List (BPath × Int × Int × Int)),
      (tbl.map (fun r => r.1)).Nodup → ∀ q,
      cumOf (savePathsRows tbl rows) q = cumOf tbl q + cumSum rows q := by
  intro rows
  induction rows with
  | nil =>
      intro tbl _ q
      show cumOf tbl q = cumOf tbl q + cumSum [] q
      rw [cumSum_nil]
      ring
  | cons r rs ih =>
      intro tbl hnd q
      have step : savePathsRows tbl (r :: rs) =
          savePathsRows (upsertPathsRow tbl r.path r.cumulative_size r.current_size) rs := rfl
      rw [step, ih _ (upsert_keys_nodup _ _ _ tbl hnd) q,
        cumOf_upsert _ _ _ q tbl hnd, cumSum_cons]
      ring

theorem insertIgnoreOid_mem (tbl : List Oid) (o x : Oid) :
    x ∈ insertIgnoreOid tbl o ↔ (x ∈ tbl ∨ x = o) := by
  by_cases h : o ∈ tbl
  · simp only [insertIgnoreOid, if_pos h]
    constructor
    · exact fun hx => Or.inl hx
    · rintro (hx | rfl)
      · exact hx
      · exact h
  · simp [insertIgnoreOid, if_neg h]

theorem saveSeenBlobs_mem :
    ∀ (rows : List BlobRow) (tbl : List Oid) (x : Oid),
      x ∈ saveSeenBlobs tbl rows ↔ (x ∈ tbl ∨ ∃ r ∈ rows, r.oid = x) := by
  intro rows
  induction rows with
  | nil => intro tbl x; simp [saveSeenBlobs]
  | cons r rs ih =>
      intro tbl x
      have step : saveSeenBlobs tbl (r :: rs) = saveSeenBlobs (insertIgnoreOid tbl r.oid) rs := rfl
      rw [step, ih, insertIgnoreOid_mem]
      constructor
      · rintro ((hx | rfl) | ⟨r', hr', hre⟩)
        · exact Or.inl hx
        · exact Or.inr ⟨r, by simp, rfl⟩
        · exact Or.inr ⟨r', by simp [hr'], hre⟩
      · rintro (hx | ⟨r', hr', hre⟩)
        · exact Or.inl (Or.inl hx)
        · rcases List.mem_cons.mp hr' with h | h
          · subst h
            exact Or.inl (Or.inr hre.symm)
          · exact Or.inr ⟨r', h, hre⟩

theorem saveScanned_mem :
    ∀ (commits : List CommitInfo) (tbl : List Oid) (x : Oid),
      x ∈ saveScanned tbl commits ↔ (x ∈ tbl ∨ ∃ c ∈ commits, c.oid = x) := by
  intro commits
  induction commits with
  | nil => intro tbl x; simp [saveScanned]
  | cons c cs ih =>
      intro tbl x
      have step : saveScanned tbl (c :: cs) = saveScanned (insertIgnoreOid tbl c.oid) cs := rfl
      rw [step, ih, insertIgnoreOid_mem]
      constructor
      · rintro ((hx | rfl) | ⟨c', hc', hce⟩)
        · exact Or.inl hx
        · exact Or.inr ⟨c, by simp, rfl⟩
        · exact Or.inr ⟨c', by simp [hc'], hce⟩
      · rintro (hx | ⟨c', hc', hce⟩)
        · exact Or.inl (Or.inl hx)
        · rcases List.mem_cons.mp hc' with h | h
          · subst h
            exact Or.inl (Or.inr hce.symm)
          · exact Or.inr ⟨c', h, hce⟩

/-- `INSERT OR IGNORE INTO blobs` never changes an existing row. -/
theorem saveMetaRows_preserve (b : Oid) (row : Oid × Int × BPath × List Char × Int) :
    ∀ (ms : List BlobMetaRow) (tbl : List (Oid × Int × BPath × List Char × Int)),
      tbl.find? (fun e => e.1 = b) = some row →
      (saveMetaRows tbl ms).find? (fun e => e.1 = b) = some row := by
  intro ms
  induction ms with
  | nil => intro tbl h; exact h
  | cons m rest ih =>
      intro tbl h
      have step : saveMetaRows tbl (m :: rest) =
          saveMetaRows
            (if (tbl.find? (fun e => e.1 = m.oid)).isSome then tbl
             else tbl ++ [(m.oid, m.size, m.path, m.author, m.timestamp)]) rest := rfl
      rw [step]
      apply ih
      by_cases hf : (tbl.find? (fun e => e.1 = m.oid)).isSome
      · rw [if_pos hf]
        exact h
      · rw [if_neg hf, List.find?_append, h]
        rfl

/-- On a key absent from the table, the ignore-on-conflict insert stores the
first batch row carrying that key. -/
theorem saveMetaRows_fresh (b : Oid) :
    ∀ (ms : List BlobMetaRow) (tbl : List (Oid × Int × BPath × List Char × Int)),
      tbl.find? (fun e => e.1 = b) = none →
      (saveMetaRows tbl ms).find? (fun e => e.1 = b) =
        (ms.find? (fun m => m.oid = b)).map
          (fun m => (m.oid, m.size, m.path, m.author, m.timestamp)) := by
  intro ms
  induction ms with
  | nil => intro tbl h; simpa using h
  | cons m rest ih =>
      intro tbl h
      have step : saveMetaRows tbl (m :: rest) =
          saveMetaRows
            (if (tbl.find? (fun e => e.1 = m.oid)).isSome then tbl
             else tbl ++ [(m.oid, m.size, m.path, m.author, m.timestamp)]) rest := rfl
      rw [step]
      by_cases hmb : m.oid = b
      · have hf : ¬ (tbl.find? (fun e => e.1 = m.oid)).isSome := by
          rw [hmb, h]
          simp
        rw [if_neg hf]
        have hfound : (tbl ++ [(m.oid, m.size, m.path, m.author, m.timestamp)]).find?
            (fun e => e.1 = b) = some (m.oid, m.size, m.path, m.author, m.timestamp) := by
          rw [List.find?_append, h]
          simp [hmb]
        rw [saveMetaRows_preserve b _ rest _ hfound]
        rw [List.find?_cons_of_pos _ (by simpa using hmb)]
        rfl
      · have hstep2 : ∀ tbl2 : List (Oid × Int × BPath × List Char × Int),
            tbl2 = (if (tbl.find? (fun e => e.1 = m.oid)).isSome then tbl
              else tbl ++ [(m.oid, m.size, m.path, m.author, m.timestamp)]) →
            tbl2.find? (fun e => e.1 = b) = none := by
          intro tbl2 ht
          by_cases hf : (tbl.find? (fun e => e.1 = m.oid)).isSome
          · rw [ht, if_pos hf]
            exact h
          · rw [ht, if_neg hf, List.find?_append, h]
            simp [hmb]
        rw [ih _ (hstep2 _ rfl)]
        rw [List.find?_cons_of_neg _ (by simpa using hmb)]

/-- The short-circuit in phase 6 is harmless: `runScan` always equals the
applied delta of the planned commits. -/
theorem runScan_eq (pack : Oid → Int) (head : HeadSnapshot) (db : ScanDb)
    (L : List CommitInfo) :
    runScan pack head db L =
      applyScanDb db
        (scanCommits pack head (L.filter (fun c => !(db.scanned_commits.contains c.oid)))
          ⟨[], db.seen_blobs, [], [], []⟩).blobs
        (scanCommits pack head (L.filter (fun c => !(db.scanned_commits.contains c.oid)))
          ⟨[], db.seen_blobs, [], [], []⟩).metadata
        (L.filter (fun c => !(db.scanned_commits.contains c.oid))) := by
  by_cases h : (L.filter (fun c => !(db.scanned_commits.contains c.oid))).isEmpty
  · have hnil : L.filter (fun c => !(db.scanned_commits.contains c.oid)) = [] :=
      List.isEmpty_iff.mp h
    rw [runScan]
    rw [if_pos h, hnil]
    rfl
  · rw [runScan, if_neg h]

theorem commitTrees_cons (c : CommitInfo) (L : List CommitInfo) :
    commitTrees (c :: L) = (c.treeOid, c.tree) :: (subTreesL c.tree ++ commitTrees L) := rfl

theorem commitTrees_mem :
    ∀ (L : List CommitInfo) (c : CommitInfo), c ∈ L →
      (c.treeOid, c.tree) ∈ commitTrees L ∧ ∀ x ∈ subTreesL c.tree, x ∈ commitTrees L := by
  intro L
  induction L with
  | nil => intro c hc; cases hc
  | cons d ds ih =>
      intro c hc
      rw [commitTrees_cons]
      rcases List.mem_cons.mp hc with h | h
      · subst h
        exact ⟨by simp, fun x hx => by simp [hx]⟩
      · have := ih c h
        exact ⟨by simp [this.1], fun x hx => by simp [this.2 x hx]⟩

theorem commitHypsOk_of (L M : List CommitInfo) (hsub : ∀ c ∈ M, c ∈ L)
    (hnames : ∀ c ∈ M, namesOkL c.tree = true) :
    commitHypsOk (commitTrees L) M := by
  intro c hc
  have h := commitTrees_mem L c (hsub c hc)
  exact ⟨h.1, h.2, hnames c hc⟩

/-- Every reference-scan metadata row carries the author/timestamp of the
first commit (in scan order) referencing its oid, and that oid is outside
the seed. -/
theorem refScanCommits_first (pack : Oid → Int) :
    ∀ (L : List CommitInfo) (S : List Oid) (m : BlobMetaRow),
      m ∈ (refScanCommits pack L S).1 →
      ∃ i, ∃ hi : i < L.length,
        m.author = (L.get ⟨i, hi⟩).author ∧
        m.timestamp = (L.get ⟨i, hi⟩).timestamp ∧
        m.size = pack m.oid ∧
        m.oid ∈ eblobsL (L.get ⟨i, hi⟩).tree ∧
        m.oid ∉ S ∧
        (∀ j, ∀ hj : j < i, m.oid ∉ eblobsL (L.get ⟨j, Nat.lt_trans hj hi⟩).tree) := by
  intro L
  induction L with
  | nil =>
      intro S m hm
      have : (refScanCommits pack [] S).1 = [] := rfl
      rw [this] at hm
      cases hm
  | cons c rest ih =>
      intro S m hm
      have key : (refScanCommits pack (c :: rest) S).1 =
          (refScanCommit pack c S).1 ++
          (refScanCommits pack rest (refScanCommit pack c S).2).1 := rfl
      rw [key] at hm
      rcases List.mem_append.mp hm with h | h
      · have hfields := (refScanL_spec pack c c.tree [] S).2.2 m h
        have hoid : m.oid ∈ eblobsL c.tree ∧ m.oid ∉ S :=
          ((refScanL_spec pack c c.tree [] S).2.1 m.oid).mp (List.mem_map_of_mem _ h)
        refine ⟨0, by simp, hfields.1, hfields.2.1, hfields.2.2, hoid.1, hoid.2, ?_⟩
        intro j hj
        exact absurd hj (Nat.not_lt_zero j)
      · obtain ⟨i, hi, ha, ht2, hsz, hbl, hnotS1, hmin⟩ :=
          ih (refScanCommit pack c S).2 m h
        have hS1 := (refScanL_spec pack c c.tree [] S).1 m.oid
        have hnotS : m.oid ∉ S := fun hx => hnotS1 (hS1.mpr (Or.inl hx))
        have hnotc : m.oid ∉ eblobsL c.tree := fun hx => hnotS1 (hS1.mpr (Or.inr hx))
        refine ⟨i + 1, Nat.succ_lt_succ hi, ha, ht2, hsz, hbl, hnotS, ?_⟩
        intro j hj
        cases j with
        | zero => exact hnotc
        | succ j' => exact hmin j' (Nat.lt_of_succ_lt_succ hj)

theorem filter_scanned_nil (L : List CommitInfo) :
    L.filter (fun c => !(([] : List Oid).contains c.oid)) = L := by
  induction L with
  | nil => rfl
  | cons c cs ih => simp [List.filter_cons, ih, List.contains]

theorem contains_iff_mem (tbl : List Oid) (x : Oid) :
    tbl.contains x = true ↔ x ∈ tbl := List.elem_iff

/-- One scan run from a fresh per-run state with a seeded seen-blob list. -/
theorem scan_from_clean (pack : Oid → Int) (head : HeadSnapshot)
    (U : List (Oid × List GEntry)) (L : List CommitInfo) (seed : List Oid)
    (hcons : Consistent U) (hhyps : commitHypsOk U L) :
    (scanCommits pack head L ⟨[], seed, [], [], []⟩).metadata =
      (refScanCommits pack L seed).1 ∧
    (scanCommits pack head L ⟨[], seed, [], [], []⟩).seenBlobs =
      (refScanCommits pack L seed).2 ∧
    ∃ Δb, (scanCommits pack head L ⟨[], seed, [], [], []⟩).blobs = Δb ∧
      (∀ q, cumSum Δb q = sizeSum (refScanCommits pack L seed).1 q) ∧
      (∀ r ∈ Δb, r.oid ∈ (refScanCommits pack L seed).2) ∧
      (∀ m ∈ (refScanCommits pack L seed).1, ∃ r ∈ Δb, r.oid = m.oid) := by
  have h := scanCommits_spec pack head U L ⟨[], seed, [], [], []⟩ hcons hhyps
    (fun pr hpr => absurd hpr (List.not_mem_nil pr))
    (fun q b hqb => absurd hqb (List.not_mem_nil (q, b)))
  obtain ⟨hm, hs, _, _, Δ, hb, hsum, ho, hx⟩ := h
  refine ⟨by simpa using hm, hs, Δ, by simpa using hb, hsum, fun r hr => ?_, hx⟩
  rw [← hs]
  exact ho r hr

/-- C1 (amended): per-path cumulative totals in `paths` are additive across
a split of history into two consecutive scans. The split run scans `L1`,
persists, then receives the full commit list again and scans what
`scanned_commits` has not marked; the reference run scans everything at
once. The cumulative_size totals agree at every path (full row equality
fails; see the counterexample). -/
theorem additivity_cumulative (pack : Oid → Int) (head : HeadSnapshot)
    (L1 L2 : List CommitInfo)
    (hcons : Consistent (commitTrees (L1 ++ L2)))
    (hnames : ∀ c ∈ L1 ++ L2, namesOkL c.tree = true)
    (hnodup : ((L1 ++ L2).map (fun c => c.oid)).Nodup) :
    ∀ q, cumOf (runScan pack head (runScan pack head emptyDb L1) (L1 ++ L2)).paths q =
      cumOf (runScan pack head emptyDb (L1 ++ L2)).paths q := by
  intro q
  have hhypAll : commitHypsOk (commitTrees (L1 ++ L2)) (L1 ++ L2) :=
    commitHypsOk_of _ _ (fun c hc => hc) hnames
  have hhyp1 : commitHypsOk (commitTrees (L1 ++ L2)) L1 :=
    commitHypsOk_of _ _ (fun c hc => List.mem_append.mpr (Or.inl hc))
      (fun c hc => hnames c (List.mem_append.mpr (Or.inl hc)))
  have hhyp2 : commitHypsOk (commitTrees (L1 ++ L2)) L2 :=
    commitHypsOk_of _ _ (fun c hc => List.mem_append.mpr (Or.inr hc))
      (fun c hc => hnames c (List.mem_append.mpr (Or.inr hc)))
  -- single full run
  have hsingle := runScan_eq pack head emptyDb (L1 ++ L2)
  have hfilt0 : (L1 ++ L2).filter
      (fun c => !((emptyDb.scanned_commits).contains c.oid)) = L1 ++ L2 :=
    filter_scanned_nil (L1 ++ L2)
  rw [hfilt0] at hsingle
  obtain ⟨hmS, hsS, ΔS, hbS, hsumS, hoS, hxS⟩ :=
    scan_from_clean pack head (commitTrees (L1 ++ L2)) (L1 ++ L2) [] hcons hhypAll
  have hps : (runScan pack head emptyDb (L1 ++ L2)).paths =
      savePathsRows []
        (scanCommits pack head (L1 ++ L2) ⟨[], [], [], [], []⟩).blobs := by
    rw [hsingle]
    exact rfl
  have hcumS : cumOf (runScan pack head emptyDb (L1 ++ L2)).paths q =
      sizeSum (refScanCommits pack (L1 ++ L2) []).1 q := by
    rw [hps, hbS, cumOf_savePaths ΔS [] (by simp) q, cumOf_nil, hsumS q]
    ring
  -- first run
  have hrun1 := runScan_eq pack head emptyDb L1
  have hfilt1 : L1.filter (fun c => !((emptyDb.scanned_commits).contains c.oid)) = L1 :=
    filter_scanned_nil L1
  rw [hfilt1] at hrun1
  obtain ⟨hm1, hs1, Δ1, hb1, hsum1, ho1, hx1⟩ :=
    scan_from_clean pack head (commitTrees (L1 ++ L2)) L1 [] hcons hhyp1
  have hp1 : (runScan pack head emptyDb L1).paths =
      savePathsRows [] (scanCommits pack head L1 ⟨[], [], [], [], []⟩).blobs := by
    rw [hrun1]
    exact rfl
  have hsb1 : (runScan pack head emptyDb L1).seen_blobs =
      saveSeenBlobs [] (scanCommits pack head L1 ⟨[], [], [], [], []⟩).blobs := by
    rw [hrun1]
    exact rfl
  have hsc1 : (runScan pack head emptyDb L1).scanned_commits = saveScanned [] L1 := by
    rw [hrun1]
    exact rfl
  -- the second run scans exactly L2
  have hdisj : (L1.map (fun c => c.oid)).Disjoint (L2.map (fun c => c.oid)) := by
    have := hnodup
    rw [List.map_append, List.nodup_append] at this
    exact this.2.2
  have hfilt2 : (L1 ++ L2).filter
      (fun c => !((runScan pack head emptyDb L1).scanned_commits.contains c.oid)) = L2 := by
    rw [hsc1, List.filter_append]
    have hL1n : L1.filter (fun c => !((saveScanned [] L1).contains c.oid)) = [] := by
      rw [List.filter_eq_nil_iff]
      intro c hc
      have hm : c.oid ∈ saveScanned [] L1 :=
        (saveScanned_mem L1 [] c.oid).mpr (Or.inr ⟨c, hc, rfl⟩)
      have : (saveScanned [] L1).contains c.oid = true := (contains_iff_mem _ _).mpr hm
      simp [this]
      exact hm
    have hL2s : L2.filter (fun c => !((saveScanned [] L1).contains c.oid)) = L2 := by
      rw [List.filter_eq_self]
      intro c hc
      have hnm : c.oid ∉ saveScanned [] L1 := by
        intro hmem
        rcases (saveScanned_mem L1 [] c.oid).mp hmem with h | ⟨c1, hc1, hoid⟩
        · exact absurd h (List.not_mem_nil c.oid)
        · refine hdisj ?_ (List.mem_map_of_mem (fun c => c.oid) hc)
          rw [← hoid]
          exact List.mem_map_of_mem (fun c => c.oid) hc1
      have : (saveScanned [] L1).contains c.oid = false := by
        rw [← Bool.not_eq_true]
        intro h
        exact hnm ((contains_iff_mem _ _).mp h)
      simp [this]
      exact hnm
    rw [hL1n, hL2s, List.nil_append]
  have hrun2 := runScan_eq pack head (runScan pack head emptyDb L1) (L1 ++ L2)
  rw [hfilt2] at hrun2
  obtain ⟨hm2, hs2, Δ2, hb2, hsum2, ho2, hx2⟩ :=
    scan_from_clean pack head (commitTrees (L1 ++ L2)) L2
      ((runScan pack head emptyDb L1).seen_blobs) hcons hhyp2
  have hpD : (runScan pack head (runScan pack head emptyDb L1) (L1 ++ L2)).paths =
      savePathsRows (runScan pack head emptyDb L1).paths
        (scanCommits pack head L2
          ⟨[], (runScan pack head emptyDb L1).seen_blobs, [], [], []⟩).blobs := by
    rw [hrun2]
    exact rfl
  have hnd1 : ((runScan pack head emptyDb L1).paths.map (fun r => r.1)).Nodup := by
    rw [hp1]
    exact savePaths_keys_nodup _ [] (by simp)
  have hcum1 : cumOf (runScan pack head emptyDb L1).paths q =
      sizeSum (refScanCommits pack L1 []).1 q := by
    rw [hp1, hb1, cumOf_savePaths Δ1 [] (by simp) q, cumOf_nil, hsum1 q]
    ring
  have hcumD : cumOf (runScan pack head (runScan pack head emptyDb L1) (L1 ++ L2)).paths q =
      sizeSum (refScanCommits pack L1 []).1 q +
      sizeSum (refScanCommits pack L2 ((runScan pack head emptyDb L1).seen_blobs)).1 q := by
    rw [hpD, hb2, cumOf_savePaths Δ2 _ hnd1 q, hcum1, hsum2 q]
  -- the persisted seen-blob table is the reference run's final seen set
  have hseed : ∀ x, x ∈ (runScan pack head emptyDb L1).seen_blobs ↔
      x ∈ (refScanCommits pack L1 []).2 := by
    intro x
    rw [hsb1, hb1, saveSeenBlobs_mem Δ1 [] x]
    simp only [List.not_mem_nil, false_or]
    constructor
    · rintro ⟨r, hr, hre⟩
      rw [← hre]
      exact ho1 r hr
    · intro hx
      rcases (refScanCommits_mem pack L1 [] x).mp hx with h | h
      · exact absurd h (List.not_mem_nil x)
      · have hmeta : x ∈ (refScanCommits pack L1 []).1.map (fun m => m.oid) :=
          (refScanCommits_meta_mem pack L1 [] x).mpr ⟨h, List.not_mem_nil x⟩
        obtain ⟨m, hmm, hmo⟩ := List.mem_map.mp hmeta
        obtain ⟨r, hr, hro⟩ := hx1 m hmm
        exact ⟨r, hr, by rw [hro, hmo]⟩
  have hcong : (refScanCommits pack L2 ((runScan pack head emptyDb L1).seen_blobs)).1 =
      (refScanCommits pack L2 (refScanCommits pack L1 []).2).1 :=
    (refScanCommits_congr pack L2 _ _ hseed).1
  have happ1 : (refScanCommits pack (L1 ++ L2) []).1 =
      (refScanCommits pack L1 []).1 ++
      (refScanCommits pack L2 (refScanCommits pack L1 []).2).1 := by
    rw [refScanCommits_append pack L1 L2 []]
  rw [hcumD, hcumS, hcong, happ1, sizeSum_append]

/-! Concrete two-commit repository: commit 101 introduces blob 10 at "a";
commit 102 keeps blob 10 at "a" and adds blob 11 at "x". HEAD holds both. -/

def exC1 : CommitInfo := ⟨101, 1, [GEntry.blobE ['a'] 10], ['u'], 1⟩

def exC2 : CommitInfo :=
  ⟨102, 2, [GEntry.blobE ['a'] 10, GEntry.blobE ['x'] 11], ['u'], 2⟩

def exPack : Oid → Int := fun o => if o = 10 then 5 else 7

def exHead : HeadSnapshot := ⟨[(['a'], 10, 5), (['x'], 11, 7)]⟩

/-- C1 counterexample: splitting the same history into two scans does not
reproduce the single-scan `paths` table. The split run re-emits a
`(0, current_size)` row for blob 10 at "a" (its `(path, oid)` pair is only
deduplicated per run), so `current_size` and `blob_count` at "a" are
doubled: the split table holds `("a", 5, 10, 2)` where the single-scan
table holds `("a", 5, 5, 1)`. -/
theorem additivity_counterexample :
    (runScan exPack exHead (runScan exPack exHead emptyDb [exC1])
      ([exC1] ++ [exC2])).paths ≠
    (runScan exPack exHead emptyDb ([exC1] ++ [exC2])).paths := by
  decide

/-- Witness for the amended C1 at the concrete two-commit repository. -/
theorem additivity_cumulative_witness :
    ((commitTrees ([exC1] ++ [exC2])).map (fun pr => pr.1)).Nodup ∧
    (∀ c ∈ [exC1] ++ [exC2], namesOkL c.tree = true) ∧
    (([exC1] ++ [exC2]).map (fun c => c.oid)).Nodup ∧
    (∀ q, cumOf (runScan exPack exHead (runScan exPack exHead emptyDb [exC1])
        ([exC1] ++ [exC2])).paths q =
      cumOf (runScan exPack exHead emptyDb ([exC1] ++ [exC2])).paths q) :=
  ⟨by decide, by decide, by decide,
   additivity_cumulative exPack exHead [exC1] [exC2]
     (consistent_of_nodup_keys (by decide)) (by decide) (by decide)⟩

/-- C5: commits are processed oldest-first (the reversed revwalk order);
for every blob oid stored in the `blobs` table by a scan over a fresh
store, the stored `(first_author, first_date)` are the author and timestamp
of the earliest commit, in scan order, whose tree references that oid; and
a later `apply_scan` never changes an existing `blobs` row (ignore-on-
conflict), so the metadata row is written at most once per oid across
scans. -/
theorem first_author_stability (pack : Oid → Int) (head : HeadSnapshot)
    (walk : List CommitInfo)
    (hcons : Consistent (commitTrees (collectCommits walk)))
    (hnames : ∀ c ∈ collectCommits walk, namesOkL c.tree = true) :
    collectCommits walk = walk.reverse ∧
    (∀ b row,
      (runScan pack head emptyDb (collectCommits walk)).blobs.find?
        (fun e => e.1 = b) = some row →
      row.1 = b ∧
      ∃ i, ∃ hi : i < (collectCommits walk).length,
        row.2.2.2.1 = ((collectCommits walk).get ⟨i, hi⟩).author ∧
        row.2.2.2.2 = ((collectCommits walk).get ⟨i, hi⟩).timestamp ∧
        b ∈ eblobsL ((collectCommits walk).get ⟨i, hi⟩).tree ∧
        (∀ j, ∀ hj : j < i,
          b ∉ eblobsL ((collectCommits walk).get ⟨j, Nat.lt_trans hj hi⟩).tree)) ∧
    (∀ (db : ScanDb) (L : List CommitInfo) (b : Oid) row,
      db.blobs.find? (fun e => e.1 = b) = some row →
      (runScan pack head db L).blobs.find? (fun e => e.1 = b) = some row) := by
  refine ⟨rfl, ?_, ?_⟩
  · have hrun := runScan_eq pack head emptyDb (collectCommits walk)
    have hfilt : (collectCommits walk).filter
        (fun c => !((emptyDb.scanned_commits).contains c.oid)) = collectCommits walk :=
      filter_scanned_nil (collectCommits walk)
    rw [hfilt] at hrun
    obtain ⟨hm, hs, Δ, hb, hsum, ho, hx⟩ :=
      scan_from_clean pack head (commitTrees (collectCommits walk))
        (collectCommits walk) [] hcons
        (commitHypsOk_of _ _ (fun c hc => hc) hnames)
    have hbt : (runScan pack head emptyDb (collectCommits walk)).blobs =
        saveMetaRows [] (refScanCommits pack (collectCommits walk) []).1 := by
      rw [hrun]
      show saveMetaRows []
          (scanCommits pack head (collectCommits walk) ⟨[], [], [], [], []⟩).metadata = _
      rw [hm]
    intro b row hfind
    rw [hbt, saveMetaRows_fresh b _ [] rfl] at hfind
    obtain ⟨m, hfm, hrow⟩ := Option.map_eq_some'.mp hfind
    have hmmem : m ∈ (refScanCommits pack (collectCommits walk) []).1 :=
      List.mem_of_find?_eq_some hfm
    have hmoid : m.oid = b := by simpa using List.find?_some hfm
    obtain ⟨i, hi, ha, ht2, _, hbl, _, hmin⟩ :=
      refScanCommits_first pack (collectCommits walk) [] m hmmem
    subst hrow
    rw [hmoid] at hbl hmin
    exact ⟨hmoid, i, hi, ha, ht2, hbl, hmin⟩
  · intro db L b row hfind
    rw [runScan_eq pack head db L]
    exact saveMetaRows_preserve b row _ db.blobs hfind

/-- Witness for C5: two-commit history walked newest-first, so `exC1` is
scanned first; blob 10 is attributed to `exC1` even though `exC2` also
references it. -/
theorem first_author_stability_witness :
    ((commitTrees (collectCommits [exC2, exC1])).map (fun pr => pr.1)).Nodup ∧
    (∀ c ∈ collectCommits [exC2, exC1], namesOkL c.tree = true) ∧
    (collectCommits [exC2, exC1] = [exC2, exC1].reverse ∧
    (∀ b row,
      (runScan exPack exHead emptyDb (collectCommits [exC2, exC1])).blobs.find?
        (fun e => e.1 = b) = some row →
      row.1 = b ∧
      ∃ i, ∃ hi : i < (collectCommits [exC2, exC1]).length,
        row.2.2.2.1 = ((collectCommits [exC2, exC1]).get ⟨i, hi⟩).author ∧
        row.2.2.2.2 = ((collectCommits [exC2, exC1]).get ⟨i, hi⟩).timestamp ∧
        b ∈ eblobsL ((collectCommits [exC2, exC1]).get ⟨i, hi⟩).tree ∧
        (∀ j, ∀ hj : j < i,
          b ∉ eblobsL ((collectCommits [exC2, exC1]).get
            ⟨j, Nat.lt_trans hj hi⟩).tree)) ∧
    (∀ (db : ScanDb) (L : List CommitInfo) (b : Oid) row,
      db.blobs.find? (fun e => e.1 = b) = some row →
      (runScan exPack exHead db L).blobs.find? (fun e => e.1 = b) = some row)) :=
  ⟨by decide, by decide,
   first_author_stability exPack exHead [exC2, exC1]
     (consistent_of_nodup_keys (by decide)) (by decide)⟩

/-! ### `apply_scan` atomicity (`Database::apply_scan_with_callback`,
`DbBackedStore::apply_scan`)

The store extended with the HEAD cursor (`metadata` key `head_oid`), which
`apply_scan` does not touch: the orchestrator only advances it after a
successful apply. A transaction is a statement list executed on an
uncommitted copy of the store; `some n` injects a failure at the n-th
statement (n = length: the final `COMMIT` fails), upon which the
transaction is dropped and SQLite rolls every statement back, leaving the
caller's store untouched. -/

structure FullDb where
  core : ScanDb
  head_oid : Option (List Char)
deriving DecidableEq

/-- The three statement groups of `apply_scan_with_callback`, in source
order: `save_blobs_in_tx` (seen_blobs inserts + paths upserts),
`save_blob_metadata_in_tx`, `mark_commits_scanned_in_tx`. -/
def applyScanStmts (rows : List BlobRow) (ms : List BlobMetaRow)
    (commits : List CommitInfo) : List (FullDb → FullDb) :=
  [fun d => { d with core := { d.core with
      seen_blobs := saveSeenBlobs d.core.seen_blobs rows,
      paths := savePathsRows d.core.paths rows } },
   fun d => { d with core := { d.core with blobs := saveMetaRows d.core.blobs ms } },
   fun d => { d with core := { d.core with
      scanned_commits := saveScanned d.core.scanned_commits commits } }]

/-- Execute one transaction; a failure anywhere up to and including the
commit yields an error. -/
def runTx (db : FullDb) (stmts : List (FullDb → FullDb)) (failAt : Option Nat) :
    Except Unit FullDb :=
  match failAt with
  | some n => if n ≤ stmts.length then .error () else .ok (stmts.foldl (fun d f => f d) db)
  | none => .ok (stmts.foldl (fun d f => f d) db)

/-- `apply_scan`: on error the transaction is rolled back and the store is
the original one. -/
def applyScanFull (db : FullDb) (rows : List BlobRow) (ms : List BlobMetaRow)
    (commits : List CommitInfo) (failAt : Option Nat) : FullDb :=
  match runTx db (applyScanStmts rows ms commits) failAt with
  | .error () => db
  | .ok d => d

/-- C7: one `apply_scan` call applies the delta's paths upserts, metadata
ignore-on-conflict inserts and scanned-commit markers so that either all
three groups are visible after the call, or — when any statement of the
transaction (or its commit) fails — none are and the store, including the
HEAD cursor, is unchanged; the HEAD cursor is untouched in every case. -/
theorem apply_scan_atomic (db : FullDb) (rows : List BlobRow)
    (ms : List BlobMetaRow) (commits : List CommitInfo) :
    (∀ n, n ≤ (applyScanStmts rows ms commits).length →
      runTx db (applyScanStmts rows ms commits) (some n) = .error () ∧
      applyScanFull db rows ms commits (some n) = db) ∧
    (applyScanFull db rows ms commits none).core.paths =
      savePathsRows db.core.paths rows ∧
    (applyScanFull db rows ms commits none).core.seen_blobs =
      saveSeenBlobs db.core.seen_blobs rows ∧
    (applyScanFull db rows ms commits none).core.blobs =
      saveMetaRows db.core.blobs ms ∧
    (applyScanFull db rows ms commits none).core.scanned_commits =
      saveScanned db.core.scanned_commits commits ∧
    (∀ failAt, (applyScanFull db rows ms commits failAt).head_oid = db.head_oid) := by
  refine ⟨?_, rfl, rfl, rfl, rfl, ?_⟩
  · intro n hn
    have herr : runTx db (applyScanStmts rows ms commits) (some n) = .error () := by
      rw [runTx]
      rw [if_pos hn]
    exact ⟨herr, by rw [applyScanFull, herr]⟩
  · intro failAt
    cases failAt with
    | none => rfl
    | some n =>
        by_cases hn : n ≤ (applyScanStmts rows ms commits).length
        · have herr : runTx db (applyScanStmts rows ms commits) (some n) = .error () := by
            rw [runTx, if_pos hn]
          rw [applyScanFull, herr]
        · have hok : runTx db (applyScanStmts rows ms commits) (some n) =
              .ok ((applyScanStmts rows ms commits).foldl (fun d f => f d) db) := by
            rw [runTx, if_neg hn]
          rw [applyScanFull, hok]
          rfl

/-- Witness for C7 at a concrete store and delta. -/
theorem apply_scan_atomic_witness :
    (∀ n, n ≤ (applyScanStmts [⟨10, ['a'], 5, 5⟩] [⟨10, 5, ['a'], ['u'], 1⟩] [exC1]).length →
      runTx ⟨⟨[], [], [], []⟩, some ['h']⟩
        (applyScanStmts [⟨10, ['a'], 5, 5⟩] [⟨10, 5, ['a'], ['u'], 1⟩] [exC1]) (some n) =
        .error () ∧
      applyScanFull ⟨⟨[], [], [], []⟩, some ['h']⟩ [⟨10, ['a'], 5, 5⟩]
        [⟨10, 5, ['a'], ['u'], 1⟩] [exC1] (some n) = ⟨⟨[], [], [], []⟩, some ['h']⟩) ∧
    (applyScanFull ⟨⟨[], [], [], []⟩, some ['h']⟩ [⟨10, ['a'], 5, 5⟩]
        [⟨10, 5, ['a'], ['u'], 1⟩] [exC1] none).core.paths =
      savePathsRows (⟨⟨[], [], [], []⟩, some ['h']⟩ : FullDb).core.paths [⟨10, ['a'], 5, 5⟩] ∧
    (applyScanFull ⟨⟨[], [], [], []⟩, some ['h']⟩ [⟨10, ['a'], 5, 5⟩]
        [⟨10, 5, ['a'], ['u'], 1⟩] [exC1] none).core.seen_blobs =
      saveSeenBlobs (⟨⟨[], [], [], []⟩, some ['h']⟩ : FullDb).core.seen_blobs
        [⟨10, ['a'], 5, 5⟩] ∧
    (applyScanFull ⟨⟨[], [], [], []⟩, some ['h']⟩ [⟨10, ['a'], 5, 5⟩]
        [⟨10, 5, ['a'], ['u'], 1⟩] [exC1] none).core.blobs =
      saveMetaRows (⟨⟨[], [], [], []⟩, some ['h']⟩ : FullDb).core.blobs
        [⟨10, 5, ['a'], ['u'], 1⟩] ∧
    (applyScanFull ⟨⟨[], [], [], []⟩, some ['h']⟩ [⟨10, ['a'], 5, 5⟩]
        [⟨10, 5, ['a'], ['u'], 1⟩] [exC1] none).core.scanned_commits =
      saveScanned (⟨⟨[], [], [], []⟩, some ['h']⟩ : FullDb).core.scanned_commits [exC1] ∧
    (∀ failAt, (applyScanFull ⟨⟨[], [], [], []⟩, some ['h']⟩ [⟨10, ['a'], 5, 5⟩]
        [⟨10, 5, ['a'], ['u'], 1⟩] [exC1] failAt).head_oid =
      (⟨⟨[], [], [], []⟩, some ['h']⟩ : FullDb).head_oid) :=
  apply_scan_atomic ⟨⟨[], [], [], []⟩, some ['h']⟩ [⟨10, ['a'], 5, 5⟩]
    [⟨10, 5, ['a'], ['u'], 1⟩] [exC1]

/-- Witness for C2 at a concrete input: empty per-run state, HEAD holding
oid 5 of size 4 at path "a". -/
theorem per_blob_emission_witness :
    ((['a'], 5) ∉ (⟨[], [], [], [], []⟩ : ScanState).seenPathBlobs) ∧
    ((∀ ho s, headLookup ⟨[(['a'], 5, 4)]⟩ ['a'] = some (ho, s) →
        currentSizeAt ⟨[(['a'], 5, 4)]⟩ ['a'] 5 = if ho = 5 then s else 0) ∧
    (headLookup ⟨[(['a'], 5, 4)]⟩ ['a'] = none → currentSizeAt ⟨[(['a'], 5, 4)]⟩ ['a'] 5 = 0) ∧
    (5 ∉ (⟨[], [], [], [], []⟩ : ScanState).seenBlobs →
      (handleBlob (fun _ => 9) ⟨[(['a'], 5, 4)]⟩ ⟨1, 2, [], ['u'], 7⟩ 5 ['a']
          ⟨[], [], [], [], []⟩).blobs =
        (⟨[], [], [], [], []⟩ : ScanState).blobs ++
          [⟨5, ['a'], (fun (_ : Oid) => (9 : Int)) 5, currentSizeAt ⟨[(['a'], 5, 4)]⟩ ['a'] 5⟩] ∧
      (handleBlob (fun _ => 9) ⟨[(['a'], 5, 4)]⟩ ⟨1, 2, [], ['u'], 7⟩ 5 ['a']
          ⟨[], [], [], [], []⟩).metadata =
        (⟨[], [], [], [], []⟩ : ScanState).metadata ++
          [⟨5, (fun (_ : Oid) => (9 : Int)) 5, ['a'],
            (⟨1, 2, [], ['u'], 7⟩ : CommitInfo).author,
            (⟨1, 2, [], ['u'], 7⟩ : CommitInfo).timestamp⟩]) ∧
    (5 ∈ (⟨[], [], [], [], []⟩ : ScanState).seenBlobs →
        currentSizeAt ⟨[(['a'], 5, 4)]⟩ ['a'] 5 > 0 →
      (handleBlob (fun _ => 9) ⟨[(['a'], 5, 4)]⟩ ⟨1, 2, [], ['u'], 7⟩ 5 ['a']
          ⟨[], [], [], [], []⟩).blobs =
        (⟨[], [], [], [], []⟩ : ScanState).blobs ++
          [⟨5, ['a'], 0, currentSizeAt ⟨[(['a'], 5, 4)]⟩ ['a'] 5⟩] ∧
      (handleBlob (fun _ => 9) ⟨[(['a'], 5, 4)]⟩ ⟨1, 2, [], ['u'], 7⟩ 5 ['a']
          ⟨[], [], [], [], []⟩).metadata = (⟨[], [], [], [], []⟩ : ScanState).metadata) ∧
    (5 ∈ (⟨[], [], [], [], []⟩ : ScanState).seenBlobs →
        ¬ currentSizeAt ⟨[(['a'], 5, 4)]⟩ ['a'] 5 > 0 →
      (handleBlob (fun _ => 9) ⟨[(['a'], 5, 4)]⟩ ⟨1, 2, [], ['u'], 7⟩ 5 ['a']
          ⟨[], [], [], [], []⟩).blobs = (⟨[], [], [], [], []⟩ : ScanState).blobs ∧
      (handleBlob (fun _ => 9) ⟨[(['a'], 5, 4)]⟩ ⟨1, 2, [], ['u'], 7⟩ 5 ['a']
          ⟨[], [], [], [], []⟩).metadata = (⟨[], [], [], [], []⟩ : ScanState).metadata)) :=
  ⟨by decide,
   per_blob_emission (fun _ => 9) ⟨[(['a'], 5, 4)]⟩ ⟨1, 2, [], ['u'], 7⟩ 5 ['a']
     ⟨[], [], [], [], []⟩ (by decide)⟩

end Repodiet
